import Mathlib

/-!
# fscribe: the tree-diagram parser of `main.go`

A shallow embedding of `ParseTree` (main.go, lines 19-72) together with the
library routines it calls, and theorems about it.

Conventions of the embedding.

* A Go `string` is a `List Char`: the text is taken to be valid UTF-8, a
  character standing for its encoded bytes.  Byte lengths, which matter for the
  scanner's token limit, are computed with `Char.utf8Size`.
* A `*Node` is an index into an explicit heap of node records; `&Node{...}`
  allocates the next free index.  The tree that a pointer denotes is read back
  with `derefNode`.
* A runtime panic (index out of range) is the outcome `Outcome.panicked`.
-/

namespace Fscribe

/-! ## Strings -/

/-- Go `len(s)`: the number of bytes of the UTF-8 encoding. -/
def byteLen : List Char → Nat
  | [] => 0
  | c :: cs => c.utf8Size + byteLen cs

/-- Go `strings.HasSuffix(s, "/")` and its like for a one-character suffix. -/
def hasSuffixChar (c : Char) : List Char → Bool
  | [] => false
  | [x] => x == c
  | _ :: y :: rest => hasSuffixChar c (y :: rest)

/-- Go `strings.TrimSuffix(s, "/")` and its like for a one-character suffix:
the suffix is removed once when present. -/
def trimSuffixChar (c : Char) (s : List Char) : List Char :=
  if hasSuffixChar c s then s.dropLast else s

/-- Worker of `stringsCount`: `skip` characters of a counted occurrence remain
to be stepped over before the search resumes. -/
def stringsCountAux (sub : List Char) : Nat → List Char → Nat
  | _, [] => 0
  | skip + 1, _ :: cs => stringsCountAux sub skip cs
  | 0, c :: cs =>
    if sub.isPrefixOf (c :: cs) then 1 + stringsCountAux sub (sub.length - 1) cs
    else stringsCountAux sub 0 cs

/-- Go `strings.Count(s, sub)` for a non-empty `sub`: the number of
non-overlapping occurrences, found from left to right. -/
def stringsCount (s sub : List Char) : Nat := stringsCountAux sub 0 s

/-! ## The line scanner -/

/-- Go `bufio.MaxScanTokenSize`: the size the scanner's buffer may grow to. -/
def maxScanTokenSize : Nat := 65536

/-- The `dropCR` of `bufio.ScanLines`: one trailing carriage return is removed. -/
def dropCR (line : List Char) : List Char := trimSuffixChar '\r' line

/-- The characters of `s` that fit in a buffer of `room` bytes. -/
def bufferFill : Nat → List Char → List Char
  | _, [] => []
  | room, c :: cs => if c.utf8Size ≤ room then c :: bufferFill (room - c.utf8Size) cs else []

/-- State of a `bufio.Scanner` over `strings.NewReader(input)` with the
default split function `ScanLines`: the input not yet handed out, and whether
`ErrTooLong` has been recorded. -/
structure Scanner where
  rest : List Char
  tooLong : Bool

/-- Go `bufio.NewScanner(strings.NewReader(input))`. -/
def newScanner (input : List Char) : Scanner := ⟨input, false⟩

/-- One call of `scanner.Scan()`; the token is what `scanner.Text()` returns
after a call that returned true, `none` stands for a call that returned false.

A line and its newline must fit in the buffer, which grows to
`maxScanTokenSize` bytes and no further: a line of `maxScanTokenSize` bytes or
more makes `Scan` record `ErrTooLong` and return false.  A call made after that
hands the buffered bytes to the split function as the final token (they hold
no newline) and the scanner is exhausted. -/
def Scanner.Scan (s : Scanner) : Option (List Char) × Scanner :=
  if s.tooLong then
    match s.rest with
    | [] => (none, s)
    | _ :: _ => (some (dropCR (bufferFill maxScanTokenSize s.rest)), ⟨[], true⟩)
  else
    match s.rest.span (fun c => c != '\n') with
    | (line, _ :: more) =>
      if byteLen line < maxScanTokenSize then (some (dropCR line), ⟨more, false⟩)
      else (none, ⟨s.rest, true⟩)
    | (line, []) =>
      match line with
      | [] => (none, s)
      | _ :: _ =>
        if byteLen line < maxScanTokenSize then (some (dropCR line), ⟨[], false⟩)
        else (none, ⟨s.rest, true⟩)

/-! ## The line pattern

`dirRegex` is `^([│\s]*)([├└]── )?(.+?)/?$`.  Go's `regexp` returns the match
a backtracking search finds first; the functions below are that search, one
per part of the pattern, each trying its alternatives in the order of
preference (greedy: longer first, lazy: shorter first). -/

/-- The class `[│\s]`; `\s` is `[\t\n\f\r ]`. -/
def isIndentChar (c : Char) : Bool :=
  c == '│' || c == '\t' || c == '\n' || c == '\x0c' || c == '\r' || c == ' '

/-- The class `.` (no `s` flag): any character but a newline. -/
def isDotChar (c : Char) : Bool := c != '\n'

/-- The tail `/?$` of the pattern: the optional slash is greedy, and `$`
matches at the end of the text only. -/
def matchSlashEnd : List Char → Bool
  | ['/'] => true
  | [] => true
  | _ => false

/-- The loop of the lazy `.+?` after its first character, followed by `/?$`:
stop as soon as the tail matches, else take one more character. -/
def matchNameRest : List Char → Option (List Char)
  | [] => some []
  | c :: cs =>
    if matchSlashEnd (c :: cs) then some []
    else if isDotChar c then (matchNameRest cs).map (fun n => c :: n)
    else none

/-- The part `(.+?)/?$` of the pattern: the captured name. -/
def matchName : List Char → Option (List Char)
  | [] => none
  | c :: cs => if isDotChar c then (matchNameRest cs).map (fun n => c :: n) else none

/-- The text starts with `[├└]── `, the branch marker of the pattern. -/
def startsWithMarker (s : List Char) : Bool :=
  (['├', '─', '─', ' '] : List Char).isPrefixOf s || (['└', '─', '─', ' '] : List Char).isPrefixOf s

/-- The part `([├└]── )?(.+?)/?$`: the optional marker is greedy, so the
branch that takes the four characters of a marker is tried first. -/
def matchMarkerName (s : List Char) : Option (List Char) :=
  if startsWithMarker s then
    match matchName (s.drop 4) with
    | some n => some n
    | none => matchName s
  else matchName s

/-- The whole pattern from the start of the text: the greedy `[│\s]*` first
takes a character of its class and gives it back when the rest fails.  The
result is the pair of submatches 1 and 3. -/
def matchIndent : List Char → Option (List Char × List Char)
  | [] => (matchMarkerName []).map (fun n => ([], n))
  | c :: cs =>
    if isIndentChar c then
      match matchIndent cs with
      | some (indent, n) => some (c :: indent, n)
      | none => (matchMarkerName (c :: cs)).map (fun n => ([], n))
    else (matchMarkerName (c :: cs)).map (fun n => ([], n))

/-- Go `dirRegex.FindStringSubmatch(line)`: `none` is the nil result of a
line that does not match; a match always has the four entries the loop asks
for, of which the embedding keeps `matches[1]` and `matches[3]`. -/
def dirRegex (line : List Char) : Option (List Char × List Char) := matchIndent line

/-! ## Nodes and the heap -/

/-- Go `type Node struct`, as the tree a `*Node` denotes. -/
structure Node where
  Name : List Char
  IsDir : Bool
  Children : List Node

/-- Go `Node` as it lies in memory: the children are pointers. -/
structure NodeRec where
  Name : List Char
  IsDir : Bool
  Children : List Nat

/-- The tree the pointer `p` denotes in the heap `h`, followed to the depth
`fuel`; `none` when a pointer leaves the heap or the fuel runs out, which does
not happen for the heap `ParseTree` builds (`ParseTree_eq_frameRun`). -/
def derefNode (h : List NodeRec) : Nat → Nat → Option Node
  | 0, _ => none
  | fuel + 1, p =>
    match h[p]? with
    | none => none
    | some r => (r.Children.mapM (derefNode h fuel)).map (fun cs => ⟨r.Name, r.IsDir, cs⟩)

/-- The variables of `ParseTree` that the loop reads and writes. -/
structure PState where
  heap : List NodeRec
  stack : List Nat
  lastDepth : Int

/-- Outcome of a call: a runtime panic, or the returned pair. -/
inductive Outcome (α : Type) where
  | panicked : Outcome α
  | returned (root : Option α) (err : Option String) : Outcome α

/-- Go `strings.Count(indent, "│") + strings.Count(indent, "    ")`. -/
def computeDepth (indent : List Char) : Nat :=
  stringsCount indent ['│'] + stringsCount indent [' ', ' ', ' ', ' ']

/-- Go `parent.Children = append(parent.Children, node)`. -/
def appendChild (h : List NodeRec) (parent node : Nat) : List NodeRec :=
  h.modify (fun r => { r with Children := r.Children ++ [node] }) parent

/-- The body of the loop `for scanner.Scan()` of `ParseTree` for one line;
`none` is the panic of `stack[depth]` out of range.  The reslice
`stack[:depth+1]` is `List.take`: whenever it is executed the stack has at
least `depth + 1` entries (`reslice_in_range`), so that the capacity of the
slice plays no part. -/
def processLine (st : PState) (line : List Char) : Option PState :=
  match dirRegex line with
  | none => some st
  | some (indent, name) =>
    let depth := computeDepth indent
    let isDir := hasSuffixChar '/' line
    let stack := if (depth : Int) ≤ st.lastDepth then st.stack.take (depth + 1) else st.stack
    let node := st.heap.length
    let heap := st.heap ++ [⟨name, isDir, []⟩]
    match stack[depth]? with
    | none => none
    | some parent =>
      some ⟨appendChild heap parent node, if isDir then stack ++ [node] else stack, depth⟩

/-- The loop `for scanner.Scan()` of `ParseTree`; every turn that does not
end the loop consumes input, so `fuel` above the length of the unread input
is never used up (`parseLoop_fuel`). -/
def parseLoop : Nat → Scanner → PState → Option PState
  | 0, _, st => some st
  | fuel + 1, sc, st =>
    match sc.Scan with
    | (none, _) => some st
    | (some line, sc') =>
      match processLine st line with
      | none => none
      | some st' => parseLoop fuel sc' st'

/-- The state in which `ParseTree` enters its loop after a first line: the
root node, allocated at address 0, is the only entry of the stack. -/
def rootState (line : List Char) : PState :=
  ⟨[⟨trimSuffixChar '/' line, true, []⟩], [0], 0⟩

/-- The state in which `ParseTree` enters its loop when the first
`scanner.Scan()` returned false: `root` and `stack` are nil. -/
def nilState : PState := ⟨[], [], -1⟩

/-- Go `ParseTree` up to its `return`: the memory it leaves and the pointer
`root`; `none` is a panic. -/
def parseTreeMem (input : List Char) : Option (List NodeRec × Option Nat) :=
  match (newScanner input).Scan with
  | (some line, sc) =>
    (parseLoop (input.length + 1) sc (rootState line)).map (fun st => (st.heap, some 0))
  | (none, sc) =>
    (parseLoop (input.length + 1) sc nilState).map (fun st => (st.heap, none))

/-- Go `ParseTree(input)`, the returned root read back as a tree. -/
def ParseTree (input : List Char) : Outcome Node :=
  match parseTreeMem input with
  | none => .panicked
  | some (_, none) => .returned none none
  | some (h, some p) =>
    match derefNode h h.length p with
    | some t => .returned (some t) none
    | none => .panicked

/-- The literal `treeInput` of `main`. -/
def treeInput : List Char :=
  "project/\n├── README.md\n├── src/\n│   ├── index.ts\n│   └── utils/\n│       └── date.ts\n└── .gitignore".toList

/-- The tree `main` expects from `treeInput`. -/
def exampleTree : Node :=
  ⟨"project".toList, true,
    [⟨"README.md".toList, false, []⟩,
     ⟨"src".toList, true,
       [⟨"index.ts".toList, false, []⟩,
        ⟨"utils".toList, true, [⟨"date.ts".toList, false, []⟩]⟩]⟩,
     ⟨".gitignore".toList, false, []⟩]⟩

/-! ## Reading trees -/

mutual
/-- Number of nodes of a tree. -/
def Node.size : Node → Nat
  | ⟨_, _, cs⟩ => 1 + Node.sizeList cs
/-- Number of nodes of a forest. -/
def Node.sizeList : List Node → Nat
  | [] => 0
  | c :: cs => c.size + Node.sizeList cs
end

mutual
/-- The nodes of a tree in pre-order: a node before its children, the
children from first to last. -/
def Node.nodes : Node → List Node
  | ⟨n, d, cs⟩ => ⟨n, d, cs⟩ :: Node.nodesList cs
/-- The nodes of a forest in pre-order. -/
def Node.nodesList : List Node → List Node
  | [] => []
  | c :: cs => c.nodes ++ Node.nodesList cs
end

/-- Name and directory flag of every node, in pre-order. -/
def Node.preorder (t : Node) : List (List Char × Bool) :=
  t.nodes.map (fun n => (n.Name, n.IsDir))

mutual
/-- Distance from the root of every node, in pre-order, the root of the
tree being at distance `k`. -/
def Node.depthsFrom (k : Nat) : Node → List Nat
  | ⟨_, _, cs⟩ => k :: Node.depthsFromList (k + 1) cs
/-- Distances of the nodes of a forest whose roots are at distance `k`. -/
def Node.depthsFromList (k : Nat) : List Node → List Nat
  | [] => []
  | c :: cs => c.depthsFrom k ++ Node.depthsFromList k cs
end

/-! ## The lines of an input -/

/-- The lines the loop `for scanner.Scan()` goes through, from the scanner
state `sc` on. -/
def scanLoopLines : Nat → Scanner → List (List Char)
  | 0, _ => []
  | fuel + 1, sc =>
    match sc.Scan with
    | (none, _) => []
    | (some line, sc') => line :: scanLoopLines fuel sc'

/-- The loop body run over a list of lines, stopping at a panic. -/
def runLines (st : PState) : List (List Char) → Option PState
  | [] => some st
  | line :: rest =>
    match processLine st line with
    | none => none
    | some st' => runLines st' rest

/-- Name and directory flag the loop body gives the node of an accepted
line; `none` for a line the pattern rejects. -/
def lineEntry (line : List Char) : Option (List Char × Bool) :=
  (dirRegex line).map (fun m => (m.2, hasSuffixChar '/' line))

/-- Depth the loop body computes for an accepted line. -/
def lineDepth (line : List Char) : Option Nat :=
  (dirRegex line).map (fun m => computeDepth m.1)

/-! ## Rendering a tree as a diagram

The standard rendering that the round-trip property of the specification
(section 8) speaks of: the first line is the root name followed by `/`; an
entry at nesting level `k ≥ 1` is `k - 1` indent blocks, then a branch marker,
then the name, then `/` for a directory.  It is not part of `main.go`, whose
`treeInput` is the rendering of `exampleTree`. -/

/-- The indent block of an ancestor: `│   ` when it has later siblings, four
spaces otherwise. -/
def indentBlock (more : Bool) : List Char :=
  if more then ['│', ' ', ' ', ' '] else [' ', ' ', ' ', ' ']

/-- The branch marker of an entry: `├── ` when it has later siblings,
`└── ` when it is the last child. -/
def branchMarker (more : Bool) : List Char :=
  if more then ['├', '─', '─', ' '] else ['└', '─', '─', ' ']

/-- The suffix of an entry line: `/` for a directory. -/
def dirSuffix (isDir : Bool) : List Char := if isDir then ['/'] else []

mutual
/-- The lines of an entry and of what lies below it; `pre` is the indent of
the entry and `more` tells whether siblings follow it. -/
def renderNode (pre : List Char) (more : Bool) : Node → List (List Char)
  | ⟨n, d, cs⟩ =>
    (pre ++ branchMarker more ++ n ++ dirSuffix d) :: renderChildren (pre ++ indentBlock more) cs
/-- The lines of the children of an entry, `pre` being their indent. -/
def renderChildren (pre : List Char) : List Node → List (List Char)
  | [] => []
  | c :: cs => renderNode pre (!cs.isEmpty) c ++ renderChildren pre cs
end

/-- The lines of the diagram of a tree: the root name followed by `/`, then
the entries. -/
def renderLines (t : Node) : List (List Char) :=
  (t.Name ++ ['/']) :: renderChildren [] t.Children

/-- Lines joined by newlines, none after the last. -/
def joinLines : List (List Char) → List Char
  | [] => []
  | [l] => l
  | l :: l' :: ls => l ++ '\n' :: joinLines (l' :: ls)

/-- The diagram of a tree as one text. -/
def render (t : Node) : List Char := joinLines (renderLines t)


/-- An indent made of standard blocks, one per ancestor below the root:
`true` stands for `│   `, `false` for four spaces. -/
def indentBlocks : List Bool → List Char
  | [] => []
  | b :: bs => indentBlock b ++ indentBlocks bs


/-! ## Ghost view of the memory

A proof device: the trees and the ancestor stack that the heap and the stack of
pointers represent.  Nodes are allocated in the order of the lines, so a tree
whose root lies at address `p` occupies the addresses `p`, ..., `p + size - 1`
in pre-order. -/

/-- The pointers to the children `cs` when the first child lies at `q`. -/
def childPtrs : Nat → List Node → List Nat
  | _, [] => []
  | q, c :: cs => q :: childPtrs (q + c.size) cs

mutual
/-- The heap holds the tree `t` at address `p`. -/
def Rep (h : List NodeRec) : Nat → Node → Prop
  | p, ⟨n, d, cs⟩ => h[p]? = some ⟨n, d, childPtrs (p + 1) cs⟩ ∧ RepList h (p + 1) cs
/-- The heap holds the trees `cs` one after the other from address `q` on. -/
def RepList (h : List NodeRec) : Nat → List Node → Prop
  | _, [] => True
  | q, c :: cs => Rep h q c ∧ RepList h (q + c.size) cs
end

/-- An entry of the ancestor stack: a node some of whose children are
complete (`done`), the last child being the next entry of the stack, if any. -/
structure Frame where
  Name : List Char
  IsDir : Bool
  done : List Node

/-- The tree of a stack, listed from the bottom: each entry becomes the last
child of the entry below.  The result has one tree, or none for the empty
stack. -/
def closeFrames : List Frame → List Node
  | [] => []
  | f :: fs => [⟨f.Name, f.IsDir, f.done ++ closeFrames fs⟩]

/-- The heap holds the stack `fs` (bottom first) from address `p` on, and
nothing after it. -/
def FramesRep (h : List NodeRec) : Nat → List Frame → Prop
  | p, [] => p = h.length
  | p, f :: fs =>
    h[p]? = some ⟨f.Name, f.IsDir, childPtrs (p + 1) (f.done ++ closeFrames fs)⟩ ∧
    RepList h (p + 1) f.done ∧ FramesRep h (p + 1 + Node.sizeList f.done) fs

/-- The addresses of the entries of a stack whose bottom lies at `p`. -/
def stackPtrs : Nat → List Frame → List Nat
  | _, [] => []
  | p, f :: fs => p :: stackPtrs (p + 1 + Node.sizeList f.done) fs

/-- The stack cut to its `k` lowest entries, `k ≥ 1`: the entries above are
complete and become the last child of entry `k - 1`. -/
def truncFrames : Nat → List Frame → List Frame
  | 0, _ => []
  | _ + 1, [] => []
  | 1, f :: fs => [{ f with done := f.done ++ closeFrames fs }]
  | k + 2, f :: fs => f :: truncFrames (k + 1) fs

/-- A complete child is added to the top entry of a stack. -/
def addDone : List Frame → Node → List Frame
  | [], _ => []
  | [f], c => [{ f with done := f.done ++ [c] }]
  | f :: g :: fs, c => f :: addDone (g :: fs) c

/-- A new node is attached below the top entry: a directory becomes the new
top entry, a file is complete at once. -/
def attachFrames (fs : List Frame) (name : List Char) (isDir : Bool) : List Frame :=
  if isDir then fs ++ [⟨name, true, []⟩] else addDone fs ⟨name, false, []⟩

/-- The loop body on the ghost stack; `none` is the panic. -/
def frameStep (fs : List Frame) (line : List Char) : Option (List Frame) :=
  match dirRegex line with
  | none => some fs
  | some (indent, name) =>
    if computeDepth indent + 1 ≤ fs.length then
      some (attachFrames (truncFrames (computeDepth indent + 1) fs) name (hasSuffixChar '/' line))
    else none

/-- The loop body run over lines on the ghost stack. -/
def frameRun (fs : List Frame) : List (List Char) → Option (List Frame)
  | [] => some fs
  | line :: rest =>
    match frameStep fs line with
    | none => none
    | some fs' => frameRun fs' rest

/-- The ghost stack represents the loop state. -/
def Inv (st : PState) (fs : List Frame) : Prop :=
  FramesRep st.heap 0 fs ∧ st.stack = stackPtrs 0 fs ∧
  st.lastDepth + 1 ≤ fs.length ∧ (fs.length : Int) ≤ st.lastDepth + 2

/-! ## Notions used in the statements -/

/-- The lines the loop goes through from the scanner state `sc` on, with fuel
that is never used up. -/
def linesOf (sc : Scanner) : List (List Char) := scanLoopLines (sc.rest.length + 1) sc

/-- The name the pattern captures from the part of a line after the indent
and the marker: a final `/` is left out unless it is the only character. -/
def entryName (rest : List Char) : List Char :=
  if rest = ['/'] then rest else trimSuffixChar '/' rest

/-- In a forest, every node that is not a directory has no children. -/
def FilesAreLeaves (cs : List Node) : Prop :=
  ∀ n ∈ Node.nodesList cs, n.IsDir = false → n.Children = []

/-- A node a diagram can carry: its name is not empty and holds no `/` and
no line break, and it has no children unless it is a directory. -/
def NodeOK (n : Node) : Prop :=
  n.Name ≠ [] ∧ '/' ∉ n.Name ∧ '\n' ∉ n.Name ∧ '\r' ∉ n.Name ∧
  (n.IsDir = false → n.Children = [])

/-- A line the scanner hands on as it is: not empty, without line break. -/
def LineOK (l : List Char) : Prop := l ≠ [] ∧ '\n' ∉ l ∧ '\r' ∉ l

/-- The state of the loop of `ParseTree` on `treeInput` before its last
line: six nodes, with the root, `src` and `utils` on the stack. -/
def stateBeforeLastLine : PState :=
  ⟨[⟨"project".toList, true, [1, 2]⟩, ⟨"README.md".toList, false, []⟩,
    ⟨"src".toList, true, [3, 4]⟩, ⟨"index.ts".toList, false, []⟩,
    ⟨"utils".toList, true, [5]⟩, ⟨"date.ts".toList, false, []⟩], [0, 2, 4], 2⟩

/-- A tree with one file whose name is `len` times the letter `a`. -/
def longNameTree (len : Nat) : Node :=
  ⟨['r'], true, [⟨List.replicate len 'a', false, []⟩]⟩

/-! ## More of the ghost view -/

/-- The frame of the root after a first line. -/
def rootFrame (line : List Char) : Frame := ⟨trimSuffixChar '/' line, true, []⟩

/-- Name and directory flag of the nodes of a forest, in pre-order. -/
def preorderList (cs : List Node) : List (List Char × Bool) :=
  (Node.nodesList cs).map (fun n => (n.Name, n.IsDir))

/-- Every entry of the ghost stack is a directory, and the files among its
complete children have no children. -/
def FramesOK (fs : List Frame) : Prop :=
  ∀ f ∈ fs, f.IsDir = true ∧ FilesAreLeaves f.done

/-- Complete children are added, first to last, to the top entry of a ghost
stack. -/
def addDones (fs : List Frame) (cs : List Node) : List Frame := cs.foldl addDone fs


/-- The condition on the depths of the accepted lines under which the loop
does not panic: each has a depth `d ≤ p`, or `d = p + 1` after a directory
line, `p` being the depth of the accepted line before it and `prevDir` telling
whether that line was a directory line. -/
def depthsOK (p : Nat) (prevDir : Bool) : List (List Char) → Bool
  | [] => true
  | l :: ls =>
    match dirRegex l with
    | none => depthsOK p prevDir ls
    | some m =>
      (decide (computeDepth m.1 ≤ p) || (computeDepth m.1 == p + 1 && prevDir)) &&
        depthsOK (computeDepth m.1) (hasSuffixChar '/' l) ls


/-- Depth and directory flag the loop body computes for an accepted line;
`none` for a line the pattern rejects. -/
def depthEntry (line : List Char) : Option (Nat × Bool) :=
  (dirRegex line).map (fun m => (computeDepth m.1, hasSuffixChar '/' line))

/-- The children of the node at address `q` of a heap; none for an address
outside the heap. -/
def childrenAt (h : List NodeRec) (q : Nat) : List Nat :=
  match h[q]? with
  | none => []
  | some r => r.Children


/-- Ghost: the parents of the nodes created so far.  `es` lists depth and
directory flag of the accepted lines; the node of line `i` (counted from 0)
lies at address `i + 1`.  A node of depth 0 is a child of the root; a node of
depth `d > 0` is a child of the node of the last line before it of depth below
`d`, which is a directory line of depth `d - 1`. -/
def ParentsOK (h : List NodeRec) (es : List (Nat × Bool)) : Prop :=
  ∀ i d b, es[i]? = some (d, b) →
    (d = 0 → i + 1 ∈ childrenAt h 0) ∧
    (0 < d → ∃ j, j < i ∧ es[j]? = some (d - 1, true) ∧
      (∀ k dk bk, j < k → k < i → es[k]? = some (dk, bk) → d ≤ dk) ∧
      i + 1 ∈ childrenAt h (j + 1))

/-- Ghost: what stands on the stack.  Entry 0 is the root; entry `k > 0` is
the node of a directory line of depth `k - 1` after which all lines had a
depth of `k` or more. -/
def StackOK (stack : List Nat) (es : List (Nat × Bool)) : Prop :=
  ∀ k q, stack[k]? = some q →
    (k = 0 → q = 0) ∧
    (0 < k → ∃ j, q = j + 1 ∧ es[j]? = some (k - 1, true) ∧
      ∀ m dm bm, j < m → es[m]? = some (dm, bm) → k ≤ dm)


/-! ## Paths

Go `path/filepath` on Unix, where the separator is `/` and there is no volume
name. -/

/-- The elements of a path between its separators; `a//b` has an empty
element. -/
def splitSlash : List Char → List (List Char)
  | [] => [[]]
  | c :: cs =>
    if c == '/' then [] :: splitSlash cs
    else
      match splitSlash cs with
      | [] => [[c]]
      | x :: xs => (c :: x) :: xs

/-- One element of a path in `filepath.Clean`, the elements kept so far being
`kept`, last first: empty elements and `.` are dropped; `..` removes the
element before it, is dropped at the root, and is kept where nothing but `..`
came before. -/
def cleanStep (rooted : Bool) (kept : List (List Char)) (elem : List Char) :
    List (List Char) :=
  if elem = [] ∨ elem = ['.'] then kept
  else if elem = ['.', '.'] then
    match kept with
    | [] => if rooted then [] else [elem]
    | top :: below => if top = ['.', '.'] then elem :: kept else below
  else elem :: kept

/-- Elements joined by the separator. -/
def joinSlash : List (List Char) → List Char
  | [] => []
  | [x] => x
  | x :: y :: rest => x ++ '/' :: joinSlash (y :: rest)

/-- Go `filepath.Clean(path)`: the shortest path equivalent to `path` by
purely lexical processing; `.` for an empty result. -/
def filepathClean (path : List Char) : List Char :=
  let rooted := path.head? == some '/'
  let body := joinSlash ((splitSlash path).foldl (cleanStep rooted) []).reverse
  if rooted then '/' :: body else if body = [] then ['.'] else body

/-- Go `filepath.Join(a, b)`: empty elements are ignored, the others are
joined by the separator and the result is cleaned; two empty elements give
the empty string. -/
def filepathJoin (a b : List Char) : List Char :=
  if a ≠ [] then filepathClean (a ++ '/' :: b)
  else if b ≠ [] then filepathClean b
  else []

/-- The part of a path up to and including its last separator. -/
def dirPrefix (path : List Char) : List Char :=
  (path.reverse.dropWhile (fun c => c != '/')).reverse

/-- Go `filepath.Dir(path)`: all but the last element of the path, cleaned. -/
def filepathDir (path : List Char) : List Char := filepathClean (dirPrefix path)

/-! ## The file system

The state the `os` calls of `BuildFileStructure` act on: what exists at each
path. The working directory, the root and the chains of `..` above the working
directory always exist as directories. -/

/-- What exists at a path. -/
inductive Entry where
  | dir
  | file (size : Nat)
  deriving DecidableEq, Repr

/-- The file system: the entry at each path, if any. -/
abbrev FS := List Char → Option Entry

/-- The file system with nothing in it. -/
def emptyFS : FS := fun _ => none

/-- The file system with entry `e` put at `path`. -/
def FS.insert (fs : FS) (path : List Char) (e : Entry) : FS :=
  fun q => if q = path then some e else fs q

/-- The paths that always name a directory: `.`, `/` and `..`, `../..`, ... -/
def alwaysDir (path : List Char) : Bool :=
  path == ['.'] || path == ['/'] ||
    (path != [] && (splitSlash path).all (fun elem => elem == ['.', '.']))

/-- The result of `os.Stat(path)`; nothing is at the empty path. -/
def FS.stat (fs : FS) (path : List Char) : Option Entry :=
  if path = [] then none else if alwaysDir path then some .dir else fs path

/-- Why an `os` call failed. -/
inductive OsError where
  | notExist
  | notDir
  | isDir
  deriving DecidableEq, Repr

/-- The prefixes of a path that end right before a separator, the empty one
left out, shortest first: the directories above it. -/
def slashPrefixes (acc : List Char) : List Char → List (List Char)
  | [] => []
  | c :: cs =>
    if c == '/' then
      if acc = [] then slashPrefixes (acc ++ [c]) cs
      else acc :: slashPrefixes (acc ++ [c]) cs
    else slashPrefixes (acc ++ [c]) cs

/-- The recursion of `os.MkdirAll` over a path and the directories above it,
nearest first: a directory that exists ends it, a file fails it, and what is
missing is created after everything above it. -/
def mkdirChain (fs : FS) : List (List Char) → Except OsError FS
  | [] => .ok fs
  | p :: above =>
    match fs.stat p with
    | some .dir => .ok fs
    | some (.file _) => .error .notDir
    | none =>
      match mkdirChain fs above with
      | .error e => .error e
      | .ok fs1 => .ok (fs1.insert p .dir)

/-- Go `os.MkdirAll(path, 0755)`: creates the directory `path` with all the
directories above it that are missing; no error if `path` is a directory
already. -/
def mkdirAll (fs : FS) (path : List Char) : Except OsError FS :=
  if path = [] then .error .notExist
  else mkdirChain fs (path :: (slashPrefixes [] path).reverse)

/-- Go `os.Create(path)`: creates the file `path` or truncates it if it
exists; the directory it is in must exist. -/
def create (fs : FS) (path : List Char) : Except OsError FS :=
  if path = [] then .error .notExist
  else
    match fs.stat path with
    | some .dir => .error .isDir
    | some (.file _) => .ok (fs.insert path (.file 0))
    | none =>
      if fs.stat (filepathDir path) = some .dir then .ok (fs.insert path (.file 0))
      else .error .notExist

/-- The two `os` calls that `BuildFileStructure` makes. -/
inductive OsOp where
  | mkdirAll
  | create
  deriving DecidableEq, Repr

/-- One `os` call as it happened: what was called on which path, and the
error it gave, if any. -/
structure OsCall where
  op : OsOp
  path : List Char
  err : Option OsError
  deriving DecidableEq, Repr

/-- The call `op path` made in state `fs`: the call as it happened and the
state after it, which is `fs` itself where the call fails. -/
def osCall (op : OsOp) (path : List Char) (fs : FS) : OsCall × FS :=
  match (match op with
    | .mkdirAll => mkdirAll fs path
    | .create => create fs path) with
  | .ok fs1 => (⟨op, path, none⟩, fs1)
  | .error e => (⟨op, path, some e⟩, fs)

/-- The errors of `BuildFileStructure`: the `os` error wrapped with one of
the three messages `failed to create directory %s`,
`failed to create parent directory for %s`, `failed to create file %s`,
where `%s` is the path of the node. -/
inductive BuildError where
  | createDirectory (path : List Char) (cause : OsError)
  | createParentDirectory (path : List Char) (cause : OsError)
  | createFile (path : List Char) (cause : OsError)
  deriving DecidableEq, Repr

/-- The `os` error a `BuildError` wraps. -/
def BuildError.cause : BuildError → OsError
  | .createDirectory _ c => c
  | .createParentDirectory _ c => c
  | .createFile _ c => c

/-- What a run of `BuildFileStructure` gives: the error returned (`none` for
`nil`), the file system it leaves, and the `os` calls it made, in order. -/
structure BuildResult where
  err : Option BuildError
  fs : FS
  calls : List OsCall

mutual
/-- Go `BuildFileStructure(node, basePath)` run on the file system `fs`. -/
def BuildFileStructure : Node → List Char → FS → BuildResult
  | ⟨name, isDir, children⟩, basePath, fs =>
    let path := filepathJoin basePath name
    if isDir then
      match osCall .mkdirAll path fs with
      | (c, fs1) =>
        match c.err with
        | some e => ⟨some (.createDirectory path e), fs1, [c]⟩
        | none =>
          let r := buildChildren children path fs1
          ⟨r.err, r.fs, c :: r.calls⟩
    else
      match osCall .mkdirAll (filepathDir path) fs with
      | (c, fs1) =>
        match c.err with
        | some e => ⟨some (.createParentDirectory path e), fs1, [c]⟩
        | none =>
          match osCall .create path fs1 with
          | (c2, fs2) =>
            match c2.err with
            | some e => ⟨some (.createFile path e), fs2, [c, c2]⟩
            | none => ⟨none, fs2, [c, c2]⟩
/-- The loop of `BuildFileStructure` over the children of a directory node:
the first error ends it. -/
def buildChildren : List Node → List Char → FS → BuildResult
  | [], _, fs => ⟨none, fs, []⟩
  | child :: rest, path, fs =>
    let r := BuildFileStructure child path fs
    match r.err with
    | some e => ⟨some e, r.fs, r.calls⟩
    | none =>
      let r2 := buildChildren rest path r.fs
      ⟨r2.err, r2.fs, r.calls ++ r2.calls⟩
end

mutual
/-- The nodes that `BuildFileStructure` visits when nothing fails, each with
its path, in pre-order: the children of a file node are not visited. -/
def nodePaths : Node → List Char → List (List Char × Bool)
  | ⟨name, isDir, children⟩, basePath =>
    (filepathJoin basePath name, isDir) ::
      (if isDir then nodePathsList children (filepathJoin basePath name) else [])
/-- The nodes visited below a directory at `path`. -/
def nodePathsList : List Node → List Char → List (List Char × Bool)
  | [], _ => []
  | child :: rest, path => nodePaths child path ++ nodePathsList rest path
end

/-- The `os` calls that `BuildFileStructure` makes for one node: `MkdirAll`
of its path for a directory; `MkdirAll` of the directory it is in, then
`Create`, for a file. -/
def callsOfNode (p : List Char × Bool) : List (OsOp × List Char) :=
  if p.2 then [(.mkdirAll, p.1)] else [(.mkdirAll, filepathDir p.1), (.create, p.1)]

/-- The `os` calls of a whole run in which nothing fails. -/
def plannedCalls (root : Node) (basePath : List Char) : List (OsOp × List Char) :=
  (nodePaths root basePath).flatMap callsOfNode

/-- The state after replaying calls that happened: a call that failed
changes nothing. -/
def replay (fs : FS) : List OsCall → FS
  | [] => fs
  | c :: cs => replay (osCall c.op c.path fs).2 cs

/-- The `basePath` of `main`. -/
def mainBasePath : List Char := ['.']


/-- What `BuildFileStructure` leaves for a node: a directory, or a file of
length zero. -/
def entryOf (isDir : Bool) : Entry := if isDir then .dir else .file 0

mutual
/-- Every node of a tree with its path: `basePath` joined with the names on
the way from the root to the node, in pre-order. -/
def treePaths : Node → List Char → List (List Char × Bool)
  | ⟨name, isDir, children⟩, basePath =>
    (filepathJoin basePath name, isDir) :: treePathsList children (filepathJoin basePath name)
/-- Every node of a forest below `path` with its path. -/
def treePathsList : List Node → List Char → List (List Char × Bool)
  | [], _ => []
  | child :: rest, path => treePaths child path ++ treePathsList rest path
end

/-- What was called on which path. -/
def OsCall.sig (c : OsCall) : OsOp × List Char := (c.op, c.path)

/-- The `os` call whose failure a `BuildError` reports. -/
def BuildError.failedCall : BuildError → OsOp × List Char
  | .createDirectory p _ => (.mkdirAll, p)
  | .createParentDirectory p _ => (.mkdirAll, filepathDir p)
  | .createFile p _ => (.create, p)

/-- Every directory and every file of length zero of `fs` is in `fs1` too. -/
def Persist (fs fs1 : FS) : Prop :=
  ∀ q isDir, fs.stat q = some (entryOf isDir) → fs1.stat q = some (entryOf isDir)

/-- A tree in which a file is made, then a directory of the same name, then
one more file. -/
def clashTree : Node :=
  ⟨['r'], true, [⟨['a'], false, []⟩, ⟨['a'], true, [⟨['c'], false, []⟩]⟩, ⟨['b'], false, []⟩]⟩


/-- A run that follows a plan of `os` calls and stops at the first call that
fails: the state it leaves is that of its calls replayed, it holds the entry
of every call that succeeded and every directory and file of length zero
that was there before; without error all calls of the plan were made and
none failed; with an error the calls are the start of the plan up to the one
that failed, which is the one the error reports, and the state is that of
the calls before it. -/
def FailFast (fs : FS) (r : BuildResult) (plan : List (OsOp × List Char)) : Prop :=
  r.fs = replay fs r.calls ∧ Persist fs r.fs ∧
  (∀ c ∈ r.calls, c.err = none →
    r.fs.stat c.path = some (entryOf (decide (c.op = .mkdirAll)))) ∧
  (r.err = none → (∀ c ∈ r.calls, c.err = none) ∧ r.calls.map OsCall.sig = plan) ∧
  (∀ e, r.err = some e → ∃ init last, r.calls = init ++ [last] ∧
    (∀ c ∈ init, c.err = none) ∧ last.err = some e.cause ∧ last.sig = e.failedCall ∧
    (init ++ [last]).map OsCall.sig <+: plan ∧ r.fs = replay fs init)


/-- A file system in which `project` exists and holds a file `README.md` of
seven bytes. -/
def usedFS : FS :=
  (emptyFS.insert "project".toList .dir).insert "project/README.md".toList (.file 7)

/-! ## Strings: suffixes -/

theorem hasSuffixChar_append_singleton (c x : Char) (s : List Char) :
    hasSuffixChar c (s ++ [x]) = (x == c) := by
  induction s with
  | nil => rfl
  | cons a s ih =>
    cases s with
    | nil => simp [hasSuffixChar]
    | cons b s => simpa [hasSuffixChar] using ih

theorem hasSuffixChar_iff (c : Char) (s : List Char) :
    hasSuffixChar c s = true ↔ s.getLast? = some c := by
  rcases List.eq_nil_or_concat s with rfl | ⟨s', x, rfl⟩
  · simp [hasSuffixChar]
  · rw [List.concat_eq_append, hasSuffixChar_append_singleton]; simp

theorem hasSuffixChar_false_iff (c : Char) (s : List Char) :
    hasSuffixChar c s = false ↔ s.getLast? ≠ some c := by
  rw [Ne, ← hasSuffixChar_iff]; cases hasSuffixChar c s <;> simp

theorem trimSuffixChar_append_singleton (c : Char) (s : List Char) :
    trimSuffixChar c (s ++ [c]) = s := by
  simp [trimSuffixChar, hasSuffixChar_append_singleton]

theorem trimSuffixChar_of_not (c : Char) (s : List Char) (h : s.getLast? ≠ some c) :
    trimSuffixChar c s = s := by
  simp [trimSuffixChar, (hasSuffixChar_false_iff c s).2 h]

theorem trimSuffixChar_sublist (c : Char) (s : List Char) :
    (trimSuffixChar c s).Sublist s := by
  unfold trimSuffixChar
  split
  · exact List.dropLast_sublist s
  · exact List.Sublist.refl s

theorem dropCR_of_not_mem (line : List Char) (h : '\r' ∉ line) : dropCR line = line := by
  apply trimSuffixChar_of_not
  intro hl
  exact h (List.mem_of_getLast?_eq_some hl)

/-! ## The scanner -/

theorem span_newline (line more : List Char) (h : '\n' ∉ line) :
    (line ++ '\n' :: more).span (fun c => c != '\n') = (line, '\n' :: more) := by
  induction line with
  | nil => simp [List.span_eq_take_drop]
  | cons a l ih =>
    have ha : a ≠ '\n' := fun e => h (by simp [e])
    have hl : '\n' ∉ l := fun e => h (by simp [e])
    simp [List.span_eq_take_drop, List.takeWhile_cons, List.dropWhile_cons, ha] at ih ⊢
    exact ih hl

theorem span_no_newline (line : List Char) (h : '\n' ∉ line) :
    line.span (fun c => c != '\n') = (line, []) := by
  rw [List.span_eq_take_drop]
  have h1 : line.takeWhile (fun c => c != '\n') = line := by
    rw [List.takeWhile_eq_self_iff]
    intro x hx
    simp
    rintro rfl
    exact h hx
  have h2 : line.dropWhile (fun c => c != '\n') = [] := by
    rw [List.dropWhile_eq_nil_iff]
    intro x hx
    simp
    rintro rfl
    exact h hx
  rw [h1, h2]

/-- Every text is a first line without newline, then nothing or a newline
and more text. -/
theorem exists_first_line (s : List Char) :
    ∃ line, '\n' ∉ line ∧ (s = line ∨ ∃ more, s = line ++ '\n' :: more) := by
  induction s with
  | nil => exact ⟨[], by simp, Or.inl rfl⟩
  | cons a s ih =>
    by_cases ha : a = '\n'
    · exact ⟨[], by simp, Or.inr ⟨s, by simp [ha]⟩⟩
    · obtain ⟨line, hl, h | ⟨more, h⟩⟩ := ih
      · exact ⟨a :: line, by simp [hl, Ne.symm ha], Or.inl (by rw [h])⟩
      · exact ⟨a :: line, by simp [hl, Ne.symm ha], Or.inr ⟨more, by rw [h]; rfl⟩⟩

theorem Scan_line (line more : List Char) (h : '\n' ∉ line)
    (hlen : byteLen line < maxScanTokenSize) :
    Scanner.Scan ⟨line ++ '\n' :: more, false⟩ = (some (dropCR line), ⟨more, false⟩) := by
  unfold Scanner.Scan
  simp only [Bool.false_eq_true, if_false]
  rw [span_newline line more h]
  simp [hlen]

theorem Scan_line_long (line more : List Char) (h : '\n' ∉ line)
    (hlen : ¬ byteLen line < maxScanTokenSize) :
    Scanner.Scan ⟨line ++ '\n' :: more, false⟩ = (none, ⟨line ++ '\n' :: more, true⟩) := by
  unfold Scanner.Scan
  simp only [Bool.false_eq_true, if_false]
  rw [span_newline line more h]
  simp [hlen]

theorem Scan_last (line : List Char) (h : '\n' ∉ line) (hne : line ≠ [])
    (hlen : byteLen line < maxScanTokenSize) :
    Scanner.Scan ⟨line, false⟩ = (some (dropCR line), ⟨[], false⟩) := by
  cases line with
  | nil => exact absurd rfl hne
  | cons a l =>
    unfold Scanner.Scan
    simp only [Bool.false_eq_true, if_false]
    rw [span_no_newline (a :: l) h]
    simp [hlen]

theorem Scan_last_long (line : List Char) (h : '\n' ∉ line) (hne : line ≠ [])
    (hlen : ¬ byteLen line < maxScanTokenSize) :
    Scanner.Scan ⟨line, false⟩ = (none, ⟨line, true⟩) := by
  cases line with
  | nil => exact absurd rfl hne
  | cons a l =>
    unfold Scanner.Scan
    simp only [Bool.false_eq_true, if_false]
    rw [span_no_newline (a :: l) h]
    simp [hlen]

theorem Scan_nil : Scanner.Scan ⟨[], false⟩ = (none, ⟨[], false⟩) := by
  simp [Scanner.Scan]

/-- A call of `Scan` that returns a line consumes input. -/
theorem Scan_rest_lt (s s' : Scanner) (l : List Char) (h : s.Scan = (some l, s')) :
    s'.rest.length < s.rest.length := by
  obtain ⟨rest, tl⟩ := s
  cases tl with
  | true =>
    cases rest with
    | nil => simp [Scanner.Scan] at h
    | cons a r =>
      simp [Scanner.Scan] at h
      rw [← h.2]; simp
  | false =>
    obtain ⟨line, hl, h1 | ⟨more, h1⟩⟩ := exists_first_line rest
    all_goals rw [h1] at h ⊢
    · by_cases hne : line = []
      · subst hne; rw [Scan_nil] at h; simp at h
      · by_cases hlen : byteLen line < maxScanTokenSize
        · rw [Scan_last line hl hne hlen] at h
          simp at h
          rw [← h.2]
          simpa using List.length_pos.2 hne
        · rw [Scan_last_long line hl hne hlen] at h; simp at h
    · by_cases hlen : byteLen line < maxScanTokenSize
      · rw [Scan_line line more hl hlen] at h
        simp at h
        rw [← h.2]; simp; omega
      · rw [Scan_line_long line more hl hlen] at h; simp at h

/-- The loop is the loop body run over the lines the scanner yields. -/
theorem parseLoop_eq_runLines (fuel : Nat) (sc : Scanner) (st : PState) :
    parseLoop fuel sc st = runLines st (scanLoopLines fuel sc) := by
  induction fuel generalizing sc st with
  | zero => rfl
  | succ n ih =>
    simp only [parseLoop, scanLoopLines]
    rcases hs : sc.Scan with ⟨_ | line, sc'⟩
    · rfl
    · simp only [runLines]
      cases processLine st _ with
      | none => rfl
      | some st' => exact ih sc' st'

/-- Fuel above the length of the unread input is never used up: the lines
found do not depend on it. -/
theorem scanLoopLines_fuel (f1 f2 : Nat) (sc : Scanner)
    (h1 : sc.rest.length < f1) (h2 : sc.rest.length < f2) :
    scanLoopLines f1 sc = scanLoopLines f2 sc := by
  induction f1 generalizing f2 sc with
  | zero => omega
  | succ n ih =>
    cases f2 with
    | zero => omega
    | succ m =>
      simp only [scanLoopLines]
      rcases hs : sc.Scan with ⟨_ | line, sc'⟩
      · rfl
      · have := Scan_rest_lt sc sc' line hs
        simp only
        rw [ih m sc' (by omega) (by omega)]

theorem parseLoop_fuel (f1 f2 : Nat) (sc : Scanner) (st : PState)
    (h1 : sc.rest.length < f1) (h2 : sc.rest.length < f2) :
    parseLoop f1 sc st = parseLoop f2 sc st := by
  rw [parseLoop_eq_runLines, parseLoop_eq_runLines, scanLoopLines_fuel f1 f2 sc h1 h2]

/-! ## The line pattern -/

theorem matchNameRest_eq (s : List Char) (h : '\n' ∉ s) :
    matchNameRest s = some (trimSuffixChar '/' s) := by
  induction s with
  | nil => rfl
  | cons c cs ih =>
    have hc : c ≠ '\n' := fun e => h (by simp [e])
    have hcs : '\n' ∉ cs := fun e => h (by simp [e])
    rw [matchNameRest]
    by_cases hm : matchSlashEnd (c :: cs) = true
    · rw [if_pos hm]
      cases cs with
      | nil =>
        have : c = '/' := by
          by_contra hne
          simp [matchSlashEnd, hne] at hm
        subst this
        rfl
      | cons d ds => simp [matchSlashEnd] at hm
    · rw [if_neg hm, ih hcs]
      have hdot : isDotChar c = true := by simp [isDotChar, hc]
      rw [if_pos hdot]
      cases cs with
      | nil =>
        have : c ≠ '/' := by
          rintro rfl
          exact hm rfl
        simp [trimSuffixChar, hasSuffixChar, this]
      | cons d ds =>
        simp only [trimSuffixChar, hasSuffixChar, Option.map_some']
        split <;> simp

/-- What `(.+?)/?$` captures from a non-empty text without newline: the
text, less a final slash that is not its only character. -/
theorem matchName_cons (c : Char) (cs : List Char) (h : '\n' ∉ c :: cs) :
    matchName (c :: cs) = some (c :: trimSuffixChar '/' cs) := by
  have hc : c ≠ '\n' := fun e => h (by simp [e])
  have hcs : '\n' ∉ cs := fun e => h (by simp [e])
  simp [matchName, isDotChar, hc, matchNameRest_eq cs hcs]

theorem matchName_isSome (s : List Char) (hne : s ≠ []) (h : '\n' ∉ s) :
    ∃ n, matchName s = some n := by
  cases s with
  | nil => exact absurd rfl hne
  | cons c cs => exact ⟨_, matchName_cons c cs h⟩

/-- The name captured from `name` or `name/` when the name holds no slash. -/
theorem matchName_entry (n : List Char) (d : Bool) (hne : n ≠ []) (hnl : '\n' ∉ n)
    (hsl : '/' ∉ n) : matchName (n ++ dirSuffix d) = some n := by
  cases n with
  | nil => exact absurd rfl hne
  | cons c cs =>
    have hcs : '/' ∉ cs := fun e => hsl (by simp [e])
    cases d with
    | true =>
      have h1 : '\n' ∉ c :: (cs ++ ['/']) := by
        simp only [List.mem_cons, List.mem_append, List.mem_singleton, not_or] at hnl ⊢
        exact ⟨hnl.1, hnl.2, by decide, by simp⟩
      show matchName (c :: (cs ++ ['/'])) = _
      rw [matchName_cons c _ h1, trimSuffixChar_append_singleton]
    | false =>
      show matchName (c :: (cs ++ [])) = _
      rw [List.append_nil, matchName_cons c cs hnl, trimSuffixChar_of_not]
      intro hl
      exact hcs (List.mem_of_getLast?_eq_some hl)

theorem matchMarkerName_marker (more : Bool) (rest n : List Char)
    (h : matchName rest = some n) : matchMarkerName (branchMarker more ++ rest) = some n := by
  have h1 : startsWithMarker (branchMarker more ++ rest) = true := by
    cases more <;> simp [branchMarker, startsWithMarker, List.isPrefixOf]
  have h2 : (branchMarker more ++ rest).drop 4 = rest := by
    cases more <;> rfl
  simp [matchMarkerName, h1, h2, h]

theorem matchMarkerName_no_marker (s : List Char) (h : startsWithMarker s = false) :
    matchMarkerName s = matchName s := by
  simp [matchMarkerName, h]

theorem matchMarkerName_isSome (s : List Char) (hne : s ≠ []) (h : '\n' ∉ s) :
    ∃ n, matchMarkerName s = some n := by
  obtain ⟨n, hn⟩ := matchName_isSome s hne h
  unfold matchMarkerName
  split
  · split
    · exact ⟨_, rfl⟩
    · exact ⟨n, hn⟩
  · exact ⟨n, hn⟩

/-- The greedy indent takes the whole leading run when what follows it
matches. -/
theorem matchIndent_append (ind rest n : List Char) (hind : ∀ c ∈ ind, isIndentChar c = true)
    (hrest : ∀ c ∈ rest.head?, isIndentChar c = false)
    (h : matchMarkerName rest = some n) : matchIndent (ind ++ rest) = some (ind, n) := by
  induction ind with
  | nil =>
    cases rest with
    | nil => simp [matchIndent, h]
    | cons c cs =>
      have : isIndentChar c = false := hrest c (by simp)
      simp [matchIndent, this, h]
  | cons a ind ih =>
    have ha : isIndentChar a = true := hind a (by simp)
    have := ih (fun c hc => hind c (by simp [hc]))
    simp [matchIndent, ha, this]

/-- Every non-empty line without newline matches the pattern. -/
theorem matchIndent_isSome (s : List Char) (hne : s ≠ []) (h : '\n' ∉ s) :
    ∃ m, matchIndent s = some m := by
  induction s with
  | nil => exact absurd rfl hne
  | cons c cs ih =>
    obtain ⟨n, hn⟩ := matchMarkerName_isSome (c :: cs) hne h
    rw [matchIndent]
    split
    · cases hm : matchIndent cs with
      | none => exact ⟨([], n), by simp [hn]⟩
      | some m => exact ⟨_, rfl⟩
    · exact ⟨([], n), by simp [hn]⟩

theorem dirRegex_nil : dirRegex [] = none := rfl

/-- The empty line is skipped by the loop body. -/
theorem processLine_nil (st : PState) : processLine st [] = some st := rfl

/-! ## The depth of a standard indent -/

theorem indentBlocks_append (bs : List Bool) (b : Bool) :
    indentBlocks (bs ++ [b]) = indentBlocks bs ++ indentBlock b := by
  induction bs with
  | nil => simp [indentBlocks]
  | cons a bs ih => simp [indentBlocks, ih]

theorem indentBlocks_isIndentChar (bs : List Bool) :
    ∀ c ∈ indentBlocks bs, isIndentChar c = true := by
  induction bs with
  | nil => simp [indentBlocks]
  | cons b bs ih =>
    intro c hc
    simp only [indentBlocks, List.mem_append] at hc
    rcases hc with hc | hc
    · cases b <;> simp [indentBlock] at hc <;> rcases hc with rfl | rfl <;> decide
    · exact ih c hc

theorem count_bar_indentBlocks (bs : List Bool) :
    stringsCount (indentBlocks bs) ['│'] = bs.count true := by
  unfold stringsCount
  induction bs with
  | nil => rfl
  | cons b bs ih =>
    cases b
    · simp [indentBlocks, indentBlock, stringsCountAux, List.isPrefixOf, ih]
    · simp [indentBlocks, indentBlock, stringsCountAux, List.isPrefixOf, ih]
      omega

theorem countAux_four_spaces (rest : List Char) :
    stringsCountAux [' ', ' ', ' ', ' '] 0 (' ' :: ' ' :: ' ' :: ' ' :: rest) =
      1 + stringsCountAux [' ', ' ', ' ', ' '] 0 rest := by
  simp [stringsCountAux, List.isPrefixOf]

theorem countAux_bar (rest : List Char) :
    stringsCountAux [' ', ' ', ' ', ' '] 0 ('│' :: rest) =
      stringsCountAux [' ', ' ', ' ', ' '] 0 rest := by
  simp [stringsCountAux, List.isPrefixOf]

theorem countAux_three_spaces_bar (rest : List Char) :
    stringsCountAux [' ', ' ', ' ', ' '] 0 (' ' :: ' ' :: ' ' :: '│' :: rest) =
      stringsCountAux [' ', ' ', ' ', ' '] 0 rest := by
  simp [stringsCountAux, List.isPrefixOf]

theorem count_spaces_indentBlocks (bs : List Bool) :
    stringsCountAux [' ', ' ', ' ', ' '] 0 (indentBlocks bs) = bs.count false ∧
    stringsCountAux [' ', ' ', ' ', ' '] 0 (' ' :: ' ' :: ' ' :: indentBlocks bs) =
      bs.count false := by
  induction bs with
  | nil => exact ⟨rfl, rfl⟩
  | cons b bs ih =>
    cases b
    · have e : indentBlocks (false :: bs) = ' ' :: ' ' :: ' ' :: ' ' :: indentBlocks bs := rfl
      rw [e, countAux_four_spaces, countAux_four_spaces, ih.1, ih.2]
      simp [List.count_cons]
      omega
    · have e : indentBlocks (true :: bs) = '│' :: ' ' :: ' ' :: ' ' :: indentBlocks bs := rfl
      rw [e, countAux_bar, countAux_three_spaces_bar, ih.2]
      simp [List.count_cons]

theorem count_true_add_count_false (bs : List Bool) :
    bs.count true + bs.count false = bs.length := by
  induction bs with
  | nil => rfl
  | cons b bs ih => cases b <;> simp [List.count_cons] <;> omega

/-- The depth computed for an indent of `k` standard blocks is `k`. -/
theorem computeDepth_indentBlocks (bs : List Bool) :
    computeDepth (indentBlocks bs) = bs.length := by
  unfold computeDepth
  rw [count_bar_indentBlocks]
  unfold stringsCount
  rw [(count_spaces_indentBlocks bs).1, count_true_add_count_false]

/-! ## Trees in the heap -/

theorem Node.sizeList_append (as bs : List Node) :
    Node.sizeList (as ++ bs) = Node.sizeList as + Node.sizeList bs := by
  induction as with
  | nil => simp [Node.sizeList]
  | cons a as ih => simp [Node.sizeList, ih]; omega

theorem childPtrs_append (q : Nat) (as bs : List Node) :
    childPtrs q (as ++ bs) = childPtrs q as ++ childPtrs (q + Node.sizeList as) bs := by
  induction as generalizing q with
  | nil => simp [childPtrs, Node.sizeList]
  | cons a as ih => simp [childPtrs, Node.sizeList, ih, Nat.add_assoc]

theorem RepList_append (h : List NodeRec) (q : Nat) (as bs : List Node) :
    RepList h q (as ++ bs) ↔ RepList h q as ∧ RepList h (q + Node.sizeList as) bs := by
  induction as generalizing q with
  | nil => simp [RepList, Node.sizeList]
  | cons a as ih => simp [RepList, Node.sizeList, ih, Nat.add_assoc, and_assoc]

mutual
/-- Whether the heap holds a tree at an address depends on the cells the
tree occupies only. -/
theorem Rep_congr (h h' : List NodeRec) : ∀ (q : Nat) (t : Node), Rep h q t →
    (∀ i, q ≤ i → i < q + t.size → h'[i]? = h[i]?) → Rep h' q t
  | q, ⟨n, d, cs⟩, hr, hag => by
    simp only [Rep, Node.size] at hr hag ⊢
    refine ⟨?_, RepList_congr h h' (q + 1) cs hr.2 (fun i h1 h2 => hag i (by omega) (by omega))⟩
    rw [hag q (Nat.le_refl q) (by omega)]
    exact hr.1
theorem RepList_congr (h h' : List NodeRec) : ∀ (q : Nat) (cs : List Node), RepList h q cs →
    (∀ i, q ≤ i → i < q + Node.sizeList cs → h'[i]? = h[i]?) → RepList h' q cs
  | _, [], _, _ => by simp [RepList]
  | q, c :: cs, hr, hag => by
    simp only [RepList, Node.sizeList] at hr hag ⊢
    exact ⟨Rep_congr h h' q c hr.1 (fun i h1 h2 => hag i h1 (by omega)),
      RepList_congr h h' (q + c.size) cs hr.2 (fun i h1 h2 => hag i (by omega) (by omega))⟩
end

mutual
/-- A tree held by the heap lies within it. -/
theorem Rep_bound (h : List NodeRec) : ∀ (q : Nat) (t : Node), Rep h q t →
    q + t.size ≤ h.length
  | q, ⟨n, d, cs⟩, hr => by
    simp only [Rep, Node.size] at hr ⊢
    have h1 := RepList_bound h (q + 1) cs hr.2
    have h2 : q < h.length := by
      by_contra hc
      rw [List.getElem?_eq_none (by omega)] at hr
      simp at hr
    rcases h1 with rfl | h1
    · simp [Node.sizeList]; omega
    · omega
theorem RepList_bound (h : List NodeRec) : ∀ (q : Nat) (cs : List Node), RepList h q cs →
    cs = [] ∨ q + Node.sizeList cs ≤ h.length
  | _, [], _ => Or.inl rfl
  | q, c :: cs, hr => by
    simp only [RepList, Node.sizeList] at hr ⊢
    right
    have h1 := Rep_bound h q c hr.1
    rcases RepList_bound h (q + c.size) cs hr.2 with rfl | h2
    · simp [Node.sizeList]; omega
    · omega
end

mutual
/-- Reading back a tree held by the heap gives the tree, once the fuel
covers its size. -/
theorem derefNode_of_Rep (h : List NodeRec) : ∀ (t : Node) (q fuel : Nat), Rep h q t →
    t.size ≤ fuel → derefNode h fuel q = some t
  | ⟨n, d, cs⟩, q, fuel, hr, hf => by
    simp only [Rep, Node.size] at hr hf
    cases fuel with
    | zero => omega
    | succ f =>
      simp only [derefNode, hr.1]
      rw [derefList_of_RepList h cs (q + 1) f hr.2 (by omega)]
      rfl
theorem derefList_of_RepList (h : List NodeRec) : ∀ (cs : List Node) (q fuel : Nat),
    RepList h q cs → Node.sizeList cs ≤ fuel →
    (childPtrs q cs).mapM (derefNode h fuel) = some cs
  | [], _, _, _, _ => rfl
  | c :: cs, q, fuel, hr, hf => by
    simp only [RepList, Node.sizeList] at hr hf
    simp only [childPtrs, List.mapM_cons]
    rw [derefNode_of_Rep h c q fuel hr.1 (by omega),
      derefList_of_RepList h cs (q + c.size) fuel hr.2 (by omega)]
    rfl
end

/-! ## The ghost stack -/

theorem appendChild_length (h : List NodeRec) (top k : Nat) :
    (appendChild h top k).length = h.length := by
  simp [appendChild]

theorem appendChild_getElem?_ne (h : List NodeRec) (r : NodeRec) (top k i : Nat)
    (hne : i ≠ top) (hi : i < h.length) :
    (appendChild (h ++ [r]) top k)[i]? = h[i]? := by
  unfold appendChild
  rw [List.getElem?_modify_ne _ _ (Ne.symm hne), List.getElem?_append_left hi]

theorem appendChild_getElem?_new (h : List NodeRec) (r : NodeRec) (top k : Nat)
    (ht : top < h.length) :
    (appendChild (h ++ [r]) top k)[h.length]? = some r := by
  unfold appendChild
  rw [List.getElem?_modify_ne _ _ (by omega), List.getElem?_append_right (Nat.le_refl _)]
  simp

theorem appendChild_getElem?_top (h : List NodeRec) (r x : NodeRec) (top k : Nat)
    (hx : h[top]? = some x) :
    (appendChild (h ++ [r]) top k)[top]? = some { x with Children := x.Children ++ [k] } := by
  have ht : top < h.length := by
    by_contra hc
    rw [List.getElem?_eq_none (by omega)] at hx
    simp at hx
  unfold appendChild
  rw [List.getElem?_modify_eq, List.getElem?_append_left ht, hx]
  rfl

theorem closeFrames_cons_size (f : Frame) (fs : List Frame) (q : Nat) :
    childPtrs q (closeFrames (f :: fs)) = [q] := by
  simp [closeFrames, childPtrs]

/-- The frames of a stack held by the heap close to a tree the heap holds,
which ends where the heap ends. -/
theorem FramesRep_close (h : List NodeRec) (fs : List Frame) (p : Nat)
    (hr : FramesRep h p fs) :
    RepList h p (closeFrames fs) ∧ p + Node.sizeList (closeFrames fs) = h.length := by
  induction fs generalizing p with
  | nil => simpa [closeFrames, RepList, Node.sizeList, FramesRep] using hr
  | cons f fs ih =>
    simp only [FramesRep] at hr
    obtain ⟨h1, h2, h3⟩ := hr
    obtain ⟨i1, i2⟩ := ih _ h3
    simp only [closeFrames, RepList, Rep, Node.sizeList, Node.size, Node.sizeList_append,
      RepList_append, and_true]
    exact ⟨⟨h1, h2, i1⟩, by omega⟩

theorem stackPtrs_length (p : Nat) (fs : List Frame) : (stackPtrs p fs).length = fs.length := by
  induction fs generalizing p with
  | nil => rfl
  | cons f fs ih => simp [stackPtrs, ih]

theorem stackPtrs_ge (p : Nat) (fs : List Frame) : ∀ q ∈ stackPtrs p fs, p ≤ q := by
  induction fs generalizing p with
  | nil => simp [stackPtrs]
  | cons f fs ih =>
    intro q hq
    simp only [stackPtrs, List.mem_cons] at hq
    rcases hq with rfl | hq
    · exact Nat.le_refl _
    · have := ih _ q hq
      omega

theorem FramesRep_lt (h : List NodeRec) (f : Frame) (fs : List Frame) (p : Nat)
    (hr : FramesRep h p (f :: fs)) : p < h.length := by
  simp only [FramesRep] at hr
  by_contra hc
  rw [List.getElem?_eq_none (by omega)] at hr
  simp at hr

theorem closeFrames_truncFrames (k : Nat) (fs : List Frame) :
    closeFrames (truncFrames (k + 1) fs) = closeFrames fs := by
  induction k generalizing fs with
  | zero =>
    cases fs with
    | nil => rfl
    | cons f fs => simp [truncFrames, closeFrames]
  | succ k ih =>
    cases fs with
    | nil => rfl
    | cons f fs => simp [truncFrames, closeFrames, ih]

theorem FramesRep_truncFrames (h : List NodeRec) (k : Nat) (fs : List Frame) (p : Nat)
    (hr : FramesRep h p fs) : FramesRep h p (truncFrames (k + 1) fs) := by
  induction k generalizing fs p with
  | zero =>
    cases fs with
    | nil => exact hr
    | cons f fs =>
      have hc := FramesRep_close h (f :: fs) p hr
      simp only [closeFrames, RepList, Rep, Node.sizeList, Node.size, and_true] at hc
      simp only [truncFrames, FramesRep, closeFrames, List.append_nil]
      exact ⟨hc.1.1, hc.1.2, by omega⟩
  | succ k ih =>
    cases fs with
    | nil => exact hr
    | cons f fs =>
      simp only [FramesRep] at hr
      simp only [truncFrames, FramesRep, closeFrames_truncFrames]
      exact ⟨hr.1, hr.2.1, ih fs _ hr.2.2⟩

theorem stackPtrs_truncFrames (k : Nat) (fs : List Frame) (p : Nat) :
    stackPtrs p (truncFrames (k + 1) fs) = (stackPtrs p fs).take (k + 1) := by
  induction k generalizing fs p with
  | zero =>
    cases fs with
    | nil => rfl
    | cons f fs => simp [truncFrames, stackPtrs]
  | succ k ih =>
    cases fs with
    | nil => rfl
    | cons f fs => simp [truncFrames, stackPtrs, ih]

theorem truncFrames_length (k : Nat) (fs : List Frame) :
    (truncFrames (k + 1) fs).length = min (k + 1) fs.length := by
  rw [← stackPtrs_length 0, stackPtrs_truncFrames, List.length_take, stackPtrs_length]

theorem truncFrames_of_length_le (k : Nat) (fs : List Frame) (hk : fs.length ≤ k + 1) :
    truncFrames (k + 1) fs = fs := by
  induction k generalizing fs with
  | zero =>
    cases fs with
    | nil => rfl
    | cons f fs =>
      cases fs with
      | nil => simp [truncFrames, closeFrames]
      | cons g gs => simp at hk
  | succ k ih =>
    cases fs with
    | nil => rfl
    | cons f fs =>
      simp only [truncFrames]
      rw [ih fs (by simpa using hk)]

theorem truncFrames_truncFrames (a b : Nat) (fs : List Frame) (hab : a ≤ b) :
    truncFrames (a + 1) (truncFrames (b + 1) fs) = truncFrames (a + 1) fs := by
  induction a generalizing b fs with
  | zero =>
    cases fs with
    | nil => cases b <;> rfl
    | cons f fs =>
      cases b with
      | zero => simp [truncFrames, closeFrames]
      | succ b => simp [truncFrames, closeFrames_truncFrames]
  | succ a ih =>
    cases fs with
    | nil => cases b <;> rfl
    | cons f fs =>
      cases b with
      | zero => omega
      | succ b =>
        simp only [truncFrames]
        rw [ih b fs (by omega)]

theorem truncFrames_append_singleton (fs : List Frame) (g : Frame) (hne : fs ≠ []) :
    truncFrames fs.length (fs ++ [g]) = addDone fs ⟨g.Name, g.IsDir, g.done⟩ := by
  induction fs with
  | nil => exact absurd rfl hne
  | cons f fs ih =>
    cases fs with
    | nil => simp [truncFrames, closeFrames, addDone]
    | cons f' fs =>
      have := ih (by simp)
      simp only [List.length_cons, List.cons_append, truncFrames, addDone] at this ⊢
      exact congrArg (f :: ·) this

theorem addDone_length (fs : List Frame) (c : Node) : (addDone fs c).length = fs.length := by
  induction fs with
  | nil => rfl
  | cons f fs ih =>
    cases fs with
    | nil => rfl
    | cons g gs => simpa [addDone] using ih

theorem attachFrames_cons (f g : Frame) (fs : List Frame) (n : List Char) (d : Bool) :
    attachFrames (f :: g :: fs) n d = f :: attachFrames (g :: fs) n d := by
  cases d <;> simp [attachFrames, addDone]

theorem attachFrames_ne_nil (g : Frame) (fs : List Frame) (n : List Char) (d : Bool) :
    attachFrames (g :: fs) n d ≠ [] := by
  cases d with
  | true => simp [attachFrames]
  | false =>
    cases fs with
    | nil => simp [attachFrames, addDone]
    | cons f fs => simp [attachFrames, addDone]

/-! ## The loop body on the ghost stack -/

theorem stackPtrs_attach (h : List NodeRec) (n : List Char) (d : Bool) (fs : List Frame)
    (p : Nat) (hne : fs ≠ []) (hr : FramesRep h p fs) :
    stackPtrs p (attachFrames fs n d) =
      if d then stackPtrs p fs ++ [h.length] else stackPtrs p fs := by
  induction fs generalizing p with
  | nil => exact absurd rfl hne
  | cons f fs ih =>
    cases fs with
    | nil =>
      simp only [FramesRep] at hr
      cases d <;> simp [attachFrames, addDone, stackPtrs, hr.2.2]
    | cons g gs =>
      simp only [FramesRep] at hr
      rw [attachFrames_cons]
      simp only [stackPtrs] at ih ⊢
      rw [ih _ (by simp) hr.2.2]
      cases d <;> simp

theorem FramesRep_attach (h : List NodeRec) (n : List Char) (d : Bool) (fs : List Frame)
    (p top : Nat) (hr : FramesRep h p fs) (htop : (stackPtrs p fs).getLast? = some top) :
    FramesRep (appendChild (h ++ [⟨n, d, []⟩]) top h.length) p (attachFrames fs n d) := by
  induction fs generalizing p with
  | nil => simp [stackPtrs] at htop
  | cons f fs ih =>
    cases fs with
    | nil =>
      simp only [stackPtrs, List.getLast?_singleton, Option.some.injEq] at htop
      subst htop
      simp only [FramesRep, closeFrames, List.append_nil] at hr
      obtain ⟨h1, h2, h3⟩ := hr
      have hp : p < h.length := by omega
      have hcell := appendChild_getElem?_top h ⟨n, d, []⟩ _ p h.length h1
      have hnew := appendChild_getElem?_new h ⟨n, d, []⟩ p h.length hp
      have hold : RepList (appendChild (h ++ [⟨n, d, []⟩]) p h.length) (p + 1) f.done :=
        RepList_congr h _ (p + 1) f.done h2
          (fun i hi1 hi2 => appendChild_getElem?_ne h _ p _ i (by omega) (by omega))
      cases d with
      | true =>
        simp only [attachFrames, if_true, List.singleton_append, FramesRep, closeFrames,
          List.append_nil, childPtrs_append, childPtrs, RepList, Node.sizeList, List.nil_append,
          appendChild_length, List.length_append, List.length_singleton]
        refine ⟨?_, hold, ?_, trivial, by omega⟩
        · rw [hcell]; simp only [childPtrs_append, childPtrs]; rw [show p + 1 + Node.sizeList f.done = h.length from h3]
        · rw [show p + 1 + Node.sizeList f.done = h.length from h3]; exact hnew
      | false =>
        simp only [attachFrames, Bool.false_eq_true, if_false, addDone, FramesRep, closeFrames,
          List.append_nil, childPtrs_append, childPtrs, RepList_append, RepList, Rep,
          Node.sizeList_append, Node.sizeList, Node.size,
          appendChild_length, List.length_append, List.length_singleton, and_true]
        refine ⟨?_, ⟨hold, ?_⟩, by omega⟩
        · rw [hcell]; simp only [childPtrs_append, childPtrs]; rw [show p + 1 + Node.sizeList f.done = h.length from h3]
        · rw [show p + 1 + Node.sizeList f.done = h.length from h3]; exact hnew
    | cons g gs =>
      simp only [stackPtrs] at htop
      rw [List.getLast?_cons_cons] at htop
      have hr' := hr
      simp only [FramesRep] at hr
      obtain ⟨h1, h2, h3⟩ := hr
      have hp : p < h.length := FramesRep_lt h f (g :: gs) p hr'
      have hp' := FramesRep_lt h g gs _ h3
      have htop_ge : p + 1 + Node.sizeList f.done ≤ top :=
        stackPtrs_ge _ (g :: gs) top (List.mem_of_getLast?_eq_some htop)
      have ih' := ih _ h3 htop
      rw [attachFrames_cons]
      obtain ⟨g', fs', hg'⟩ := List.exists_cons_of_ne_nil (attachFrames_ne_nil g gs n d)
      rw [hg'] at ih' ⊢
      simp only [FramesRep] at ih' ⊢
      refine ⟨?_, ?_, ih'⟩
      · rw [appendChild_getElem?_ne h _ top _ p (by omega) hp, h1]
        simp only [childPtrs_append, closeFrames_cons_size]
      · exact RepList_congr h _ (p + 1) f.done h2
          (fun i hi1 hi2 => appendChild_getElem?_ne h _ top _ i (by omega) (by omega))

/-- The top of a stack of `k + 1` entries is its entry `k`. -/
theorem getLast?_eq_getElem? (l : List Nat) (k : Nat) (hl : l.length = k + 1) :
    l.getLast? = l[k]? := by
  rw [List.getLast?_eq_getElem?, hl]; rfl

/-- One turn of the loop and one step of the ghost stack agree: the turn
panics exactly when the step does, and otherwise the new state is
represented by the new stack. -/
theorem processLine_sim (st : PState) (fs : List Frame) (line : List Char) (hinv : Inv st fs) :
    match frameStep fs line with
    | none => processLine st line = none
    | some fs' => ∃ st', processLine st line = some st' ∧ Inv st' fs' := by
  obtain ⟨hrep, hstack, hlo, hhi⟩ := hinv
  unfold frameStep processLine
  cases hm : dirRegex line with
  | none => exact ⟨st, rfl, hrep, hstack, hlo, hhi⟩
  | some m =>
    obtain ⟨indent, name⟩ := m
    simp only
    by_cases hd : computeDepth indent + 1 ≤ fs.length
    · rw [if_pos hd]
      have hstack' : (if (computeDepth indent : Int) ≤ st.lastDepth
          then st.stack.take (computeDepth indent + 1) else st.stack) =
          stackPtrs 0 (truncFrames (computeDepth indent + 1) fs) := by
        rw [stackPtrs_truncFrames, ← hstack]
        split
        · rfl
        · rw [List.take_of_length_le]
          rw [hstack, stackPtrs_length]
          omega
      have hlen : (truncFrames (computeDepth indent + 1) fs).length = computeDepth indent + 1 := by
        rw [truncFrames_length]; omega
      have hrep' := FramesRep_truncFrames st.heap (computeDepth indent) fs 0 hrep
      have hne : truncFrames (computeDepth indent + 1) fs ≠ [] := by
        intro e; rw [e] at hlen; simp at hlen
      have hlast : (stackPtrs 0 (truncFrames (computeDepth indent + 1) fs)).getLast? =
          (stackPtrs 0 (truncFrames (computeDepth indent + 1) fs))[computeDepth indent]? :=
        getLast?_eq_getElem? _ _ (by rw [stackPtrs_length, hlen])
      rw [hstack']
      cases hp : (stackPtrs 0 (truncFrames (computeDepth indent + 1) fs))[computeDepth indent]? with
      | none =>
        exfalso
        rw [List.getElem?_eq_none_iff, stackPtrs_length, hlen] at hp
        omega
      | some parent =>
        rw [hp] at hlast
        refine ⟨_, rfl, FramesRep_attach _ _ _ _ 0 parent hrep' hlast, ?_, ?_, ?_⟩
        · simp only
          rw [stackPtrs_attach st.heap name _ _ 0 hne hrep']
        · simp only
          cases hasSuffixChar '/' line <;>
            simp [attachFrames, addDone_length, hlen]
        · simp only
          cases hasSuffixChar '/' line
          · simp [attachFrames, addDone_length, hlen]
          · simp [attachFrames, addDone_length, hlen]; omega
    · rw [if_neg hd]
      have hgt : ¬ ((computeDepth indent : Int) ≤ st.lastDepth) := by omega
      rw [if_neg hgt, hstack]
      have : (stackPtrs 0 fs)[computeDepth indent]? = none := by
        rw [List.getElem?_eq_none_iff, stackPtrs_length]; omega
      rw [this]

/-- The loop over lines and the ghost run agree. -/
theorem runLines_sim (lines : List (List Char)) (st : PState) (fs : List Frame)
    (hinv : Inv st fs) :
    match frameRun fs lines with
    | none => runLines st lines = none
    | some fs' => ∃ st', runLines st lines = some st' ∧ Inv st' fs' := by
  induction lines generalizing st fs with
  | nil => exact ⟨st, rfl, hinv⟩
  | cons line rest ih =>
    have hs := processLine_sim st fs line hinv
    simp only [frameRun, runLines]
    cases hf : frameStep fs line with
    | none =>
      rw [hf] at hs
      simp only at hs ⊢
      rw [hs]
    | some fs1 =>
      rw [hf] at hs
      obtain ⟨st1, h1, hinv1⟩ := hs
      simp only
      rw [h1]
      exact ih st1 fs1 hinv1

theorem Inv_rootState (line : List Char) :
    Inv (rootState line) [⟨trimSuffixChar '/' line, true, []⟩] := by
  refine ⟨?_, rfl, ?_, ?_⟩
  · simp [FramesRep, rootState, closeFrames, childPtrs, RepList, Node.sizeList]
  · simp [rootState]
  · simp [rootState]

theorem Inv_nilState : Inv nilState [] := by
  refine ⟨rfl, rfl, ?_, ?_⟩ <;> simp [nilState]

/-! ## `ParseTree` in terms of the ghost stack -/

theorem truncFrames_ne_nil (k : Nat) (fs : List Frame) (hne : fs ≠ []) :
    truncFrames (k + 1) fs ≠ [] := by
  cases fs with
  | nil => exact absurd rfl hne
  | cons f fs => cases k <;> simp [truncFrames]

theorem frameStep_ne_nil (fs fs' : List Frame) (line : List Char) (hne : fs ≠ [])
    (h : frameStep fs line = some fs') : fs' ≠ [] := by
  unfold frameStep at h
  cases hm : dirRegex line with
  | none => rw [hm] at h; simp at h; rw [← h]; exact hne
  | some m =>
    rw [hm] at h
    simp only at h
    split at h
    · simp only [Option.some.injEq] at h
      rw [← h]
      obtain ⟨g, gs, hg⟩ := List.exists_cons_of_ne_nil
        (truncFrames_ne_nil (computeDepth m.1) fs hne)
      rw [hg]
      exact attachFrames_ne_nil g gs _ _
    · simp at h

theorem frameRun_ne_nil (lines : List (List Char)) (fs fs' : List Frame) (hne : fs ≠ [])
    (h : frameRun fs lines = some fs') : fs' ≠ [] := by
  induction lines generalizing fs with
  | nil => simp [frameRun] at h; rw [← h]; exact hne
  | cons line rest ih =>
    simp only [frameRun] at h
    cases hf : frameStep fs line with
    | none => rw [hf] at h; simp at h
    | some fs1 =>
      rw [hf] at h
      exact ih fs1 (frameStep_ne_nil fs fs1 line hne hf) h

/-- After a first line, `ParseTree` returns the tree of the ghost stack run
over the remaining lines, and panics when that run does. -/
theorem ParseTree_eq_frameRun (input first : List Char) (sc : Scanner)
    (hs : (newScanner input).Scan = (some first, sc)) :
    ParseTree input =
      match frameRun [rootFrame first] (scanLoopLines (input.length + 1) sc) with
      | none => .panicked
      | some fs => .returned (closeFrames fs).head? none := by
  have hsim := runLines_sim (scanLoopLines (input.length + 1) sc) (rootState first)
    [rootFrame first] (Inv_rootState first)
  unfold ParseTree parseTreeMem
  rw [hs]
  simp only [parseLoop_eq_runLines]
  cases hf : frameRun [rootFrame first] (scanLoopLines (input.length + 1) sc) with
  | none =>
    rw [hf] at hsim
    simp only at hsim ⊢
    rw [hsim]
    rfl
  | some fs =>
    rw [hf] at hsim
    obtain ⟨st', h1, hinv⟩ := hsim
    simp only
    rw [h1]
    simp only [Option.map_some']
    have hne := frameRun_ne_nil _ _ _ (by simp) hf
    obtain ⟨f, fs', rfl⟩ := List.exists_cons_of_ne_nil hne
    have hc := FramesRep_close st'.heap _ 0 hinv.1
    simp only [closeFrames, RepList, Node.sizeList, and_true, List.head?_cons] at hc ⊢
    rw [derefNode_of_Rep st'.heap _ 0 st'.heap.length hc.1 (by omega)]

/-- When the first `scanner.Scan()` returns false, `ParseTree` returns a nil
root unless the loop panics. -/
theorem ParseTree_eq_frameRun_nil (input : List Char) (sc : Scanner)
    (hs : (newScanner input).Scan = (none, sc)) :
    ParseTree input =
      match frameRun [] (scanLoopLines (input.length + 1) sc) with
      | none => .panicked
      | some _ => .returned none none := by
  have hsim := runLines_sim (scanLoopLines (input.length + 1) sc) nilState [] Inv_nilState
  unfold ParseTree parseTreeMem
  rw [hs]
  simp only [parseLoop_eq_runLines]
  cases hf : frameRun [] (scanLoopLines (input.length + 1) sc) with
  | none =>
    rw [hf] at hsim
    simp only at hsim ⊢
    rw [hsim]
    rfl
  | some fs =>
    rw [hf] at hsim
    obtain ⟨st', h1, -⟩ := hsim
    simp only
    rw [h1]
    rfl

/-! ## Pre-order of the result -/

theorem Node.nodesList_append (as bs : List Node) :
    Node.nodesList (as ++ bs) = Node.nodesList as ++ Node.nodesList bs := by
  induction as with
  | nil => simp [Node.nodesList]
  | cons a as ih => simp [Node.nodesList, ih]

theorem preorderList_append (as bs : List Node) :
    preorderList (as ++ bs) = preorderList as ++ preorderList bs := by
  simp [preorderList, Node.nodesList_append]

theorem preorderList_singleton (n : List Char) (d : Bool) (cs : List Node) :
    preorderList [⟨n, d, cs⟩] = (n, d) :: preorderList cs := by
  simp [preorderList, Node.nodesList, Node.nodes]

theorem preorderList_closeFrames_cons (f : Frame) (fs : List Frame) :
    preorderList (closeFrames (f :: fs)) =
      (f.Name, f.IsDir) :: (preorderList f.done ++ preorderList (closeFrames fs)) := by
  simp [closeFrames, preorderList_singleton, preorderList_append]

theorem preorderList_attachFrames (fs : List Frame) (n : List Char) (d : Bool) (hne : fs ≠ []) :
    preorderList (closeFrames (attachFrames fs n d)) =
      preorderList (closeFrames fs) ++ [(n, d)] := by
  induction fs with
  | nil => exact absurd rfl hne
  | cons f fs ih =>
    cases fs with
    | nil =>
      cases d
      · simp [attachFrames, addDone, closeFrames, preorderList_singleton, preorderList_append]
        simp [preorderList, Node.nodesList]
      · simp [attachFrames, closeFrames, preorderList_singleton, preorderList_append]
        simp [preorderList, Node.nodesList]
    | cons g gs =>
      rw [attachFrames_cons, preorderList_closeFrames_cons, ih (by simp)]
      simp [preorderList_closeFrames_cons]

theorem preorderList_frameStep (fs fs' : List Frame) (line : List Char) (hne : fs ≠ [])
    (h : frameStep fs line = some fs') :
    preorderList (closeFrames fs') =
      preorderList (closeFrames fs) ++ (lineEntry line).toList := by
  unfold frameStep at h
  unfold lineEntry
  cases hm : dirRegex line with
  | none => rw [hm] at h; simp at h; rw [← h]; simp
  | some m =>
    rw [hm] at h
    simp only at h
    split at h
    · simp only [Option.some.injEq] at h
      rw [← h]
      have hne' := truncFrames_ne_nil (computeDepth m.1) fs hne
      rw [preorderList_attachFrames _ _ _ hne', closeFrames_truncFrames]
      rfl
    · simp at h

theorem preorderList_frameRun (lines : List (List Char)) (fs fs' : List Frame) (hne : fs ≠ [])
    (h : frameRun fs lines = some fs') :
    preorderList (closeFrames fs') =
      preorderList (closeFrames fs) ++ lines.filterMap lineEntry := by
  induction lines generalizing fs with
  | nil => simp [frameRun] at h; rw [← h]; simp
  | cons line rest ih =>
    simp only [frameRun] at h
    cases hf : frameStep fs line with
    | none => rw [hf] at h; simp at h
    | some fs1 =>
      rw [hf] at h
      rw [ih fs1 (frameStep_ne_nil fs fs1 line hne hf) h, preorderList_frameStep fs fs1 line hne hf]
      cases hl : lineEntry line <;> simp [List.filterMap_cons, hl]

/-- A first `Scan` that returns false leaves no tree to return. -/
theorem ParseTree_ne_tree_of_Scan_none (input : List Char) (sc : Scanner)
    (hs : (newScanner input).Scan = (none, sc)) (t : Node) (e : Option String) :
    ParseTree input ≠ .returned (some t) e := by
  rw [ParseTree_eq_frameRun_nil input sc hs]
  split <;> simp

/-- The nodes of a returned tree, in pre-order, are the root named by the
first line and one node for each accepted line after it, in the order of the
lines. -/
theorem ParseTree_preorder (input first : List Char) (sc : Scanner) (t : Node)
    (e : Option String) (hs : (newScanner input).Scan = (some first, sc))
    (h : ParseTree input = .returned (some t) e) :
    t.preorder = (trimSuffixChar '/' first, true) ::
      (scanLoopLines (input.length + 1) sc).filterMap lineEntry := by
  rw [ParseTree_eq_frameRun input first sc hs] at h
  cases hf : frameRun [rootFrame first] (scanLoopLines (input.length + 1) sc) with
  | none => rw [hf] at h; simp at h
  | some fs =>
    rw [hf] at h
    simp only [Outcome.returned.injEq] at h
    have hp := preorderList_frameRun _ _ _ (by simp) hf
    have hne := frameRun_ne_nil _ _ _ (by simp) hf
    obtain ⟨f, fs', rfl⟩ := List.exists_cons_of_ne_nil hne
    simp only [closeFrames, List.head?_cons, Option.some.injEq] at h
    rw [preorderList_closeFrames_cons] at hp
    have ht : t.preorder = preorderList [t] := by
      simp [Node.preorder, preorderList, Node.nodesList]
    rw [ht, ← h.1, preorderList_singleton, preorderList_append]
    rw [hp]
    simp [rootFrame, closeFrames, preorderList, Node.nodesList, Node.nodes]

/-! ## The example of `main` -/

set_option maxRecDepth 100000 in
/-- C1: `ParseTree` applied to the seven-line diagram of `main` returns,
without error, the root `project` (directory) with the children `README.md`
(file), `src` (directory) and `.gitignore` (file), `src` holding `index.ts`
(file) and `utils` (directory), `utils` holding `date.ts` (file): seven nodes,
which in the order of the lines lie at distances 0, 1, 1, 2, 2, 3, 1 from the
root. -/
theorem C1_example_tree :
    ParseTree treeInput = .returned (some exampleTree) none ∧
    exampleTree =
      ⟨"project".toList, true,
        [⟨"README.md".toList, false, []⟩,
         ⟨"src".toList, true,
           [⟨"index.ts".toList, false, []⟩,
            ⟨"utils".toList, true, [⟨"date.ts".toList, false, []⟩]⟩]⟩,
         ⟨".gitignore".toList, false, []⟩]⟩ ∧
    exampleTree.size = 7 ∧
    exampleTree.preorder.map (fun p => String.mk p.1) =
      ["project", "README.md", "src", "index.ts", "utils", "date.ts", ".gitignore"] ∧
    exampleTree.depthsFrom 0 = [0, 1, 1, 2, 2, 3, 1] :=
  ⟨by rfl, by rfl, by rfl, by rfl, by rfl⟩

/-! ## The empty input -/

/-- C3 as stated fails: on the empty input `ParseTree` does not return an
error. -/
theorem C3_no_error_on_empty_input : ¬ ∃ e : String, ParseTree [] = .returned none (some e) := by
  intro ⟨e, h⟩
  have : ParseTree [] = .returned none none := rfl
  rw [this] at h
  simp at h

/-- C3, amended: on the empty input `ParseTree` returns a nil root together
with a nil error; it produces no node and does not panic. -/
theorem C3_empty_input : ParseTree [] = .returned none none ∧ parseTreeMem [] = some ([], none) :=
  ⟨rfl, rfl⟩

/-! ## The root -/

theorem takeWhile_first_line (line more : List Char) (h : '\n' ∉ line) :
    (line ++ '\n' :: more).takeWhile (fun c => c != '\n') = line := by
  have := span_newline line more h
  rw [List.span_eq_take_drop] at this
  exact (Prod.mk.inj this).1

theorem takeWhile_only_line (line : List Char) (h : '\n' ∉ line) :
    line.takeWhile (fun c => c != '\n') = line := by
  have := span_no_newline line h
  rw [List.span_eq_take_drop] at this
  exact (Prod.mk.inj this).1

/-- The first `Scan` of a text: it returns the first line, less a final
carriage return, unless the line is empty at the end of the text or too long
for the buffer. -/
theorem Scan_first (input : List Char) :
    (∃ sc, (newScanner input).Scan =
      (some (dropCR (input.takeWhile (fun c => c != '\n'))), sc)) ∨
    (∃ sc, (newScanner input).Scan = (none, sc)) := by
  obtain ⟨line, hl, h1 | ⟨more, h1⟩⟩ := exists_first_line input
  · rw [h1, takeWhile_only_line line hl]
    by_cases hne : line = []
    · right; subst hne; exact ⟨_, Scan_nil⟩
    · by_cases hlen : byteLen line < maxScanTokenSize
      · left; exact ⟨_, Scan_last line hl hne hlen⟩
      · right; exact ⟨_, Scan_last_long line hl hne hlen⟩
  · rw [h1, takeWhile_first_line line more hl]
    by_cases hlen : byteLen line < maxScanTokenSize
    · left; exact ⟨_, Scan_line line more hl hlen⟩
    · right; exact ⟨_, Scan_line_long line more hl hlen⟩

theorem Node.preorder_head (t : Node) : t.preorder.head? = some (t.Name, t.IsDir) := by
  obtain ⟨n, d, cs⟩ := t
  simp [Node.preorder, Node.nodes]

/-- C4: root forcing.  For a name `x` that holds no line break and does not
end in `/`, and an input whose first line is `x` or `x/`, the root of any tree
`ParseTree` returns is a directory named `x`, whatever the lines that follow.
The first line is the text before the first newline, so that `x` holds no
newline; the name need not be non-empty for this to hold. -/
theorem C4_root_forcing (x input : List Char) (t : Node) (e : Option String)
    (hcr : '\r' ∉ x) (hsl : x.getLast? ≠ some '/')
    (hfirst : input.takeWhile (fun c => c != '\n') = x ∨
      input.takeWhile (fun c => c != '\n') = x ++ ['/'])
    (h : ParseTree input = .returned (some t) e) :
    t.IsDir = true ∧ t.Name = x := by
  rcases Scan_first input with ⟨sc, hs⟩ | ⟨sc, hs⟩
  · have hp := ParseTree_preorder input _ sc t e hs h
    have hh := Node.preorder_head t
    rw [hp] at hh
    simp only [List.head?_cons, Option.some.injEq, Prod.mk.injEq] at hh
    refine ⟨hh.2.symm, ?_⟩
    rw [← hh.1]
    rcases hfirst with hf | hf
    · rw [hf, dropCR_of_not_mem x hcr, trimSuffixChar_of_not '/' x hsl]
    · rw [hf, dropCR_of_not_mem, trimSuffixChar_append_singleton]
      simp only [List.mem_append, List.mem_singleton, not_or]
      exact ⟨hcr, by decide⟩
  · exact absurd h (ParseTree_ne_tree_of_Scan_none input sc hs t e)

set_option maxRecDepth 100000 in
/-- C4 at the diagram of `main`, whose first line is `project/`. -/
theorem C4_root_forcing_witness :
    exampleTree.IsDir = true ∧ exampleTree.Name = "project".toList :=
  C4_root_forcing "project".toList treeInput exampleTree none (by decide) (by decide)
    (Or.inr (by rfl)) (by rfl)

/-! ## Classification, leaves and order -/

theorem filterMap_lineEntry_snd (lines : List (List Char)) :
    (lines.filterMap lineEntry).map Prod.snd =
      (lines.filter (fun l => (dirRegex l).isSome)).map
        (fun l => decide (l.getLast? = some '/')) := by
  induction lines with
  | nil => rfl
  | cons l ls ih =>
    unfold lineEntry at ih ⊢
    cases hm : dirRegex l with
    | none => simp [List.filterMap_cons, List.filter_cons, hm, ih]
    | some m =>
      simp only [List.filterMap_cons, List.filter_cons, hm, Option.map_some', List.map_cons,
        Option.isSome_some, if_true, ih, List.cons.injEq, and_true]
      cases hh : hasSuffixChar '/' l
      · have := (hasSuffixChar_false_iff '/' l).1 hh
        simp [this]
      · have := (hasSuffixChar_iff '/' l).1 hh
        simp [this]

theorem filterMap_lineEntry_fst (lines : List (List Char)) :
    (lines.filterMap lineEntry).map Prod.fst = lines.filterMap (fun l => (dirRegex l).map Prod.snd) := by
  induction lines with
  | nil => rfl
  | cons l ls ih =>
    unfold lineEntry at ih ⊢
    cases hm : dirRegex l <;> simp [List.filterMap_cons, hm, ih]

/-- C5: file or directory.  For every input on which `ParseTree` returns a
tree, the nodes after the root, taken in the order of their creation (the
pre-order of the tree), are directories exactly where the accepted lines after
the first, taken in order, end in `/`. -/
theorem C5_directory_iff_trailing_slash (input first : List Char) (sc : Scanner) (t : Node)
    (e : Option String) (hs : (newScanner input).Scan = (some first, sc))
    (h : ParseTree input = .returned (some t) e) :
    t.nodes.tail.map (fun n => n.IsDir) =
      ((scanLoopLines (input.length + 1) sc).filter (fun l => (dirRegex l).isSome)).map
        (fun l => decide (l.getLast? = some '/')) := by
  have hp := ParseTree_preorder input first sc t e hs h
  have := congrArg (fun l => l.tail.map Prod.snd) hp
  simp only [Node.preorder, List.tail_cons, filterMap_lineEntry_snd] at this
  rw [← this, ← List.map_tail, List.map_map]
  rfl

set_option maxRecDepth 100000 in
/-- C5 at the diagram of `main`: of the six entries, `src/` and `utils/` are
the directories. -/
theorem C5_directory_iff_trailing_slash_witness :
    exampleTree.nodes.tail.map (fun n => n.IsDir) = [false, true, false, true, false, false] :=
  C5_directory_iff_trailing_slash treeInput "project/".toList
    ⟨"├── README.md\n├── src/\n│   ├── index.ts\n│   └── utils/\n│       └── date.ts\n└── .gitignore".toList,
      false⟩ exampleTree none (by rfl) (by rfl)

theorem FilesAreLeaves_append (as bs : List Node) :
    FilesAreLeaves (as ++ bs) ↔ FilesAreLeaves as ∧ FilesAreLeaves bs := by
  unfold FilesAreLeaves
  rw [Node.nodesList_append]
  exact List.forall_mem_append

theorem FilesAreLeaves_closeFrames (fs : List Frame) (h : FramesOK fs) :
    FilesAreLeaves (closeFrames fs) := by
  induction fs with
  | nil => simp [closeFrames, FilesAreLeaves, Node.nodesList]
  | cons f fs ih =>
    have hf := h f (by simp)
    have ih' := ih (fun g hg => h g (by simp [hg]))
    have hcs := (FilesAreLeaves_append f.done (closeFrames fs)).2 ⟨hf.2, ih'⟩
    intro n hn
    simp only [closeFrames, Node.nodesList, Node.nodes, List.append_nil, List.mem_cons] at hn
    rcases hn with rfl | hn
    · intro hd
      simp only at hd
      rw [hf.1] at hd
      cases hd
    · exact hcs n hn

theorem FramesOK_truncFrames (k : Nat) (fs : List Frame) (h : FramesOK fs) :
    FramesOK (truncFrames (k + 1) fs) := by
  induction k generalizing fs with
  | zero =>
    cases fs with
    | nil => exact h
    | cons f fs =>
      intro g hg
      simp only [truncFrames, List.mem_singleton] at hg
      subst hg
      have hf := h f (by simp)
      exact ⟨hf.1, (FilesAreLeaves_append _ _).2
        ⟨hf.2, FilesAreLeaves_closeFrames fs (fun g hg => h g (by simp [hg]))⟩⟩
  | succ k ih =>
    cases fs with
    | nil => exact h
    | cons f fs =>
      intro g hg
      simp only [truncFrames, List.mem_cons] at hg
      rcases hg with rfl | hg
      · exact h g (by simp)
      · exact ih fs (fun g hg => h g (by simp [hg])) g hg

theorem FramesOK_addDone (fs : List Frame) (n : List Char) (h : FramesOK fs) :
    FramesOK (addDone fs ⟨n, false, []⟩) := by
  induction fs with
  | nil => exact h
  | cons f fs ih =>
    cases fs with
    | nil =>
      intro g hg
      simp only [addDone, List.mem_singleton] at hg
      subst hg
      have hf := h f (by simp)
      refine ⟨hf.1, (FilesAreLeaves_append _ _).2 ⟨hf.2, ?_⟩⟩
      intro m hm
      simp only [Node.nodesList, Node.nodes, List.append_nil, List.mem_singleton] at hm
      subst hm
      intro _
      rfl
    | cons f' fs =>
      intro g hg
      simp only [addDone, List.mem_cons] at hg
      rcases hg with rfl | hg
      · exact h g (by simp)
      · exact ih (fun g hg => h g (by simp [hg])) g (by simpa [addDone] using hg)

theorem FramesOK_attachFrames (fs : List Frame) (n : List Char) (d : Bool) (h : FramesOK fs) :
    FramesOK (attachFrames fs n d) := by
  cases d with
  | false => exact FramesOK_addDone fs n h
  | true =>
    intro g hg
    simp only [attachFrames, if_true, List.mem_append, List.mem_singleton] at hg
    rcases hg with hg | rfl
    · exact h g hg
    · exact ⟨rfl, by simp [FilesAreLeaves, Node.nodesList]⟩

theorem FramesOK_frameStep (fs fs' : List Frame) (line : List Char) (h : FramesOK fs)
    (hf : frameStep fs line = some fs') : FramesOK fs' := by
  unfold frameStep at hf
  cases hm : dirRegex line with
  | none => rw [hm] at hf; simp at hf; rw [← hf]; exact h
  | some m =>
    rw [hm] at hf
    simp only at hf
    split at hf
    · simp only [Option.some.injEq] at hf
      rw [← hf]
      exact FramesOK_attachFrames _ _ _ (FramesOK_truncFrames _ fs h)
    · simp at hf

theorem FramesOK_frameRun (lines : List (List Char)) (fs fs' : List Frame) (h : FramesOK fs)
    (hf : frameRun fs lines = some fs') : FramesOK fs' := by
  induction lines generalizing fs with
  | nil => simp [frameRun] at hf; rw [← hf]; exact h
  | cons line rest ih =>
    simp only [frameRun] at hf
    cases hs : frameStep fs line with
    | none => rw [hs] at hf; simp at hf
    | some fs1 =>
      rw [hs] at hf
      exact ih fs1 (FramesOK_frameStep fs fs1 line h hs) hf

/-- C6: leaf invariant.  In every tree `ParseTree` returns, for every input,
a node that is not a directory has no children. -/
theorem C6_files_have_no_children (input : List Char) (t : Node) (e : Option String)
    (h : ParseTree input = .returned (some t) e) :
    ∀ n ∈ t.nodes, n.IsDir = false → n.Children = [] := by
  rcases hsc : (newScanner input).Scan with ⟨_ | first, sc⟩
  · exact absurd h (ParseTree_ne_tree_of_Scan_none input sc hsc t e)
  · rw [ParseTree_eq_frameRun input first sc hsc] at h
    cases hf : frameRun [rootFrame first] (scanLoopLines (input.length + 1) sc) with
    | none => rw [hf] at h; simp at h
    | some fs =>
      rw [hf] at h
      simp only [Outcome.returned.injEq] at h
      have hok : FramesOK fs := FramesOK_frameRun _ _ _ (by
        intro f hf
        simp only [List.mem_singleton] at hf
        subst hf
        exact ⟨rfl, by simp [rootFrame, FilesAreLeaves, Node.nodesList]⟩) hf
      have hl := FilesAreLeaves_closeFrames fs hok
      have hne := frameRun_ne_nil _ _ _ (by simp) hf
      obtain ⟨f, fs', rfl⟩ := List.exists_cons_of_ne_nil hne
      simp only [closeFrames, List.head?_cons, Option.some.injEq] at h hl
      rw [h.1] at hl
      intro n hn
      exact hl n (by simpa [Node.nodesList] using hn)

set_option maxRecDepth 100000 in
/-- C6 at the diagram of `main`: the tree returned holds the file
`README.md`, which has no children. -/
theorem C6_files_have_no_children_witness :
    ParseTree treeInput = .returned (some exampleTree) none ∧
    (⟨"README.md".toList, false, []⟩ : Node) ∈ exampleTree.nodes ∧
    (⟨"README.md".toList, false, []⟩ : Node).Children = [] :=
  ⟨by rfl, by simp [exampleTree, Node.nodes, Node.nodesList],
    C6_files_have_no_children treeInput exampleTree none (by rfl)
      ⟨"README.md".toList, false, []⟩ (by simp [exampleTree, Node.nodes, Node.nodesList]) rfl⟩

/-- C7: diagram order.  For every input on which `ParseTree` returns a tree,
the pre-order traversal of the tree is the root, named by the first line,
followed by exactly one node for each accepted line after the first, in the
order of the lines, each with the name and the directory flag the loop gave
it; the children of a node are therefore listed in the order of their
lines. -/
theorem C7_preorder_is_line_order (input first : List Char) (sc : Scanner) (t : Node)
    (e : Option String) (hs : (newScanner input).Scan = (some first, sc))
    (h : ParseTree input = .returned (some t) e) :
    t.preorder = (trimSuffixChar '/' first, true) ::
      ((scanLoopLines (input.length + 1) sc).filter (fun l => (dirRegex l).isSome)).filterMap
        lineEntry ∧
    t.nodes.length =
      1 + ((scanLoopLines (input.length + 1) sc).filter (fun l => (dirRegex l).isSome)).length := by
  have hp := ParseTree_preorder input first sc t e hs h
  have hfm : ∀ ls : List (List Char),
      (ls.filter (fun l => (dirRegex l).isSome)).filterMap lineEntry = ls.filterMap lineEntry ∧
      (ls.filterMap lineEntry).length = (ls.filter (fun l => (dirRegex l).isSome)).length := by
    intro ls
    induction ls with
    | nil => exact ⟨rfl, rfl⟩
    | cons l ls ih =>
      unfold lineEntry at ih ⊢
      cases hm : dirRegex l <;> simp [List.filter_cons, List.filterMap_cons, hm, ih]
  refine ⟨by rw [hp, (hfm _).1], ?_⟩
  have := congrArg List.length hp
  simp only [Node.preorder, List.length_map, List.length_cons, (hfm _).2] at this
  omega

set_option maxRecDepth 100000 in
/-- C7 at the diagram of `main`. -/
theorem C7_preorder_is_line_order_witness :
    exampleTree.preorder.map (fun p => (String.mk p.1, p.2)) =
      [("project", true), ("README.md", false), ("src", true), ("index.ts", false),
        ("utils", true), ("date.ts", false), (".gitignore", false)] ∧
    exampleTree.nodes.length = 7 := by
  have h := C7_preorder_is_line_order treeInput "project/".toList
    ⟨"├── README.md\n├── src/\n│   ├── index.ts\n│   └── utils/\n│       └── date.ts\n└── .gitignore".toList,
      false⟩ exampleTree none (by rfl) (by rfl)
  exact ⟨by rw [h.1]; rfl, by rw [h.2]; rfl⟩

/-! ## The lines of a text -/

theorem Scan_none_rest (s s' : Scanner) (h : s.Scan = (none, s')) : s'.rest = s.rest := by
  unfold Scanner.Scan at h
  split at h
  · split at h
    · simp only [Prod.mk.injEq, true_and] at h; rw [← h]
    · simp at h
  · split at h
    · split at h
      · simp at h
      · simp only [Prod.mk.injEq, true_and] at h; rw [← h]
    · split at h
      · simp only [Prod.mk.injEq, true_and] at h; rw [← h]
      · split at h
        · simp at h
        · simp only [Prod.mk.injEq, true_and] at h; rw [← h]

theorem scanLoopLines_eq_linesOf (fuel : Nat) (sc : Scanner) (h : sc.rest.length < fuel) :
    scanLoopLines fuel sc = linesOf sc :=
  scanLoopLines_fuel _ _ sc h (Nat.lt_succ_self _)

theorem linesOf_of_Scan_some (sc sc' : Scanner) (line : List Char)
    (h : sc.Scan = (some line, sc')) : linesOf sc = line :: linesOf sc' := by
  have hlt := Scan_rest_lt sc sc' line h
  unfold linesOf
  rw [scanLoopLines, h]
  simp only
  rw [scanLoopLines_fuel _ (sc'.rest.length + 1) sc' hlt (Nat.lt_succ_self _)]

theorem linesOf_of_Scan_none (sc sc' : Scanner) (h : sc.Scan = (none, sc')) :
    linesOf sc = [] := by
  unfold linesOf
  rw [scanLoopLines, h]

/-- `parseTreeMem` with the fuel of its loop out of the way. -/
theorem parseTreeMem_eq (input : List Char) :
    parseTreeMem input =
      match (newScanner input).Scan with
      | (some line, sc) => (runLines (rootState line) (linesOf sc)).map (fun st => (st.heap, some 0))
      | (none, sc) => (runLines nilState (linesOf sc)).map (fun st => (st.heap, none)) := by
  unfold parseTreeMem
  rcases hs : (newScanner input).Scan with ⟨_ | line, sc⟩
  · have := Scan_none_rest _ _ hs
    simp only [parseLoop_eq_runLines]
    rw [scanLoopLines_eq_linesOf _ sc (by rw [this]; simp [newScanner])]
  · have := Scan_rest_lt _ _ _ hs
    simp only [parseLoop_eq_runLines]
    rw [scanLoopLines_eq_linesOf _ sc (by simp only [newScanner] at this; omega)]

theorem bufferFill_append_of_le (room : Nat) (a b : List Char) (h : room ≤ byteLen a) :
    bufferFill room (a ++ b) = bufferFill room a := by
  induction a generalizing room with
  | nil =>
    simp only [byteLen, Nat.le_zero] at h
    subst h
    cases b with
    | nil => rfl
    | cons c cs =>
      have := Char.utf8Size_pos c
      simp only [List.nil_append, bufferFill]
      rw [if_neg (by omega)]
  | cons c a ih =>
    simp only [List.cons_append, bufferFill, byteLen] at h ⊢
    split
    · exact congrArg (c :: ·) (ih (room - c.utf8Size) (by omega))
    · rfl

/-- The lines of a text in which `ErrTooLong` was recorded at a long line. -/
theorem linesOf_tooLong (line more : List Char) (hne : line ≠ [])
    (hlen : maxScanTokenSize ≤ byteLen line) :
    linesOf ⟨line ++ more, true⟩ = [dropCR (bufferFill maxScanTokenSize line)] := by
  obtain ⟨c, cs, rfl⟩ := List.exists_cons_of_ne_nil hne
  have h1 : Scanner.Scan ⟨c :: cs ++ more, true⟩ =
      (some (dropCR (bufferFill maxScanTokenSize (c :: cs ++ more))), ⟨[], true⟩) := by
    simp [Scanner.Scan]
  have h2 : Scanner.Scan ⟨[], true⟩ = (none, ⟨[], true⟩) := by simp [Scanner.Scan]
  rw [linesOf_of_Scan_some _ _ _ h1, linesOf_of_Scan_none _ _ h2,
    bufferFill_append_of_le _ _ _ hlen]

/-! ## Blank lines -/

theorem runLines_nil_cons (st : PState) (ls : List (List Char)) :
    runLines st ([] :: ls) = runLines st ls := by
  simp [runLines, processLine_nil]

/-- An empty line put at the start of a line of the text changes nothing for
the loop. -/
theorem runLines_insert_empty_line (n : Nat) : ∀ (pre post : List Char) (st : PState),
    pre.length ≤ n → (pre = [] ∨ pre.getLast? = some '\n') →
    runLines st (linesOf ⟨pre ++ '\n' :: post, false⟩) =
      runLines st (linesOf ⟨pre ++ post, false⟩) := by
  induction n with
  | zero =>
    intro pre post st hn _
    have : pre = [] := List.length_eq_zero.1 (by omega)
    subst this
    have h1 := Scan_line [] post (by simp) (by simp [byteLen, maxScanTokenSize])
    simp only [List.nil_append] at h1 ⊢
    rw [linesOf_of_Scan_some _ _ _ h1]
    exact runLines_nil_cons st _
  | succ n ih =>
    intro pre post st hn hpre
    rcases hpre with rfl | hlast
    · exact ih [] post st (by simp) (Or.inl rfl)
    · obtain ⟨line, hl, h1 | ⟨pre', h1⟩⟩ := exists_first_line pre
      · exfalso
        rw [← h1] at hl
        exact hl (List.mem_of_getLast?_eq_some hlast)
      · have hpre' : pre' = [] ∨ pre'.getLast? = some '\n' := by
          cases pre' with
          | nil => exact Or.inl rfl
          | cons c cs =>
            right
            rw [h1, List.getLast?_append, List.getLast?_cons_cons] at hlast
            simpa using hlast
        have hlen' : pre'.length ≤ n := by
          rw [h1] at hn
          simp at hn
          omega
        rw [h1]
        simp only [List.append_assoc, List.cons_append]
        by_cases hlen : byteLen line < maxScanTokenSize
        · rw [linesOf_of_Scan_some _ _ _ (Scan_line line _ hl hlen),
            linesOf_of_Scan_some _ _ _ (Scan_line line _ hl hlen)]
          simp only [runLines]
          cases processLine st (dropCR line) with
          | none => rfl
          | some st' => exact ih pre' post st' hlen' hpre'
        · rw [linesOf_of_Scan_none _ _ (Scan_line_long line _ hl hlen),
            linesOf_of_Scan_none _ _ (Scan_line_long line _ hl hlen)]

/-- C9, amended: an empty line inserted after a line of the input creates no
node and changes nothing: the memory `ParseTree` leaves and what it returns
are the same. -/
theorem C9_empty_line_skipped (pre post : List Char) :
    parseTreeMem (pre ++ '\n' :: '\n' :: post) = parseTreeMem (pre ++ '\n' :: post) ∧
    ParseTree (pre ++ '\n' :: '\n' :: post) = ParseTree (pre ++ '\n' :: post) := by
  have hmem : parseTreeMem (pre ++ '\n' :: '\n' :: post) = parseTreeMem (pre ++ '\n' :: post) := by
    obtain ⟨line, hl, h1 | ⟨pre', h1⟩⟩ := exists_first_line pre
    · rw [parseTreeMem_eq, parseTreeMem_eq, h1]
      simp only [newScanner]
      by_cases hlen : byteLen line < maxScanTokenSize
      · rw [Scan_line line _ hl hlen, Scan_line line _ hl hlen]
        simp only
        have := runLines_insert_empty_line 0 [] post (rootState (dropCR line)) (by simp)
          (Or.inl rfl)
        simp only [List.nil_append] at this
        rw [this]
      · rw [Scan_line_long line _ hl hlen, Scan_line_long line _ hl hlen]
        simp only
        have hne : line ≠ [] := by
          rintro rfl
          simp [byteLen, maxScanTokenSize] at hlen
        rw [linesOf_tooLong line _ hne (by omega), linesOf_tooLong line _ hne (by omega)]
    · rw [parseTreeMem_eq, parseTreeMem_eq, h1]
      simp only [newScanner, List.append_assoc, List.cons_append]
      by_cases hlen : byteLen line < maxScanTokenSize
      · rw [Scan_line line _ hl hlen, Scan_line line _ hl hlen]
        simp only
        have := runLines_insert_empty_line (pre' ++ ['\n']).length (pre' ++ ['\n']) post
          (rootState (dropCR line)) (Nat.le_refl _) (Or.inr (by simp))
        simp only [List.append_assoc, List.cons_append, List.nil_append] at this
        rw [this]
      · rw [Scan_line_long line _ hl hlen, Scan_line_long line _ hl hlen]
        simp only
        have hne : line ≠ [] := by
          rintro rfl
          simp [byteLen, maxScanTokenSize] at hlen
        rw [linesOf_tooLong line _ hne (by omega), linesOf_tooLong line _ hne (by omega)]
  exact ⟨hmem, by unfold ParseTree; rw [hmem]⟩

/-- C9 as stated fails: a line of one space inserted after the first line is
not skipped; it creates a node named by a space under the root. -/
theorem C9_space_line_creates_node :
    ParseTree "r/\n".toList = .returned (some ⟨"r".toList, true, []⟩) none ∧
    ParseTree "r/\n \n".toList =
      .returned (some ⟨"r".toList, true, [⟨" ".toList, false, []⟩]⟩) none ∧
    (parseTreeMem "r/\n".toList).map (fun m => m.1.length) = some 1 ∧
    (parseTreeMem "r/\n \n".toList).map (fun m => m.1.length) = some 2 :=
  ⟨by rfl, by rfl, by rfl, by rfl⟩

/-! ## The name of an entry -/

theorem matchName_eq_entryName (rest : List Char) (hne : rest ≠ []) (hnl : '\n' ∉ rest) :
    matchName rest = some (entryName rest) := by
  cases rest with
  | nil => exact absurd rfl hne
  | cons c cs =>
    rw [matchName_cons c cs hnl]
    cases cs with
    | nil =>
      unfold entryName
      split
      · rfl
      · rename_i h
        have hc : c ≠ '/' := fun e => h (by rw [e])
        simp [trimSuffixChar, hasSuffixChar, hc]
    | cons d ds =>
      simp only [entryName, trimSuffixChar, hasSuffixChar]
      simp only [List.cons.injEq, reduceCtorEq, and_false, if_false]
      split <;> simp

theorem appendChild_getElem?_Name (h : List NodeRec) (p k i : Nat) :
    ((appendChild h p k)[i]?).map (fun r => r.Name) = (h[i]?).map (fun r => r.Name) := by
  unfold appendChild
  rw [List.getElem?_modify]
  split
  · rename_i hpi
    subst hpi
    cases h[p]? <;> rfl
  · cases h[i]? <;> rfl

theorem appendChild_getElem?_IsDir (h : List NodeRec) (p k i : Nat) :
    ((appendChild h p k)[i]?).map (fun r => r.IsDir) = (h[i]?).map (fun r => r.IsDir) := by
  unfold appendChild
  rw [List.getElem?_modify]
  split
  · rename_i hpi
    subst hpi
    cases h[p]? <;> rfl
  · cases h[i]? <;> rfl

/-- What a turn of the loop does with an accepted line, when it does not
panic: one node is allocated, with the captured name and the flag of the
trailing slash. -/
theorem processLine_new_node (st st' : PState) (line indent name : List Char)
    (hm : dirRegex line = some (indent, name)) (h : processLine st line = some st') :
    st'.heap.length = st.heap.length + 1 ∧
    (st'.heap[st.heap.length]?).map (fun r => r.Name) = some name ∧
    (st'.heap[st.heap.length]?).map (fun r => r.IsDir) = some (hasSuffixChar '/' line) ∧
    st'.lastDepth = computeDepth indent := by
  unfold processLine at h
  rw [hm] at h
  simp only at h
  split at h
  · simp at h
  · simp only [Option.some.injEq] at h
    rw [← h]
    simp only [appendChild_length, List.length_append, List.length_singleton,
      appendChild_getElem?_Name, appendChild_getElem?_IsDir]
    simp

/-- C10, amended: entry name extraction.  For a line without newline written
as indent (its leading run of `│` and whitespace), then an optional marker
`├── ` or `└── `, then a non-empty remainder, the pattern captures the indent
and the name `entryName` of the remainder: the remainder less one final `/`
when it ends in `/` and is longer than that one character, the remainder
unchanged otherwise; and the node the loop creates from the line bears that
name. -/
theorem C10_entry_name (indent marker rest line : List Char)
    (hline : line = indent ++ marker ++ rest)
    (hind : ∀ c ∈ indent, isIndentChar c = true)
    (hmarker : marker = [] ∨ marker = ['├', '─', '─', ' '] ∨ marker = ['└', '─', '─', ' '])
    (hrun : marker = [] →
      (∀ c ∈ rest.head?, isIndentChar c = false) ∧ startsWithMarker rest = false)
    (hne : rest ≠ []) (hnl : '\n' ∉ rest) :
    dirRegex line = some (indent, entryName rest) ∧
    ∀ st st', processLine st line = some st' →
      st'.heap.length = st.heap.length + 1 ∧
      (st'.heap[st.heap.length]?).map (fun r => r.Name) = some (entryName rest) := by
  have hn := matchName_eq_entryName rest hne hnl
  have hm : dirRegex line = some (indent, entryName rest) := by
    rw [hline, List.append_assoc]
    unfold dirRegex
    rcases hmarker with rfl | rfl | rfl
    · obtain ⟨h1, h2⟩ := hrun rfl
      apply matchIndent_append indent _ _ hind h1
      rw [matchMarkerName_no_marker rest h2, hn]
    · apply matchIndent_append indent _ _ hind
      · intro c hc
        simp only [List.cons_append, List.head?_cons, Option.mem_def, Option.some.injEq] at hc
        subst hc
        decide
      · exact matchMarkerName_marker true rest _ hn
    · apply matchIndent_append indent _ _ hind
      · intro c hc
        simp only [List.cons_append, List.head?_cons, Option.mem_def, Option.some.injEq] at hc
        subst hc
        decide
      · exact matchMarkerName_marker false rest _ hn
  refine ⟨hm, fun st st' h => ?_⟩
  have := processLine_new_node st st' line indent _ hm h
  exact ⟨this.1, this.2.1⟩

/-- C10 at the line `│   └── utils/` of the diagram of `main`, processed
after the line `│   ├── index.ts`. -/
theorem C10_entry_name_witness :
    dirRegex "│   └── utils/".toList = some ("│   ".toList, "utils".toList) ∧
    ∀ st st', processLine st "│   └── utils/".toList = some st' →
      st'.heap.length = st.heap.length + 1 ∧
      (st'.heap[st.heap.length]?).map (fun r => r.Name) = some "utils".toList :=
  C10_entry_name "│   ".toList "└── ".toList "utils/".toList "│   └── utils/".toList (by rfl)
    (by decide) (Or.inr (Or.inr (by rfl))) (fun h => by cases h) (by decide) (by decide)

/-- C10 as stated fails for a remainder that is just `/`: the name captured
from the line `└── /` is `/`, not the remainder with its slash removed, which
is empty. -/
theorem C10_slash_only_remainder :
    dirRegex "└── /".toList = some ([], "/".toList) ∧
    trimSuffixChar '/' "/".toList = [] ∧
    ParseTree "r/\n└── /".toList =
      .returned (some ⟨"r".toList, true, [⟨"/".toList, true, []⟩]⟩) none :=
  ⟨by rfl, by rfl, by rfl⟩

/-! ## Cutting the stack -/

theorem runLines_append (st : PState) (as bs : List (List Char)) :
    runLines st (as ++ bs) = (runLines st as).bind (fun s => runLines s bs) := by
  induction as generalizing st with
  | nil => rfl
  | cons a as ih =>
    simp only [List.cons_append, runLines]
    cases processLine st a with
    | none => rfl
    | some st' => exact ih st'

theorem stackPtrs_lt (h : List NodeRec) (fs : List Frame) (p : Nat) (hr : FramesRep h p fs) :
    ∀ x ∈ stackPtrs p fs, x < h.length := by
  induction fs generalizing p with
  | nil => simp [stackPtrs]
  | cons f fs ih =>
    intro x hx
    simp only [stackPtrs, List.mem_cons] at hx
    rcases hx with rfl | hx
    · exact FramesRep_lt h f fs x hr
    · simp only [FramesRep] at hr
      exact ih _ hr.2.2 x hx

theorem stackPtrs_pairwise (fs : List Frame) (p : Nat) :
    (stackPtrs p fs).Pairwise (fun a b => a < b) := by
  induction fs generalizing p with
  | nil => simp [stackPtrs]
  | cons f fs ih =>
    simp only [stackPtrs, List.pairwise_cons]
    refine ⟨fun x hx => ?_, ih _⟩
    have := stackPtrs_ge _ fs x hx
    omega

/-- Every state the loop reaches from a first line is represented by a ghost
stack. -/
theorem Inv_of_runLines (first : List Char) (lines : List (List Char)) (st : PState)
    (h : runLines (rootState first) lines = some st) : ∃ fs, Inv st fs := by
  have hsim := runLines_sim lines (rootState first) [rootFrame first] (Inv_rootState first)
  cases hf : frameRun [rootFrame first] lines with
  | none =>
    rw [hf] at hsim
    simp only at hsim
    rw [hsim] at h
    cases h
  | some fs =>
    rw [hf] at hsim
    obtain ⟨st', h1, hinv⟩ := hsim
    rw [h1] at h
    cases h
    exact ⟨fs, hinv⟩

/-- A node that is not on the stack stays off it and keeps its cell through
a turn of the loop. -/
theorem processLine_closed (st st' : PState) (line : List Char) (q : Nat)
    (h : processLine st line = some st') (hb : ∀ x ∈ st.stack, x < st.heap.length)
    (hq : q < st.heap.length) (hqs : q ∉ st.stack) :
    q ∉ st'.stack ∧ q < st'.heap.length ∧ st'.heap[q]? = st.heap[q]? ∧
    ∀ x ∈ st'.stack, x < st'.heap.length := by
  unfold processLine at h
  cases hm : dirRegex line with
  | none =>
    rw [hm] at h
    simp only [Option.some.injEq] at h
    rw [← h]
    exact ⟨hqs, hq, rfl, hb⟩
  | some m =>
    rw [hm] at h
    simp only at h
    have hsub : ∀ x ∈ (if (computeDepth m.1 : Int) ≤ st.lastDepth
        then st.stack.take (computeDepth m.1 + 1) else st.stack), x ∈ st.stack := by
      intro x hx
      split at hx
      · exact List.mem_of_mem_take hx
      · exact hx
    split at h
    · simp at h
    · rename_i parent hp
      simp only [Option.some.injEq] at h
      have hpm : parent ∈ st.stack := hsub parent (List.getElem?_mem hp)
      have hne : q ≠ parent := fun e => hqs (e ▸ hpm)
      rw [← h]
      simp only [appendChild_length, List.length_append, List.length_singleton]
      refine ⟨?_, by omega, appendChild_getElem?_ne _ _ _ _ q hne hq, ?_⟩
      · split
        · simp only [List.mem_append, List.mem_singleton, not_or]
          exact ⟨fun hx => hqs (hsub q hx), by omega⟩
        · exact fun hx => hqs (hsub q hx)
      · intro x hx
        split at hx
        · simp only [List.mem_append, List.mem_singleton] at hx
          rcases hx with hx | rfl
          · have := hb x (hsub x hx); omega
          · omega
        · have := hb x (hsub x hx); omega

theorem runLines_closed (lines : List (List Char)) (st st' : PState) (q : Nat)
    (h : runLines st lines = some st') (hb : ∀ x ∈ st.stack, x < st.heap.length)
    (hq : q < st.heap.length) (hqs : q ∉ st.stack) :
    q ∉ st'.stack ∧ st'.heap[q]? = st.heap[q]? := by
  induction lines generalizing st with
  | nil =>
    simp only [runLines, Option.some.injEq] at h
    rw [← h]
    exact ⟨hqs, rfl⟩
  | cons line rest ih =>
    simp only [runLines] at h
    cases hp : processLine st line with
    | none => rw [hp] at h; cases h
    | some st1 =>
      rw [hp] at h
      obtain ⟨h1, h2, h3, h4⟩ := processLine_closed st st1 line q hp hb hq hqs
      obtain ⟨i1, i2⟩ := ih st1 h h4 h2 h1
      exact ⟨i1, by rw [i2, h3]⟩

/-- C8: depth monotonic truncation.  When an accepted line of computed depth
`d` comes right after an accepted line of computed depth `d' > d`, the loop
body does not panic; the stack it attaches the new node to is the old stack
cut to its first `d + 1` entries, which are all there, the new node being
pushed on it when it is a directory; and every node that stood on the old
stack at a position above `d` is off the stack for good and has, after this
line and after any lines that follow, the children it had before. -/
theorem C8_truncation (first prev line : List Char) (before later : List (List Char))
    (st : PState) (d d' : Nat)
    (hrun : runLines (rootState first) (before ++ [prev]) = some st)
    (hprev : lineDepth prev = some d') (hline : lineDepth line = some d) (hlt : d < d') :
    ∃ st', processLine st line = some st' ∧
      (st.stack.take (d + 1)).length = d + 1 ∧
      st'.stack = st.stack.take (d + 1) ++
        (if hasSuffixChar '/' line then [st.heap.length] else []) ∧
      (∃ parent, (st.stack.take (d + 1))[d]? = some parent ∧
        (st'.heap[parent]?).map (fun r => r.Children) =
          (st.heap[parent]?).map (fun r => r.Children ++ [st.heap.length])) ∧
      ∀ q ∈ st.stack.drop (d + 1), ∀ st'', runLines st' later = some st'' →
        q ∉ st''.stack ∧
        (st''.heap[q]?).map (fun r => r.Children) = (st.heap[q]?).map (fun r => r.Children) := by
  obtain ⟨fs, hrep, hstack, hlo, hhi⟩ := Inv_of_runLines first _ st hrun
  -- the depth of the previous line is `lastDepth`
  have hlast : st.lastDepth = d' := by
    rw [runLines_append] at hrun
    cases h0 : runLines (rootState first) before with
    | none => rw [h0] at hrun; cases hrun
    | some s0 =>
      rw [h0] at hrun
      simp only [Option.some_bind, runLines] at hrun
      cases hp : processLine s0 prev with
      | none => rw [hp] at hrun; cases hrun
      | some s1 =>
        rw [hp] at hrun
        simp only [Option.some.injEq] at hrun
        subst hrun
        unfold lineDepth at hprev
        cases hm : dirRegex prev with
        | none => rw [hm] at hprev; cases hprev
        | some m =>
          rw [hm] at hprev
          simp only [Option.map_some', Option.some.injEq] at hprev
          rw [(processLine_new_node s0 s1 prev m.1 m.2 hm hp).2.2.2, hprev]
  have hb : ∀ x ∈ st.stack, x < st.heap.length := by
    rw [hstack]; exact stackPtrs_lt st.heap fs 0 hrep
  have hpw : st.stack.Pairwise (fun a b => a < b) := by
    rw [hstack]; exact stackPtrs_pairwise fs 0
  have hlen : d + 1 < st.stack.length := by
    rw [hstack, stackPtrs_length]; omega
  have htake : (st.stack.take (d + 1)).length = d + 1 := by
    rw [List.length_take]; omega
  unfold lineDepth at hline
  cases hm : dirRegex line with
  | none => rw [hm] at hline; cases hline
  | some m =>
    rw [hm] at hline
    simp only [Option.map_some', Option.some.injEq] at hline
    have hle : (computeDepth m.1 : Int) ≤ st.lastDepth := by omega
    obtain ⟨parent, hparent⟩ : ∃ parent, (st.stack.take (d + 1))[d]? = some parent := by
      cases hg : (st.stack.take (d + 1))[d]? with
      | none => rw [List.getElem?_eq_none_iff] at hg; omega
      | some x => exact ⟨x, rfl⟩
    have hstep : processLine st line = some
        ⟨appendChild (st.heap ++ [⟨m.2, hasSuffixChar '/' line, []⟩]) parent st.heap.length,
          if hasSuffixChar '/' line then st.stack.take (d + 1) ++ [st.heap.length]
          else st.stack.take (d + 1), d⟩ := by
      unfold processLine
      rw [hm]
      simp only [hline, if_pos hle, hparent]
      rw [if_pos (by omega)]
      simp only [hparent]
    have hpar_mem : parent ∈ st.stack := List.mem_of_mem_take (List.getElem?_mem hparent)
    refine ⟨_, hstep, htake, ?_, ⟨parent, hparent, ?_⟩, ?_⟩
    · split <;> simp
    · obtain ⟨x, hx⟩ : ∃ x, st.heap[parent]? = some x := by
        cases hg : st.heap[parent]? with
        | none =>
          rw [List.getElem?_eq_none_iff] at hg
          have := hb parent hpar_mem
          omega
        | some x => exact ⟨x, rfl⟩
      simp only
      rw [appendChild_getElem?_top st.heap _ x parent _ hx, hx]
      rfl
    · intro q hq st'' hlater
      -- `q` lies above the cut: it differs from what is kept and is an old address
      have hqmem : q ∈ st.stack := List.mem_of_mem_drop hq
      have hqlt := hb q hqmem
      have hsplit := List.take_append_drop (d + 1) st.stack
      have hq_not : q ∉ st.stack.take (d + 1) := by
        intro hqt
        rw [← hsplit, List.pairwise_append] at hpw
        exact absurd (hpw.2.2 q hqt q hq) (Nat.lt_irrefl q)
      have hst' := processLine_closed ⟨st.heap, st.stack.take (d + 1), st.lastDepth⟩ _ line q
        (by
          unfold processLine
          rw [hm]
          simp only [hline, List.take_take, Nat.min_self, ite_self, hparent]
          rfl)
        (fun x hx => hb x (List.mem_of_mem_take hx)) hqlt hq_not
      obtain ⟨c1, c2, c3, c4⟩ := hst'
      have := runLines_closed later _ st'' q hlater c4 c2 c1
      exact ⟨this.1, by rw [this.2, c3]⟩

set_option maxRecDepth 100000 in
/-- C8 at the last line of the diagram of `main`: `└── .gitignore`, of depth
0, follows `│       └── date.ts`, of depth 2; the stack `[0, 2, 4]` is cut to
`[0]` and the nodes 2 (`src`) and 4 (`utils`) keep their children. -/
theorem C8_truncation_witness :
    ∃ st', processLine stateBeforeLastLine "└── .gitignore".toList = some st' ∧
      (stateBeforeLastLine.stack.take (0 + 1)).length = 0 + 1 ∧
      st'.stack = stateBeforeLastLine.stack.take (0 + 1) ++
        (if hasSuffixChar '/' "└── .gitignore".toList then [stateBeforeLastLine.heap.length]
          else []) ∧
      (∃ parent, (stateBeforeLastLine.stack.take (0 + 1))[0]? = some parent ∧
        (st'.heap[parent]?).map (fun r => r.Children) =
          (stateBeforeLastLine.heap[parent]?).map
            (fun r => r.Children ++ [stateBeforeLastLine.heap.length])) ∧
      ∀ q ∈ stateBeforeLastLine.stack.drop (0 + 1), ∀ st'', runLines st' [] = some st'' →
        q ∉ st''.stack ∧
        (st''.heap[q]?).map (fun r => r.Children) =
          (stateBeforeLastLine.heap[q]?).map (fun r => r.Children) :=
  C8_truncation "project/".toList "│       └── date.ts".toList "└── .gitignore".toList
    ["├── README.md".toList, "├── src/".toList, "│   ├── index.ts".toList,
      "│   └── utils/".toList] [] stateBeforeLastLine 0 2 (by rfl) (by rfl) (by rfl) (by decide)

/-! ## Round trip: the ghost stack over a rendered forest -/

theorem frameRun_append (fs : List Frame) (as bs : List (List Char)) :
    frameRun fs (as ++ bs) = (frameRun fs as).bind (fun s => frameRun s bs) := by
  induction as generalizing fs with
  | nil => rfl
  | cons a as ih =>
    simp only [List.cons_append, frameRun]
    cases frameStep fs a with
    | none => rfl
    | some fs' => exact ih fs'

theorem hasSuffixChar_entry (pre n : List Char) (d : Bool) (hne : n ≠ []) (hsl : '/' ∉ n) :
    hasSuffixChar '/' (pre ++ n ++ dirSuffix d) = d := by
  cases d with
  | true =>
    show hasSuffixChar '/' (pre ++ n ++ ['/']) = true
    rw [hasSuffixChar_append_singleton]; rfl
  | false =>
    show hasSuffixChar '/' (pre ++ n ++ []) = false
    rw [List.append_nil]
    rcases List.eq_nil_or_concat n with rfl | ⟨n', c, rfl⟩
    · exact absurd rfl hne
    · have hc : c ≠ '/' := fun e => hsl (by simp [e])
      rw [List.concat_eq_append, ← List.append_assoc, hasSuffixChar_append_singleton]
      simp [hc]

/-- The loop body on the line of an entry of a standard rendering. -/
theorem frameStep_entry (fs : List Frame) (bs : List Bool) (more : Bool) (n : List Char)
    (d : Bool) (hne : n ≠ []) (hsl : '/' ∉ n) (hnl : '\n' ∉ n) :
    frameStep fs (indentBlocks bs ++ branchMarker more ++ n ++ dirSuffix d) =
      if bs.length + 1 ≤ fs.length then
        some (attachFrames (truncFrames (bs.length + 1) fs) n d)
      else none := by
  have hm : dirRegex (indentBlocks bs ++ branchMarker more ++ n ++ dirSuffix d) =
      some (indentBlocks bs, n) := by
    unfold dirRegex
    rw [List.append_assoc, List.append_assoc]
    apply matchIndent_append _ _ _ (indentBlocks_isIndentChar bs)
    · intro c hc
      cases more <;>
        simp only [branchMarker, List.cons_append, List.head?_cons, Option.mem_def,
          Option.some.injEq, Bool.false_eq_true, if_false, if_true] at hc <;>
        subst hc <;> decide
    · exact matchMarkerName_marker more _ n (matchName_entry n d hne hnl hsl)
  have hs : hasSuffixChar '/' (indentBlocks bs ++ branchMarker more ++ n ++ dirSuffix d) = d :=
    hasSuffixChar_entry _ n d hne hsl
  unfold frameStep
  rw [hm]
  simp only [computeDepth_indentBlocks, hs]

theorem addDone_append_singleton (T : List Frame) (g : Frame) (c : Node) :
    addDone (T ++ [g]) c = T ++ [{ g with done := g.done ++ [c] }] := by
  induction T with
  | nil => rfl
  | cons f T ih =>
    cases T with
    | nil => rfl
    | cons f' T => simpa [addDone] using ih

theorem addDones_append_singleton (T : List Frame) (g : Frame) (cs : List Node) :
    addDones (T ++ [g]) cs = T ++ [{ g with done := g.done ++ cs }] := by
  induction cs generalizing g with
  | nil => simp [addDones]
  | cons c cs ih =>
    unfold addDones at ih ⊢
    rw [List.foldl_cons, addDone_append_singleton, ih]
    simp

theorem NodeOK_of_mem_cons (c : Node) (cs : List Node)
    (h : ∀ n ∈ Node.nodesList (c :: cs), NodeOK n) :
    (∀ n ∈ Node.nodesList [c], NodeOK n) ∧ (∀ n ∈ Node.nodesList cs, NodeOK n) := by
  constructor
  · intro n hn
    exact h n (by simp only [Node.nodesList, List.append_nil, List.mem_append] at hn ⊢; exact Or.inl hn)
  · intro n hn
    exact h n (by simp only [Node.nodesList, List.mem_append]; exact Or.inr hn)

mutual
/-- The loop body over the lines of an entry and of what lies below it: the
entry ends up as one more complete child of its parent. -/
theorem frameRun_renderNode : ∀ (c : Node) (bs : List Bool) (more : Bool) (fs : List Frame),
    bs.length + 1 ≤ fs.length → (∀ n ∈ Node.nodesList [c], NodeOK n) →
    ∃ fs', frameRun fs (renderNode (indentBlocks bs) more c) = some fs' ∧
      bs.length + 1 ≤ fs'.length ∧
      truncFrames (bs.length + 1) fs' = addDone (truncFrames (bs.length + 1) fs) c
  | ⟨n, d, cs⟩, bs, more, fs, hlen, hok => by
    have hn : NodeOK ⟨n, d, cs⟩ := hok _ (by simp [Node.nodesList, Node.nodes])
    have hcs : ∀ m ∈ Node.nodesList cs, NodeOK m := fun m hm =>
      hok m (by simp [Node.nodesList, Node.nodes, hm])
    obtain ⟨hne, hsl, hnl, -, hleaf⟩ := hn
    simp only at hne hsl hnl hleaf
    have hT : (truncFrames (bs.length + 1) fs).length = bs.length + 1 := by
      rw [truncFrames_length]; omega
    have hTne : truncFrames (bs.length + 1) fs ≠ [] := by
      intro e; rw [e] at hT; simp at hT
    simp only [renderNode, frameRun]
    rw [frameStep_entry fs bs more n d hne hsl hnl, if_pos hlen]
    simp only
    cases d with
    | false =>
      have : cs = [] := hleaf rfl
      subst this
      simp only [renderChildren, frameRun, attachFrames, Bool.false_eq_true, if_false]
      refine ⟨_, rfl, by rw [addDone_length, hT], ?_⟩
      rw [truncFrames_of_length_le _ _ (by rw [addDone_length, hT])]
    | true =>
      have ih := frameRun_renderChildren cs (bs ++ [more])
        (attachFrames (truncFrames (bs.length + 1) fs) n true)
        (by simp [attachFrames, hT]) hcs
      rw [indentBlocks_append] at ih
      obtain ⟨fs', h1, h2, h3⟩ := ih
      simp only [List.length_append, List.length_singleton] at h2 h3
      refine ⟨fs', h1, by omega, ?_⟩
      rw [truncFrames_of_length_le (bs.length + 1) (attachFrames _ n true)
        (by simp [attachFrames, hT])] at h3
      simp only [attachFrames, if_true] at h3
      rw [addDones_append_singleton] at h3
      rw [← truncFrames_truncFrames (bs.length) (bs.length + 1) fs' (by omega), h3]
      have := truncFrames_append_singleton (truncFrames (bs.length + 1) fs)
        ⟨n, true, [] ++ cs⟩ hTne
      rw [hT] at this
      simpa using this
/-- The loop body over the lines of the children of an entry: they end up
as complete children of the entry, in order. -/
theorem frameRun_renderChildren : ∀ (cs : List Node) (bs : List Bool) (fs : List Frame),
    bs.length + 1 ≤ fs.length → (∀ n ∈ Node.nodesList cs, NodeOK n) →
    ∃ fs', frameRun fs (renderChildren (indentBlocks bs) cs) = some fs' ∧
      bs.length + 1 ≤ fs'.length ∧
      truncFrames (bs.length + 1) fs' = addDones (truncFrames (bs.length + 1) fs) cs
  | [], _, fs, hlen, _ => ⟨fs, rfl, hlen, rfl⟩
  | c :: cs, bs, fs, hlen, hok => by
    obtain ⟨hc, hcs⟩ := NodeOK_of_mem_cons c cs hok
    obtain ⟨fs1, h1, h2, h3⟩ := frameRun_renderNode c bs (!cs.isEmpty) fs hlen hc
    obtain ⟨fs2, i1, i2, i3⟩ := frameRun_renderChildren cs bs fs1 h2 hcs
    refine ⟨fs2, ?_, i2, ?_⟩
    · simp only [renderChildren]
      rw [frameRun_append, h1]
      exact i1
    · rw [i3, h3]
      rfl
end

/-! ## Round trip: scanning a rendering -/

theorem indentBlocks_mem (bs : List Bool) : ∀ c ∈ indentBlocks bs, c = '│' ∨ c = ' ' := by
  induction bs with
  | nil => simp [indentBlocks]
  | cons b bs ih =>
    intro c hc
    simp only [indentBlocks, List.mem_append] at hc
    rcases hc with hc | hc
    · cases b <;> simp [indentBlock] at hc <;> rcases hc with rfl | rfl <;> simp
    · exact ih c hc

theorem LineOK_entry (bs : List Bool) (more : Bool) (n : List Char) (d : Bool)
    (hnl : '\n' ∉ n) (hcr : '\r' ∉ n) :
    LineOK (indentBlocks bs ++ branchMarker more ++ n ++ dirSuffix d) := by
  have h1 : ∀ x, x ≠ '│' → x ≠ ' ' → x ≠ '├' → x ≠ '└' → x ≠ '─' → x ≠ '/' → x ∉ n →
      x ∉ indentBlocks bs ++ branchMarker more ++ n ++ dirSuffix d := by
    intro x a1 a2 a3 a4 a5 a6 a7 hx
    simp only [List.mem_append] at hx
    rcases hx with ((hx | hx) | hx) | hx
    · rcases indentBlocks_mem bs x hx with rfl | rfl
      · exact a1 rfl
      · exact a2 rfl
    · cases more <;> simp [branchMarker] at hx <;> rcases hx with rfl | rfl | rfl <;>
        first | exact a3 rfl | exact a4 rfl | exact a5 rfl | exact a2 rfl
    · exact a7 hx
    · cases d <;> simp [dirSuffix] at hx
      exact a6 hx
  refine ⟨?_, ?_, ?_⟩
  · cases more <;> simp [branchMarker]
  · exact h1 '\n' (by decide) (by decide) (by decide) (by decide) (by decide) (by decide) hnl
  · exact h1 '\r' (by decide) (by decide) (by decide) (by decide) (by decide) (by decide) hcr

mutual
theorem LineOK_renderNode : ∀ (c : Node) (bs : List Bool) (more : Bool),
    (∀ n ∈ Node.nodesList [c], NodeOK n) →
    ∀ l ∈ renderNode (indentBlocks bs) more c, LineOK l
  | ⟨n, d, cs⟩, bs, more, hok => by
    have hn : NodeOK ⟨n, d, cs⟩ := hok _ (by simp [Node.nodesList, Node.nodes])
    have hcs : ∀ m ∈ Node.nodesList cs, NodeOK m := fun m hm =>
      hok m (by simp [Node.nodesList, Node.nodes, hm])
    intro l hl
    simp only [renderNode, List.mem_cons] at hl
    rcases hl with rfl | hl
    · exact LineOK_entry bs more n d hn.2.2.1 hn.2.2.2.1
    · rw [← indentBlocks_append] at hl
      exact LineOK_renderChildren cs (bs ++ [more]) hcs l hl
theorem LineOK_renderChildren : ∀ (cs : List Node) (bs : List Bool),
    (∀ n ∈ Node.nodesList cs, NodeOK n) →
    ∀ l ∈ renderChildren (indentBlocks bs) cs, LineOK l
  | [], _, _ => by simp [renderChildren]
  | c :: cs, bs, hok => by
    obtain ⟨hc, hcs⟩ := NodeOK_of_mem_cons c cs hok
    intro l hl
    simp only [renderChildren, List.mem_append] at hl
    rcases hl with hl | hl
    · exact LineOK_renderNode c bs _ hc l hl
    · exact LineOK_renderChildren cs bs hcs l hl
end

/-- The first `Scan` of joined lines returns the first line and leaves the
others. -/
theorem Scan_joinLines_cons (l : List Char) (ls : List (List Char)) (hl : LineOK l)
    (hlen : byteLen l < maxScanTokenSize) :
    Scanner.Scan ⟨joinLines (l :: ls), false⟩ = (some l, ⟨joinLines ls, false⟩) := by
  obtain ⟨hne, hnl, hcr⟩ := hl
  cases ls with
  | nil =>
    simp only [joinLines]
    rw [Scan_last l hnl hne hlen, dropCR_of_not_mem l hcr]
  | cons l' ls =>
    simp only [joinLines]
    rw [Scan_line l _ hnl hlen, dropCR_of_not_mem l hcr]

theorem linesOf_joinLines (ls : List (List Char))
    (h : ∀ l ∈ ls, LineOK l ∧ byteLen l < maxScanTokenSize) :
    linesOf ⟨joinLines ls, false⟩ = ls := by
  induction ls with
  | nil => exact linesOf_of_Scan_none _ _ Scan_nil
  | cons l ls ih =>
    have hl := h l (by simp)
    rw [linesOf_of_Scan_some _ _ _ (Scan_joinLines_cons l ls hl.1 hl.2),
      ih (fun x hx => h x (by simp [hx]))]

/-- C2, amended: round trip.  For every tree whose root is a directory, whose
files have no children, whose names are not empty and hold no `/` and no
line break, and the lines of whose standard rendering are each shorter than
`bufio.MaxScanTokenSize` (65536) bytes, `ParseTree` applied to the rendering
returns, without error, the tree itself: the same nodes, names, directory
flags, parents and order of children. -/
theorem C2_round_trip (t : Node) (hdir : t.IsDir = true) (hok : ∀ n ∈ t.nodes, NodeOK n)
    (hlen : ∀ l ∈ renderLines t, byteLen l < maxScanTokenSize) :
    ParseTree (render t) = .returned (some t) none := by
  obtain ⟨n, d, cs⟩ := t
  simp only at hdir
  subst hdir
  have hn : NodeOK ⟨n, true, cs⟩ := hok _ (by simp [Node.nodes])
  have hcs : ∀ m ∈ Node.nodesList cs, NodeOK m := fun m hm => hok m (by simp [Node.nodes, hm])
  obtain ⟨hne, hsl, hnl, hcr, -⟩ := hn
  simp only at hne hsl hnl hcr
  have hroot : LineOK (n ++ ['/']) := by
    refine ⟨by simp, ?_, ?_⟩ <;>
      simp only [List.mem_append, List.mem_singleton, not_or] <;>
      first | exact ⟨hnl, by decide⟩ | exact ⟨hcr, by decide⟩
  have hlines : ∀ l ∈ renderChildren [] cs, LineOK l ∧ byteLen l < maxScanTokenSize :=
    fun l hl => ⟨LineOK_renderChildren cs [] hcs l hl, hlen l (by simp [renderLines, hl])⟩
  have hs : (newScanner (render ⟨n, true, cs⟩)).Scan =
      (some (n ++ ['/']), ⟨joinLines (renderChildren [] cs), false⟩) :=
    Scan_joinLines_cons _ _ hroot (hlen _ (by simp [renderLines]))
  have hfuel : (Scanner.mk (joinLines (renderChildren [] cs)) false).rest.length <
      (render ⟨n, true, cs⟩).length + 1 := Nat.lt_succ_of_lt (Scan_rest_lt _ _ _ hs)
  rw [ParseTree_eq_frameRun _ _ _ hs, scanLoopLines_eq_linesOf _ _ hfuel,
    linesOf_joinLines _ hlines]
  obtain ⟨fs', h1, -, h3⟩ := frameRun_renderChildren cs [] [rootFrame (n ++ ['/'])]
    (by simp) hcs
  simp only [indentBlocks] at h1
  rw [h1]
  simp only
  have hc := closeFrames_truncFrames 0 fs'
  simp only [List.length_nil, Nat.zero_add] at h3
  rw [h3] at hc
  have hadd := addDones_append_singleton [] (rootFrame (n ++ ['/'])) cs
  simp only [List.nil_append] at hadd
  have htr : truncFrames 1 [rootFrame (n ++ ['/'])] = [rootFrame (n ++ ['/'])] :=
    truncFrames_of_length_le 0 _ (by simp)
  rw [htr, hadd] at hc
  rw [← hc]
  simp [closeFrames, rootFrame, trimSuffixChar_append_singleton]

set_option maxRecDepth 100000 in
/-- C2 at the tree of `main`, whose rendering is `treeInput`. -/
theorem C2_round_trip_witness :
    ParseTree (render exampleTree) = .returned (some exampleTree) none ∧
    render exampleTree = treeInput :=
  ⟨C2_round_trip exampleTree (by rfl)
    (by
      intro n hn
      simp only [exampleTree, Node.nodes, Node.nodesList, List.append_nil, List.cons_append,
        List.nil_append, List.mem_cons, List.mem_singleton, List.not_mem_nil, or_false] at hn
      rcases hn with rfl | rfl | rfl | rfl | rfl | rfl | rfl <;>
        exact ⟨by decide, by decide, by decide, by decide, by simp⟩)
    (by decide), by rfl⟩

/-! ## Round trip: a line too long for the scanner -/

theorem byteLen_append (a b : List Char) : byteLen (a ++ b) = byteLen a + byteLen b := by
  induction a with
  | nil => simp [byteLen]
  | cons c a ih => simp [byteLen, ih, Nat.add_assoc]

theorem byteLen_replicate_a (n : Nat) : byteLen (List.replicate n 'a') = n := by
  induction n with
  | zero => rfl
  | succ n ih =>
    rw [List.replicate_succ, byteLen, ih]
    have : 'a'.utf8Size = 1 := by decide
    omega

theorem render_longNameTree (len : Nat) :
    render (longNameTree len) =
      ['r', '/'] ++ '\n' :: (['└', '─', '─', ' '] ++ List.replicate len 'a') := by
  simp [render, longNameTree, renderLines, renderChildren, renderNode, joinLines, branchMarker,
    dirSuffix]

theorem NodeOK_longNameTree (len : Nat) (hpos : 0 < len) :
    ∀ n ∈ (longNameTree len).nodes, NodeOK n := by
  intro n hn
  simp only [longNameTree, Node.nodes, Node.nodesList, List.append_nil, List.mem_cons,
    List.mem_singleton, List.not_mem_nil, or_false] at hn
  rcases hn with rfl | rfl
  · exact ⟨by simp, by simp, by simp, by simp, by simp⟩
  · refine ⟨?_, ?_, ?_, ?_, fun _ => rfl⟩
    · intro h
      have := congrArg List.length h
      simp at this
      omega
    all_goals
      intro h
      have := (List.mem_replicate.1 h).2
      revert this
      decide

/-- With a file name of `bufio.MaxScanTokenSize` bytes or more, the scanner
stops at the line of the file: the tree returned is the root alone. -/
theorem ParseTree_render_longNameTree (len : Nat) (hlen : maxScanTokenSize ≤ len) :
    ParseTree (render (longNameTree len)) = .returned (some ⟨['r'], true, []⟩) none := by
  have hnl : '\n' ∉ ['└', '─', '─', ' '] ++ List.replicate len 'a' := by
    intro h
    rw [List.mem_append] at h
    rcases h with h | h
    · revert h; decide
    · have := (List.mem_replicate.1 h).2
      revert this
      decide
  have hlong : ¬ byteLen (['└', '─', '─', ' '] ++ List.replicate len 'a') < maxScanTokenSize := by
    rw [byteLen_append, byteLen_replicate_a]
    omega
  have hs : (newScanner (render (longNameTree len))).Scan =
      (some ['r', '/'], ⟨['└', '─', '─', ' '] ++ List.replicate len 'a', false⟩) := by
    rw [render_longNameTree]
    exact Scan_line ['r', '/'] _ (by decide) (by decide)
  have hfuel : (Scanner.mk (['└', '─', '─', ' '] ++ List.replicate len 'a') false).rest.length <
      (render (longNameTree len)).length + 1 := Nat.lt_succ_of_lt (Scan_rest_lt _ _ _ hs)
  rw [ParseTree_eq_frameRun _ _ _ hs, scanLoopLines_eq_linesOf _ _ hfuel,
    linesOf_of_Scan_none _ _ (Scan_last_long _ hnl (by simp) hlong)]
  rfl

/-- C2 as stated fails: the tree with root `r` and one file whose name is
65536 times the letter `a` satisfies the conditions of the claim and has two
nodes, yet `ParseTree` applied to its rendering returns the root alone. -/
theorem C2_long_line_lost :
    (longNameTree 65536).IsDir = true ∧
    (∀ n ∈ (longNameTree 65536).nodes, NodeOK n) ∧
    (longNameTree 65536).size = 2 ∧
    ParseTree (render (longNameTree 65536)) = .returned (some ⟨['r'], true, []⟩) none ∧
    (⟨['r'], true, []⟩ : Node).size = 1 :=
  ⟨rfl, NodeOK_longNameTree 65536 (by decide), rfl,
    ParseTree_render_longNameTree 65536 (by decide), rfl⟩

/-! ## The reslice of the stack stays within the stack -/

theorem processLine_nilState (line : List Char) (st : PState)
    (h : processLine nilState line = some st) : st = nilState := by
  unfold processLine at h
  cases hm : dirRegex line with
  | none => rw [hm] at h; simp at h; exact h.symm
  | some m =>
    rw [hm] at h
    simp [nilState] at h

theorem runLines_nilState (lines : List (List Char)) (st : PState)
    (h : runLines nilState lines = some st) : st = nilState := by
  induction lines with
  | nil => simp [runLines] at h; exact h.symm
  | cons line rest ih =>
    simp only [runLines] at h
    cases hp : processLine nilState line with
    | none => rw [hp] at h; cases h
    | some st' =>
      rw [hp] at h
      rw [processLine_nilState line st' hp] at h
      exact ih h

/-- Whenever the loop body executes `stack = stack[:depth+1]`, that is when
`depth <= lastDepth`, the stack has at least `depth + 1` entries: the reslice
shortens the stack or leaves it as it is, and never reaches into its spare
capacity.  This holds in every state the loop reaches after a first line. -/
theorem reslice_in_range (first : List Char) (lines : List (List Char)) (st : PState)
    (h : runLines (rootState first) lines = some st) (depth : Nat)
    (hd : (depth : Int) ≤ st.lastDepth) : depth + 1 ≤ st.stack.length := by
  obtain ⟨fs, -, hstack, hlo, -⟩ := Inv_of_runLines first lines st h
  rw [hstack, stackPtrs_length]
  omega

/-- When the first `Scan` returned false the reslice is never executed:
`lastDepth` stays at -1. -/
theorem reslice_unreached_nil (lines : List (List Char)) (st : PState)
    (h : runLines nilState lines = some st) (depth : Nat) :
    ¬ ((depth : Int) ≤ st.lastDepth) := by
  rw [runLines_nilState lines st h]
  simp only [nilState]
  omega

/-! ## Branch markers -/

theorem startsWithMarker_of_head (n : List Char)
    (hhead : ∀ c ∈ n.head?, c ≠ '├' ∧ c ≠ '└') : startsWithMarker n = false := by
  cases n with
  | nil => rfl
  | cons c cs =>
    obtain ⟨h1, h2⟩ := hhead c (by simp)
    simp [startsWithMarker, List.isPrefixOf, Ne.symm h1, Ne.symm h2]

/-- What the pattern captures from indent, optional marker and name. -/
theorem dirRegex_of_parts (ind m n : List Char) (hind : ∀ c ∈ ind, isIndentChar c = true)
    (hm : m = [] ∨ m = ['├', '─', '─', ' '] ∨ m = ['└', '─', '─', ' '])
    (hhead : ∀ c ∈ n.head?, isIndentChar c = false ∧ c ≠ '├' ∧ c ≠ '└')
    (hne : n ≠ []) (hnl : '\n' ∉ n) :
    dirRegex (ind ++ m ++ n) = some (ind, entryName n) := by
  have hn := matchName_eq_entryName n hne hnl
  rw [List.append_assoc]
  unfold dirRegex
  rcases hm with rfl | rfl | rfl
  · apply matchIndent_append ind _ _ hind (fun c hc => (hhead c hc).1)
    rw [matchMarkerName_no_marker n
      (startsWithMarker_of_head n (fun c hc => (hhead c hc).2)), hn]
  · apply matchIndent_append ind _ _ hind
    · intro c hc
      simp only [List.cons_append, List.head?_cons, Option.mem_def, Option.some.injEq] at hc
      subst hc
      decide
    · exact matchMarkerName_marker true n _ hn
  · apply matchIndent_append ind _ _ hind
    · intro c hc
      simp only [List.cons_append, List.head?_cons, Option.mem_def, Option.some.injEq] at hc
      subst hc
      decide
    · exact matchMarkerName_marker false n _ hn

/-- The loop body looks at a line through the pattern and the test of the
trailing slash only. -/
theorem processLine_congr (st : PState) (l1 l2 : List Char) (hm : dirRegex l1 = dirRegex l2)
    (hs : hasSuffixChar '/' l1 = hasSuffixChar '/' l2) :
    processLine st l1 = processLine st l2 := by
  unfold processLine
  rw [hm, hs]

theorem hasSuffixChar_append_of_ne_nil (c : Char) (x n : List Char) (hne : n ≠ []) :
    hasSuffixChar c (x ++ n) = hasSuffixChar c n := by
  rcases List.eq_nil_or_concat n with rfl | ⟨n', z, rfl⟩
  · exact absurd rfl hne
  · rw [List.concat_eq_append, ← List.append_assoc, hasSuffixChar_append_singleton,
      hasSuffixChar_append_singleton]

theorem trimSuffixChar_append_of_ne_nil (c : Char) (x n : List Char) (hne : n ≠ []) :
    trimSuffixChar c (x ++ n) = x ++ trimSuffixChar c n := by
  unfold trimSuffixChar
  rw [hasSuffixChar_append_of_ne_nil c x n hne]
  split
  · rw [List.dropLast_append_of_ne_nil _ hne]
  · rfl

/-- The name part of a line after the scanner dropped a final carriage
return: it keeps its first character. -/
theorem dropCR_name (name : List Char) (hne : name ≠ []) (hnl : '\n' ∉ name)
    (hhead : ∀ c ∈ name.head?, isIndentChar c = false ∧ c ≠ '├' ∧ c ≠ '└') :
    dropCR name ≠ [] ∧ '\n' ∉ dropCR name ∧
    ∀ c ∈ (dropCR name).head?, isIndentChar c = false ∧ c ≠ '├' ∧ c ≠ '└' := by
  have hsub := trimSuffixChar_sublist '\r' name
  refine ⟨?_, fun h => hnl (hsub.subset h), ?_⟩
  · cases name with
    | nil => exact absurd rfl hne
    | cons c cs =>
      have hc := (hhead c (by simp)).1
      cases cs with
      | nil =>
        have : c ≠ '\r' := by
          rintro rfl
          simp [isIndentChar] at hc
        simp [dropCR, trimSuffixChar, hasSuffixChar, this]
      | cons d ds =>
        simp only [dropCR, trimSuffixChar, hasSuffixChar]
        split <;> simp
  · cases name with
    | nil => exact absurd rfl hne
    | cons c cs =>
      have hc := (hhead c (by simp)).1
      cases cs with
      | nil =>
        have : c ≠ '\r' := by
          rintro rfl
          simp [isIndentChar] at hc
        simpa [dropCR, trimSuffixChar, hasSuffixChar, this] using hhead
      | cons d ds =>
        simp only [dropCR, trimSuffixChar, hasSuffixChar]
        split
        · simpa using hhead
        · simpa using hhead

/-- With or without a marker, with one marker or the other, the loop body
does the same with a line. -/
theorem processLine_marker (st : PState) (ind m m' name : List Char)
    (hind : ∀ c ∈ ind, isIndentChar c = true)
    (hm : m = [] ∨ m = ['├', '─', '─', ' '] ∨ m = ['└', '─', '─', ' '])
    (hm' : m' = [] ∨ m' = ['├', '─', '─', ' '] ∨ m' = ['└', '─', '─', ' '])
    (hne : name ≠ []) (hnl : '\n' ∉ name)
    (hhead : ∀ c ∈ name.head?, isIndentChar c = false ∧ c ≠ '├' ∧ c ≠ '└') :
    processLine st (dropCR (ind ++ m ++ name)) = processLine st (dropCR (ind ++ m' ++ name)) := by
  obtain ⟨d1, d2, d3⟩ := dropCR_name name hne hnl hhead
  unfold dropCR at d1 d2 d3 ⊢
  rw [trimSuffixChar_append_of_ne_nil _ _ _ hne, trimSuffixChar_append_of_ne_nil _ _ _ hne]
  apply processLine_congr
  · rw [dirRegex_of_parts ind m _ hind hm d3 d1 d2, dirRegex_of_parts ind m' _ hind hm' d3 d1 d2]
  · rw [hasSuffixChar_append_of_ne_nil _ _ _ d1, hasSuffixChar_append_of_ne_nil _ _ _ d1]

theorem lineDepth_marker (ind m name : List Char)
    (hind : ∀ c ∈ ind, isIndentChar c = true)
    (hm : m = [] ∨ m = ['├', '─', '─', ' '] ∨ m = ['└', '─', '─', ' '])
    (hne : name ≠ []) (hnl : '\n' ∉ name)
    (hhead : ∀ c ∈ name.head?, isIndentChar c = false ∧ c ≠ '├' ∧ c ≠ '└') :
    lineDepth (dropCR (ind ++ m ++ name)) = some (computeDepth ind) := by
  obtain ⟨d1, d2, d3⟩ := dropCR_name name hne hnl hhead
  unfold dropCR at d1 d2 d3 ⊢
  rw [trimSuffixChar_append_of_ne_nil _ _ _ hne]
  unfold lineDepth
  rw [dirRegex_of_parts ind m _ hind hm d3 d1 d2]
  rfl

/-- A line of the text is replaced by another that the scanner treats alike
(both within the buffer or both too long) and the loop body treats alike:
the loop does the same. -/
theorem runLines_replace_line (l1 l2 post : List Char) (h1 : '\n' ∉ l1) (h2 : '\n' ∉ l2)
    (hne1 : l1 ≠ []) (hne2 : l2 ≠ [])
    (hlen : byteLen l1 < maxScanTokenSize ↔ byteLen l2 < maxScanTokenSize)
    (hproc : ∀ st, processLine st (dropCR l1) = processLine st (dropCR l2))
    (hpost : post = [] ∨ ∃ more, post = '\n' :: more) (n : Nat) :
    ∀ (pre : List Char) (st : PState), pre.length ≤ n →
      (pre = [] ∨ pre.getLast? = some '\n') →
      runLines st (linesOf ⟨pre ++ l1 ++ post, false⟩) =
        runLines st (linesOf ⟨pre ++ l2 ++ post, false⟩) := by
  have base : ∀ st, runLines st (linesOf ⟨l1 ++ post, false⟩) =
      runLines st (linesOf ⟨l2 ++ post, false⟩) := by
    intro st
    by_cases hl : byteLen l1 < maxScanTokenSize
    · have hl2 := hlen.1 hl
      rcases hpost with rfl | ⟨more, rfl⟩
      · simp only [List.append_nil]
        rw [linesOf_of_Scan_some _ _ _ (Scan_last l1 h1 hne1 hl),
          linesOf_of_Scan_some _ _ _ (Scan_last l2 h2 hne2 hl2)]
        simp only [runLines, hproc]
      · rw [linesOf_of_Scan_some _ _ _ (Scan_line l1 more h1 hl),
          linesOf_of_Scan_some _ _ _ (Scan_line l2 more h2 hl2)]
        simp only [runLines, hproc]
    · have hl2 : ¬ byteLen l2 < maxScanTokenSize := fun h => hl (hlen.2 h)
      rcases hpost with rfl | ⟨more, rfl⟩
      · simp only [List.append_nil]
        rw [linesOf_of_Scan_none _ _ (Scan_last_long l1 h1 hne1 hl),
          linesOf_of_Scan_none _ _ (Scan_last_long l2 h2 hne2 hl2)]
      · rw [linesOf_of_Scan_none _ _ (Scan_line_long l1 more h1 hl),
          linesOf_of_Scan_none _ _ (Scan_line_long l2 more h2 hl2)]
  induction n with
  | zero =>
    intro pre st hn _
    have : pre = [] := List.length_eq_zero.1 (by omega)
    subst this
    exact base st
  | succ n ih =>
    intro pre st hn hpre
    rcases hpre with rfl | hlast
    · exact base st
    · obtain ⟨line, hl, e | ⟨pre', e⟩⟩ := exists_first_line pre
      · exfalso
        rw [← e] at hl
        exact hl (List.mem_of_getLast?_eq_some hlast)
      · have hpre' : pre' = [] ∨ pre'.getLast? = some '\n' := by
          cases pre' with
          | nil => exact Or.inl rfl
          | cons c cs =>
            right
            rw [e, List.getLast?_append, List.getLast?_cons_cons] at hlast
            simpa using hlast
        have hlen' : pre'.length ≤ n := by
          rw [e] at hn
          simp at hn
          omega
        rw [e]
        simp only [List.append_assoc, List.cons_append]
        by_cases hb : byteLen line < maxScanTokenSize
        · rw [linesOf_of_Scan_some _ _ _ (Scan_line line _ hl hb),
            linesOf_of_Scan_some _ _ _ (Scan_line line _ hl hb)]
          simp only [runLines]
          cases processLine st (dropCR line) with
          | none => rfl
          | some st' =>
            have := ih pre' st' hlen' hpre'
            simp only [List.append_assoc] at this
            exact this
        · rw [linesOf_of_Scan_none _ _ (Scan_line_long line _ hl hb),
            linesOf_of_Scan_none _ _ (Scan_line_long line _ hl hb)]

/-- Replacing a line after the first by one the scanner and the loop body
treat alike changes nothing of what `ParseTree` builds and returns. -/
theorem ParseTree_replace_line (pre l1 l2 post : List Char) (hpre : pre.getLast? = some '\n')
    (h1 : '\n' ∉ l1) (h2 : '\n' ∉ l2) (hne1 : l1 ≠ []) (hne2 : l2 ≠ [])
    (hlen : byteLen l1 < maxScanTokenSize ↔ byteLen l2 < maxScanTokenSize)
    (hproc : ∀ st, processLine st (dropCR l1) = processLine st (dropCR l2))
    (hpost : post = [] ∨ ∃ more, post = '\n' :: more) :
    ParseTree (pre ++ l1 ++ post) = ParseTree (pre ++ l2 ++ post) := by
  have hmem : parseTreeMem (pre ++ l1 ++ post) = parseTreeMem (pre ++ l2 ++ post) := by
    obtain ⟨line, hl, e | ⟨pre', e⟩⟩ := exists_first_line pre
    · exfalso
      rw [← e] at hl
      exact hl (List.mem_of_getLast?_eq_some hpre)
    · have hpre' : pre' = [] ∨ pre'.getLast? = some '\n' := by
        cases pre' with
        | nil => exact Or.inl rfl
        | cons c cs =>
          right
          rw [e, List.getLast?_append, List.getLast?_cons_cons] at hpre
          simpa using hpre
      rw [parseTreeMem_eq, parseTreeMem_eq, e]
      simp only [newScanner, List.append_assoc, List.cons_append]
      by_cases hb : byteLen line < maxScanTokenSize
      · rw [Scan_line line _ hl hb, Scan_line line _ hl hb]
        simp only
        have := runLines_replace_line l1 l2 post h1 h2 hne1 hne2 hlen hproc hpost pre'.length
          pre' (rootState (dropCR line)) (Nat.le_refl _) hpre'
        simp only [List.append_assoc] at this
        rw [this]
      · rw [Scan_line_long line _ hl hb, Scan_line_long line _ hl hb]
        simp only
        have hne : line ≠ [] := by
          rintro rfl
          simp [byteLen, maxScanTokenSize] at hb
        rw [linesOf_tooLong line _ hne (by omega), linesOf_tooLong line _ hne (by omega)]
  unfold ParseTree
  rw [hmem]

theorem byteLen_marker_eq (m m' : List Char)
    (hm : m = ['├', '─', '─', ' '] ∨ m = ['└', '─', '─', ' '])
    (hm' : m' = ['├', '─', '─', ' '] ∨ m' = ['└', '─', '─', ' ']) : byteLen m = byteLen m' := by
  rcases hm with rfl | rfl <;> rcases hm' with rfl | rfl <;> decide

/-- C11, amended: branch markers are cosmetic.  For a line after the first
of the form indent, marker, name, where the marker is `├── ` or `└── ` and
the name is not empty and does not begin with whitespace, `│`, `├` or `└`,
the computed depth of the line is that of its indent, with the marker, with
the other marker and without marker; replacing the marker by the other marker
leaves the result of `ParseTree` on the whole input unchanged; and so does
deleting the marker, provided the line with its marker is shorter than
`bufio.MaxScanTokenSize` (65536) bytes. -/
theorem C11_markers_cosmetic (pre indent marker marker' name post : List Char)
    (hpre : pre.getLast? = some '\n') (hpost : post = [] ∨ ∃ more, post = '\n' :: more)
    (hind : ∀ c ∈ indent, isIndentChar c = true ∧ c ≠ '\n')
    (hm : marker = ['├', '─', '─', ' '] ∨ marker = ['└', '─', '─', ' '])
    (hm' : marker' = ['├', '─', '─', ' '] ∨ marker' = ['└', '─', '─', ' '])
    (hne : name ≠ []) (hnl : '\n' ∉ name)
    (hhead : ∀ c ∈ name.head?, isIndentChar c = false ∧ c ≠ '├' ∧ c ≠ '└') :
    lineDepth (dropCR (indent ++ marker ++ name)) = some (computeDepth indent) ∧
    lineDepth (dropCR (indent ++ marker' ++ name)) = some (computeDepth indent) ∧
    lineDepth (dropCR (indent ++ [] ++ name)) = some (computeDepth indent) ∧
    ParseTree (pre ++ (indent ++ marker' ++ name) ++ post) =
      ParseTree (pre ++ (indent ++ marker ++ name) ++ post) ∧
    (byteLen (indent ++ marker ++ name) < maxScanTokenSize →
      ParseTree (pre ++ (indent ++ [] ++ name) ++ post) =
        ParseTree (pre ++ (indent ++ marker ++ name) ++ post)) := by
  have hind1 : ∀ c ∈ indent, isIndentChar c = true := fun c hc => (hind c hc).1
  have hM : marker = [] ∨ marker = ['├', '─', '─', ' '] ∨ marker = ['└', '─', '─', ' '] :=
    Or.inr hm
  have hM' : marker' = [] ∨ marker' = ['├', '─', '─', ' '] ∨ marker' = ['└', '─', '─', ' '] :=
    Or.inr hm'
  have hline : ∀ m : List Char,
      (m = [] ∨ m = ['├', '─', '─', ' '] ∨ m = ['└', '─', '─', ' ']) →
      '\n' ∉ indent ++ m ++ name ∧ indent ++ m ++ name ≠ [] := by
    intro m hmm
    refine ⟨?_, by simp [hne]⟩
    simp only [List.mem_append, not_or]
    refine ⟨⟨fun h => (hind _ h).2 rfl, ?_⟩, hnl⟩
    rcases hmm with rfl | rfl | rfl <;> decide
  refine ⟨lineDepth_marker indent marker name hind1 hM hne hnl hhead,
    lineDepth_marker indent marker' name hind1 hM' hne hnl hhead,
    lineDepth_marker indent [] name hind1 (Or.inl rfl) hne hnl hhead, ?_, ?_⟩
  · apply ParseTree_replace_line pre _ _ post hpre (hline _ hM').1 (hline _ hM).1
      (hline _ hM').2 (hline _ hM).2 _ _ hpost
    · simp only [byteLen_append, byteLen_marker_eq marker' marker hm' hm]
    · exact fun st => processLine_marker st indent marker' marker name hind1 hM' hM hne hnl hhead
  · intro hshort
    apply ParseTree_replace_line pre _ _ post hpre (hline _ (Or.inl rfl)).1 (hline _ hM).1
      (hline _ (Or.inl rfl)).2 (hline _ hM).2 _ _ hpost
    · simp only [byteLen_append] at hshort ⊢
      constructor
      · exact fun _ => hshort
      · intro _
        simp only [byteLen]
        omega
    · exact fun st => processLine_marker st indent [] marker name hind1 (Or.inl rfl) hM hne hnl
        hhead

set_option maxRecDepth 100000 in
/-- C11 at the line `│   ├── index.ts` of the diagram of `main`: with `└── `
for `├── `, or with no marker, the tree returned is the same. -/
theorem C11_markers_cosmetic_witness :
    lineDepth (dropCR ("│   ".toList ++ "├── ".toList ++ "index.ts".toList)) =
      some (computeDepth "│   ".toList) ∧
    lineDepth (dropCR ("│   ".toList ++ "└── ".toList ++ "index.ts".toList)) =
      some (computeDepth "│   ".toList) ∧
    lineDepth (dropCR ("│   ".toList ++ [] ++ "index.ts".toList)) =
      some (computeDepth "│   ".toList) ∧
    ParseTree ("project/\n├── README.md\n├── src/\n".toList ++
        ("│   ".toList ++ "└── ".toList ++ "index.ts".toList) ++
        "\n│   └── utils/\n│       └── date.ts\n└── .gitignore".toList) =
      ParseTree ("project/\n├── README.md\n├── src/\n".toList ++
        ("│   ".toList ++ "├── ".toList ++ "index.ts".toList) ++
        "\n│   └── utils/\n│       └── date.ts\n└── .gitignore".toList) ∧
    (byteLen ("│   ".toList ++ "├── ".toList ++ "index.ts".toList) < maxScanTokenSize →
      ParseTree ("project/\n├── README.md\n├── src/\n".toList ++
          ("│   ".toList ++ [] ++ "index.ts".toList) ++
          "\n│   └── utils/\n│       └── date.ts\n└── .gitignore".toList) =
        ParseTree ("project/\n├── README.md\n├── src/\n".toList ++
          ("│   ".toList ++ "├── ".toList ++ "index.ts".toList) ++
          "\n│   └── utils/\n│       └── date.ts\n└── .gitignore".toList)) :=
  C11_markers_cosmetic "project/\n├── README.md\n├── src/\n".toList "│   ".toList
    "├── ".toList "└── ".toList "index.ts".toList
    "\n│   └── utils/\n│       └── date.ts\n└── .gitignore".toList
    (by rfl) (Or.inr ⟨_, rfl⟩) (by decide) (Or.inl (by rfl)) (Or.inr (by rfl)) (by decide)
    (by decide) (by decide)

/-! ## Branch markers: a line at the limit of the scanner -/

/-- After the first line `r/`, a second and last line too long for the
scanner is lost: the root alone is returned. -/
theorem ParseTree_root_long_line (l : List Char) (hnl : '\n' ∉ l) (hne : l ≠ [])
    (hlong : ¬ byteLen l < maxScanTokenSize) :
    ParseTree (['r', '/'] ++ '\n' :: l) = .returned (some ⟨['r'], true, []⟩) none := by
  have hs : (newScanner (['r', '/'] ++ '\n' :: l)).Scan = (some ['r', '/'], ⟨l, false⟩) :=
    Scan_line ['r', '/'] _ (by decide) (by decide)
  have hfuel : (Scanner.mk l false).rest.length < (['r', '/'] ++ '\n' :: l).length + 1 :=
    Nat.lt_succ_of_lt (Scan_rest_lt _ _ _ hs)
  rw [ParseTree_eq_frameRun _ _ _ hs, scanLoopLines_eq_linesOf _ _ hfuel,
    linesOf_of_Scan_none _ _ (Scan_last_long _ hnl hne hlong)]
  rfl

theorem mem_replicate_a (c : Char) (n : Nat) (hc : c ≠ 'a') : c ∉ List.replicate n 'a' :=
  fun h => hc (List.mem_replicate.1 h).2

theorem replicate_a_ne_nil (n : Nat) (hpos : 0 < n) : List.replicate n 'a' ≠ [] := by
  intro h
  have := congrArg List.length h
  simp at this
  omega

/-- After the first line `r/`, a second and last line of letters `a` that
fits the buffer makes a file of that name under the root. -/
theorem ParseTree_root_plain_line (n : Nat) (hpos : 0 < n) (hlt : n < maxScanTokenSize) :
    ParseTree (['r', '/'] ++ '\n' :: List.replicate n 'a') =
      .returned (some ⟨['r'], true, [⟨List.replicate n 'a', false, []⟩]⟩) none := by
  have hne := replicate_a_ne_nil n hpos
  have hnl : '\n' ∉ List.replicate n 'a' := mem_replicate_a _ n (by decide)
  have hcr : '\r' ∉ List.replicate n 'a' := mem_replicate_a _ n (by decide)
  have hsl : (List.replicate n 'a').getLast? ≠ some '/' := fun h =>
    mem_replicate_a '/' n (by decide) (List.mem_of_getLast?_eq_some h)
  have hs : (newScanner (['r', '/'] ++ '\n' :: List.replicate n 'a')).Scan =
      (some ['r', '/'], ⟨List.replicate n 'a', false⟩) :=
    Scan_line ['r', '/'] _ (by decide) (by decide)
  have hfuel : (Scanner.mk (List.replicate n 'a') false).rest.length <
      (['r', '/'] ++ '\n' :: List.replicate n 'a').length + 1 :=
    Nat.lt_succ_of_lt (Scan_rest_lt _ _ _ hs)
  have hlines : linesOf ⟨List.replicate n 'a', false⟩ = [List.replicate n 'a'] := by
    rw [linesOf_of_Scan_some _ _ _ (Scan_last _ hnl hne (by rw [byteLen_replicate_a]; exact hlt)),
      linesOf_of_Scan_none _ _ Scan_nil, dropCR_of_not_mem _ hcr]
  have hhead : ∀ c ∈ (List.replicate n 'a').head?,
      isIndentChar c = false ∧ c ≠ '├' ∧ c ≠ '└' := by
    intro c hc
    have : c = 'a' := (List.mem_replicate.1 (List.mem_of_mem_head? hc)).2
    subst this
    decide
  have hm : dirRegex (List.replicate n 'a') = some ([], List.replicate n 'a') := by
    have := dirRegex_of_parts [] [] (List.replicate n 'a') (by simp) (Or.inl rfl) hhead hne hnl
    simp only [List.nil_append] at this
    rw [this, entryName, trimSuffixChar_of_not '/' _ hsl]
    simp
  have hsuf : hasSuffixChar '/' (List.replicate n 'a') = false :=
    (hasSuffixChar_false_iff '/' _).2 hsl
  rw [ParseTree_eq_frameRun _ _ _ hs, scanLoopLines_eq_linesOf _ _ hfuel, hlines]
  simp only [frameRun, frameStep, hm, hsuf]
  rfl

/-- C11 as stated fails for the deletion of the marker: the line `├── `
followed by 65526 letters `a` has 65536 bytes and is lost by the scanner,
the root alone being returned, while the same line without its marker has
65526 bytes and makes a node. -/
theorem C11_marker_at_the_limit :
    byteLen (['├', '─', '─', ' '] ++ List.replicate 65526 'a') = 65536 ∧
    ParseTree (['r', '/'] ++ '\n' :: (['├', '─', '─', ' '] ++ List.replicate 65526 'a')) =
      .returned (some ⟨['r'], true, []⟩) none ∧
    ParseTree (['r', '/'] ++ '\n' :: List.replicate 65526 'a') =
      .returned (some ⟨['r'], true, [⟨List.replicate 65526 'a', false, []⟩]⟩) none := by
  have hb : byteLen (['├', '─', '─', ' '] ++ List.replicate 65526 'a') = 65536 := by
    rw [byteLen_append, byteLen_replicate_a]
    rfl
  refine ⟨hb, ?_, ParseTree_root_plain_line 65526 (by decide) (by decide)⟩
  apply ParseTree_root_long_line
  · rw [List.mem_append, not_or]
    exact ⟨by decide, mem_replicate_a _ _ (by decide)⟩
  · exact List.append_ne_nil_of_left_ne_nil (by decide) _
  · rw [hb]
    decide

/-! ## Which lines are skipped -/

theorem Scan_token_no_newline (rest line : List Char) (sc' : Scanner)
    (h : Scanner.Scan ⟨rest, false⟩ = (some line, sc')) :
    '\n' ∉ line ∧ sc'.tooLong = false := by
  have hsub : ∀ l : List Char, '\n' ∉ l → '\n' ∉ dropCR l := fun l hl hm =>
    hl ((trimSuffixChar_sublist '\r' l).subset hm)
  obtain ⟨l, hl, e | ⟨more, e⟩⟩ := exists_first_line rest
  · rw [e] at h
    by_cases hne : l = []
    · subst hne; rw [Scan_nil] at h; simp at h
    · by_cases hlen : byteLen l < maxScanTokenSize
      · rw [Scan_last l hl hne hlen] at h
        simp only [Prod.mk.injEq, Option.some.injEq] at h
        rw [← h.1, ← h.2]
        exact ⟨hsub l hl, rfl⟩
      · rw [Scan_last_long l hl hne hlen] at h; simp at h
  · rw [e] at h
    by_cases hlen : byteLen l < maxScanTokenSize
    · rw [Scan_line l more hl hlen] at h
      simp only [Prod.mk.injEq, Option.some.injEq] at h
      rw [← h.1, ← h.2]
      exact ⟨hsub l hl, rfl⟩
    · rw [Scan_line_long l more hl hlen] at h; simp at h

/-- The lines the loop gets from a scanner that recorded no error hold no
newline. -/
theorem scanLoopLines_no_newline (fuel : Nat) (sc : Scanner) (hsc : sc.tooLong = false) :
    ∀ l ∈ scanLoopLines fuel sc, '\n' ∉ l := by
  induction fuel generalizing sc with
  | zero => simp [scanLoopLines]
  | succ n ih =>
    obtain ⟨rest, tl⟩ := sc
    simp only at hsc
    subst hsc
    intro l hl
    simp only [scanLoopLines] at hl
    rcases hs : Scanner.Scan ⟨rest, false⟩ with ⟨_ | line, sc'⟩
    · rw [hs] at hl; simp at hl
    · rw [hs] at hl
      obtain ⟨h1, h2⟩ := Scan_token_no_newline rest line sc' hs
      simp only [List.mem_cons] at hl
      rcases hl with rfl | hl
      · exact h1
      · exact ih sc' h2 l hl

theorem matchName_ne_nil (s n : List Char) (h : matchName s = some n) : n ≠ [] := by
  cases s with
  | nil => simp [matchName] at h
  | cons c cs =>
    simp only [matchName] at h
    split at h
    · cases hr : matchNameRest cs with
      | none => rw [hr] at h; simp at h
      | some r =>
        rw [hr] at h
        simp only [Option.map_some', Option.some.injEq] at h
        rw [← h]
        simp
    · simp at h

theorem matchMarkerName_ne_nil (s n : List Char) (h : matchMarkerName s = some n) : n ≠ [] := by
  unfold matchMarkerName at h
  split at h
  · split at h
    · rename_i m hm
      simp only [Option.some.injEq] at h
      rw [← h]
      exact matchName_ne_nil _ _ hm
    · exact matchName_ne_nil _ _ h
  · exact matchName_ne_nil _ _ h

/-- The name the pattern captures is never empty. -/
theorem matchIndent_ne_nil (s : List Char) (m : List Char × List Char)
    (h : matchIndent s = some m) : m.2 ≠ [] := by
  induction s generalizing m with
  | nil =>
    simp only [matchIndent] at h
    cases hn : matchMarkerName [] with
    | none => rw [hn] at h; simp at h
    | some n =>
      rw [hn] at h
      simp only [Option.map_some', Option.some.injEq] at h
      rw [← h]
      exact matchMarkerName_ne_nil _ _ hn
  | cons c cs ih =>
    have hrest : (matchMarkerName (c :: cs)).map (fun n => (([] : List Char), n)) = some m →
        m.2 ≠ [] := by
      intro h
      cases hn : matchMarkerName (c :: cs) with
      | none => rw [hn] at h; simp at h
      | some n =>
        rw [hn] at h
        simp only [Option.map_some', Option.some.injEq] at h
        rw [← h]
        exact matchMarkerName_ne_nil _ _ hn
    simp only [matchIndent] at h
    split at h
    · cases hr : matchIndent cs with
      | none => rw [hr] at h; exact hrest h
      | some r =>
        rw [hr] at h
        simp only [Option.some.injEq] at h
        rw [← h]
        exact ih r hr
    · exact hrest h

/-- C17: depth of a standard indent.  For an indent that is the
concatenation of `k` blocks, each `│   ` or four spaces, the computed depth,
which is the number of `│` plus the number of non-overlapping runs of four
spaces in the indent, is `k`. -/
theorem C17_depth_of_standard_indent (bs : List Bool) :
    computeDepth (indentBlocks bs) = bs.length ∧
    computeDepth (indentBlocks bs) =
      stringsCount (indentBlocks bs) ['│'] +
        stringsCount (indentBlocks bs) [' ', ' ', ' ', ' '] ∧
    indentBlock true = ['│', ' ', ' ', ' '] ∧ indentBlock false = [' ', ' ', ' ', ' '] :=
  ⟨computeDepth_indentBlocks bs, rfl, rfl, rfl⟩

/-- C18: a line after the first is skipped if and only if it is empty.  Of
the lines the loop gets after a first line, the pattern rejects the empty line
and no other; the loop body leaves the state as it is at an empty line; and
at a non-empty line, be it made of whitespace or of decoration only, the
pattern captures a non-empty name and the loop body either panics or adds
exactly one node. -/
theorem C18_only_empty_line_skipped (input first line : List Char) (sc : Scanner)
    (hs : (newScanner input).Scan = (some first, sc))
    (hl : line ∈ scanLoopLines (input.length + 1) sc) :
    (dirRegex line = none ↔ line = []) ∧
    (line = [] → ∀ st, processLine st line = some st) ∧
    (line ≠ [] → ∃ indent name, dirRegex line = some (indent, name) ∧ name ≠ [] ∧
      ∀ st, processLine st line = none ∨
        ∃ st', processLine st line = some st' ∧ st'.heap.length = st.heap.length + 1) := by
  have hsc : sc.tooLong = false := (Scan_token_no_newline input first sc hs).2
  have hnl := scanLoopLines_no_newline _ sc hsc line hl
  have hsome : line ≠ [] → ∃ m, dirRegex line = some m := fun hne =>
    matchIndent_isSome line hne hnl
  refine ⟨⟨fun h => ?_, fun h => by rw [h]; rfl⟩, fun h st => by rw [h]; rfl, fun hne => ?_⟩
  · by_contra hne
    obtain ⟨m, hm⟩ := hsome hne
    rw [hm] at h
    cases h
  · obtain ⟨⟨indent, name⟩, hm⟩ := hsome hne
    refine ⟨indent, name, hm, matchIndent_ne_nil line _ hm, fun st => ?_⟩
    cases hp : processLine st line with
    | none => exact Or.inl rfl
    | some st' => exact Or.inr ⟨st', rfl, (processLine_new_node st st' line indent name hm hp).1⟩

/-- C18 at the input `r/`, one space, `│`: the line of one space is among
the lines of the loop, is not skipped and yields a node or a panic. -/
theorem C18_only_empty_line_skipped_witness :
    (dirRegex [' '] = none ↔ [' '] = ([] : List Char)) ∧
    ([' '] = ([] : List Char) → ∀ st, processLine st [' '] = some st) ∧
    ([' '] ≠ ([] : List Char) → ∃ indent name, dirRegex [' '] = some (indent, name) ∧ name ≠ [] ∧
      ∀ st, processLine st [' '] = none ∨
        ∃ st', processLine st [' '] = some st' ∧ st'.heap.length = st.heap.length + 1) :=
  C18_only_empty_line_skipped "r/\n \n│".toList "r/".toList [' '] ⟨" \n│".toList, false⟩
    (by rfl) (by decide)

/-! ## When the loop panics -/

theorem attachFrames_length (fs : List Frame) (n : List Char) (d : Bool) :
    (attachFrames fs n d).length = fs.length + (if d then 1 else 0) := by
  cases d <;> simp [attachFrames, addDone_length]

/-- The ghost run goes through exactly when the depths of the accepted lines
are in order. -/
theorem frameRun_isSome_iff (lines : List (List Char)) (fs : List Frame) (p : Nat)
    (prevDir : Bool) (hlen : fs.length = p + 1 + (if prevDir then 1 else 0)) :
    (frameRun fs lines).isSome = depthsOK p prevDir lines := by
  induction lines generalizing fs p prevDir with
  | nil => rfl
  | cons l ls ih =>
    simp only [frameRun, depthsOK, frameStep]
    cases hm : dirRegex l with
    | none => exact ih fs p prevDir hlen
    | some m =>
      simp only
      by_cases hd : computeDepth m.1 + 1 ≤ fs.length
      · rw [if_pos hd]
        simp only
        have hcond : (decide (computeDepth m.1 ≤ p) || (computeDepth m.1 == p + 1 && prevDir)) =
            true := by
          cases prevDir
          · simp only [Bool.false_eq_true, if_false] at hlen
            simp
            omega
          · simp only [if_true] at hlen
            simp
            omega
        rw [hcond, Bool.true_and]
        apply ih
        rw [attachFrames_length, truncFrames_length]
        omega
      · rw [if_neg hd]
        have hcond : (decide (computeDepth m.1 ≤ p) || (computeDepth m.1 == p + 1 && prevDir)) =
            false := by
          cases prevDir
          · simp only [Bool.false_eq_true, if_false] at hlen
            simp
            omega
          · simp only [if_true] at hlen
            simp
            omega
        rw [hcond]
        rfl

/-- The first `Scan` returns a line when the input is not empty and its
first line fits the buffer. -/
theorem Scan_first_some (input : List Char) (hne : input ≠ [])
    (hshort : byteLen (input.takeWhile (fun c => c != '\n')) < maxScanTokenSize) :
    (newScanner input).Scan =
      (some (dropCR (input.takeWhile (fun c => c != '\n'))), (newScanner input).Scan.2) := by
  obtain ⟨line, hl, h1 | ⟨more, h1⟩⟩ := exists_first_line input
  · rw [h1, takeWhile_only_line line hl] at hshort ⊢
    rw [h1] at hne
    simp only [newScanner]
    rw [Scan_last line hl hne hshort]
  · rw [h1, takeWhile_first_line line more hl] at hshort ⊢
    simp only [newScanner]
    rw [Scan_line line more hl hshort]

/-- C15, amended: the exact condition of the panic.  For every non-empty
input whose first line is shorter than `bufio.MaxScanTokenSize` (65536) bytes,
`ParseTree` returns a tree if and only if every accepted line after the first
has a computed depth `d` with `d ≤ p`, or `d = p + 1` when the accepted line
before it was a directory line, `p` being the computed depth of that line
(`p = 0` and no directory line for the root line); otherwise `ParseTree`
panics at `stack[depth]`.  The reslice `stack[:depth+1]` is never out of
range: whenever `depth ≤ lastDepth` the stack has `depth + 1` entries. -/
theorem C15_crash_condition (input : List Char) (hne : input ≠ [])
    (hshort : byteLen (input.takeWhile (fun c => c != '\n')) < maxScanTokenSize) :
    ((∃ t e, ParseTree input = .returned (some t) e) ↔
      depthsOK 0 false (scanLoopLines (input.length + 1) (newScanner input).Scan.2) = true) ∧
    (depthsOK 0 false (scanLoopLines (input.length + 1) (newScanner input).Scan.2) = false →
      ParseTree input = .panicked) ∧
    (∀ (first : List Char) (lines : List (List Char)) (st : PState) (depth : Nat),
      runLines (rootState first) lines = some st → (depth : Int) ≤ st.lastDepth →
      depth + 1 ≤ st.stack.length) := by
  have hs := Scan_first_some input hne hshort
  have hp := ParseTree_eq_frameRun input _ _ hs
  have hiff := frameRun_isSome_iff (scanLoopLines (input.length + 1) (newScanner input).Scan.2)
    [rootFrame (dropCR (input.takeWhile (fun c => c != '\n')))] 0 false (by simp)
  refine ⟨?_, ?_, fun first lines st depth h hd => reslice_in_range first lines st h depth hd⟩
  · rw [← hiff, hp]
    cases hf : frameRun [rootFrame (dropCR (input.takeWhile (fun c => c != '\n')))]
        (scanLoopLines (input.length + 1) (newScanner input).Scan.2) with
    | none => simp
    | some fs =>
      obtain ⟨f, fs', rfl⟩ := List.exists_cons_of_ne_nil (frameRun_ne_nil _ _ _ (by simp) hf)
      simp [closeFrames]
  · intro hno
    rw [← hiff] at hno
    rw [hp]
    cases hf : frameRun [rootFrame (dropCR (input.takeWhile (fun c => c != '\n')))]
        (scanLoopLines (input.length + 1) (newScanner input).Scan.2) with
    | none => rfl
    | some fs => rw [hf] at hno; simp at hno

set_option maxRecDepth 100000 in
/-- C15 at the diagram of `main`, where the depths 0, 0, 1, 1, 2, 0 are in
order and a tree is returned. -/
theorem C15_crash_condition_witness :
    ((∃ t e, ParseTree treeInput = .returned (some t) e) ↔
      depthsOK 0 false (scanLoopLines (treeInput.length + 1) (newScanner treeInput).Scan.2) =
        true) ∧
    (depthsOK 0 false (scanLoopLines (treeInput.length + 1) (newScanner treeInput).Scan.2) =
        false → ParseTree treeInput = .panicked) ∧
    (∀ (first : List Char) (lines : List (List Char)) (st : PState) (depth : Nat),
      runLines (rootState first) lines = some st → (depth : Int) ≤ st.lastDepth →
      depth + 1 ≤ st.stack.length) :=
  C15_crash_condition treeInput (by decide) (by decide)

set_option maxRecDepth 100000 in
/-- Three inputs that make `ParseTree` panic: a first entry of depth 1, a
deeper line right after a file line, and a jump of the depth by two. -/
theorem ParseTree_panic_examples :
    ParseTree "r/\n│   x".toList = .panicked ∧
    ParseTree "r/\n├── a\n│   ├── b".toList = .panicked ∧
    ParseTree "r/\n├── a/\n│   │   ├── b".toList = .panicked :=
  ⟨by rfl, by rfl, by rfl⟩

/-! ## A first line too long for the scanner -/

theorem bufferFill_replicate_a (room n : Nat) :
    bufferFill room (List.replicate n 'a') = List.replicate (min room n) 'a' := by
  induction n generalizing room with
  | zero => simp [bufferFill]
  | succ n ih =>
    have hsz : 'a'.utf8Size = 1 := by decide
    rw [List.replicate_succ, bufferFill, hsz]
    by_cases hr : 1 ≤ room
    · rw [if_pos hr, ih]
      obtain ⟨r, rfl⟩ : ∃ r, room = r + 1 := ⟨room - 1, by omega⟩
      rw [Nat.add_sub_cancel, Nat.succ_min_succ, List.replicate_succ]
    · rw [if_neg hr]
      have : room = 0 := by omega
      subst this
      simp

/-- The lines the loop gets when the input is one line of letters `a` too
long for the buffer: the first `Scan` returns false and the next hands out
what the buffer holds. -/
theorem scanLoopLines_long_first_line (n : Nat) (hlen : maxScanTokenSize ≤ n) :
    (newScanner (List.replicate n 'a')).Scan = (none, ⟨List.replicate n 'a', true⟩) ∧
    scanLoopLines ((List.replicate n 'a').length + 1) ⟨List.replicate n 'a', true⟩ =
      [List.replicate maxScanTokenSize 'a'] := by
  have hpos : 0 < n := Nat.lt_of_lt_of_le (by decide) hlen
  have hne := replicate_a_ne_nil n hpos
  have hnl : '\n' ∉ List.replicate n 'a' := mem_replicate_a _ n (by decide)
  refine ⟨Scan_last_long _ hnl hne (by rw [byteLen_replicate_a]; omega), ?_⟩
  show linesOf ⟨List.replicate n 'a', true⟩ = _
  have := linesOf_tooLong (List.replicate n 'a') [] hne (by rw [byteLen_replicate_a]; exact hlen)
  rw [List.append_nil] at this
  rw [this, bufferFill_replicate_a, Nat.min_eq_left hlen,
    dropCR_of_not_mem _ (mem_replicate_a _ _ (by decide))]

/-- A single line that begins with a plain character: its depth is 0, and on
the empty stack the loop body panics at it. -/
theorem single_line_on_empty_stack (l : List Char) (hne : l ≠ []) (hnl : '\n' ∉ l)
    (hhead : ∀ c ∈ l.head?, isIndentChar c = false ∧ c ≠ '├' ∧ c ≠ '└') :
    depthsOK 0 false [l] = true ∧ frameRun [] [l] = none := by
  have hm := dirRegex_of_parts [] [] l (by simp) (Or.inl rfl) hhead hne hnl
  rw [List.nil_append, List.nil_append] at hm
  constructor
  · simp only [depthsOK, hm]
    rfl
  · simp only [frameRun, frameStep, hm]
    rfl

theorem long_first_line_panics (n : Nat) (hlen : maxScanTokenSize ≤ n) :
    List.replicate n 'a' ≠ [] ∧ '\n' ∉ List.replicate n 'a' ∧
    depthsOK 0 false (scanLoopLines ((List.replicate n 'a').length + 1)
      (newScanner (List.replicate n 'a')).Scan.2) = true ∧
    ParseTree (List.replicate n 'a') = .panicked := by
  obtain ⟨hs, hlines⟩ := scanLoopLines_long_first_line n hlen
  have hne := replicate_a_ne_nil n (Nat.lt_of_lt_of_le (by decide) hlen)
  have hnl : '\n' ∉ List.replicate n 'a' := mem_replicate_a _ _ (by decide)
  have hchunk := single_line_on_empty_stack (List.replicate maxScanTokenSize 'a')
    (replicate_a_ne_nil _ (by decide)) (mem_replicate_a _ _ (by decide))
    (by
      intro c hc
      have : c = 'a' := (List.mem_replicate.1 (List.mem_of_mem_head? hc)).2
      subst this
      decide)
  refine ⟨hne, hnl, ?_, ?_⟩
  · rw [hs, hlines]
    exact hchunk.1
  · rw [ParseTree_eq_frameRun_nil _ _ hs, hlines, hchunk.2]

/-- C15 as stated fails: the input of 65536 letters `a` is not empty and has
no line after the first, so that the condition on the depths holds, yet
`ParseTree` returns no tree: the first `Scan` fails on the long line, the next
hands out the buffer, and `stack[depth]` panics on the empty stack. -/
theorem C15_long_first_line_panics :
    List.replicate 65536 'a' ≠ [] ∧ '\n' ∉ List.replicate 65536 'a' ∧
    depthsOK 0 false (scanLoopLines ((List.replicate 65536 'a').length + 1)
      (newScanner (List.replicate 65536 'a')).Scan.2) = true ∧
    ParseTree (List.replicate 65536 'a') = .panicked :=
  long_first_line_panics 65536 (by decide)

/-! ## Distances from the root -/

theorem Node.depthsFromList_append (k : Nat) (as bs : List Node) :
    Node.depthsFromList k (as ++ bs) = Node.depthsFromList k as ++ Node.depthsFromList k bs := by
  induction as with
  | nil => simp [Node.depthsFromList]
  | cons a as ih => simp [Node.depthsFromList, ih]

theorem depthsFromList_closeFrames_cons (k : Nat) (f : Frame) (fs : List Frame) :
    Node.depthsFromList k (closeFrames (f :: fs)) =
      k :: (Node.depthsFromList (k + 1) f.done ++
        Node.depthsFromList (k + 1) (closeFrames fs)) := by
  simp [closeFrames, Node.depthsFromList, Node.depthsFrom, Node.depthsFromList_append]

theorem depthsFromList_attachFrames (fs : List Frame) (n : List Char) (d : Bool) (k : Nat)
    (hne : fs ≠ []) :
    Node.depthsFromList k (closeFrames (attachFrames fs n d)) =
      Node.depthsFromList k (closeFrames fs) ++ [k + fs.length] := by
  induction fs generalizing k with
  | nil => exact absurd rfl hne
  | cons f fs ih =>
    cases fs with
    | nil =>
      cases d <;>
        simp [attachFrames, addDone, closeFrames, Node.depthsFromList, Node.depthsFrom,
          Node.depthsFromList_append]
    | cons g gs =>
      rw [attachFrames_cons, depthsFromList_closeFrames_cons, ih (k + 1) (by simp)]
      have e : k + 1 + (g :: gs).length = k + (f :: g :: gs).length := by
        simp only [List.length_cons]; omega
      rw [e, depthsFromList_closeFrames_cons k f (g :: gs)]
      simp

theorem depthsFromList_frameStep (fs fs' : List Frame) (line : List Char) (hne : fs ≠ [])
    (h : frameStep fs line = some fs') :
    Node.depthsFromList 0 (closeFrames fs') =
      Node.depthsFromList 0 (closeFrames fs) ++
        (depthEntry line).toList.map (fun p => p.1 + 1) := by
  unfold frameStep at h
  unfold depthEntry
  cases hm : dirRegex line with
  | none => rw [hm] at h; simp at h; rw [← h]; simp
  | some m =>
    rw [hm] at h
    simp only at h
    split at h
    · rename_i hd
      simp only [Option.some.injEq] at h
      rw [← h, depthsFromList_attachFrames _ _ _ 0 (truncFrames_ne_nil _ fs hne),
        closeFrames_truncFrames, truncFrames_length]
      simp only [Option.map_some', Option.toList_some, List.map_cons, List.map_nil, Nat.zero_add]
      rw [Nat.min_eq_left hd]
    · simp at h

theorem depthsFromList_frameRun (lines : List (List Char)) (fs fs' : List Frame) (hne : fs ≠ [])
    (h : frameRun fs lines = some fs') :
    Node.depthsFromList 0 (closeFrames fs') =
      Node.depthsFromList 0 (closeFrames fs) ++
        (lines.filterMap depthEntry).map (fun p => p.1 + 1) := by
  induction lines generalizing fs with
  | nil => simp [frameRun] at h; rw [← h]; simp
  | cons line rest ih =>
    simp only [frameRun] at h
    cases hf : frameStep fs line with
    | none => rw [hf] at h; simp at h
    | some fs1 =>
      rw [hf] at h
      rw [ih fs1 (frameStep_ne_nil fs fs1 line hne hf) h,
        depthsFromList_frameStep fs fs1 line hne hf]
      cases hl : depthEntry line <;> simp [List.filterMap_cons, hl]

/-- In a returned tree the root lies at distance 0 and the node of an
accepted line of computed depth `d` at distance `d + 1`, in the order of the
lines. -/
theorem ParseTree_depths (input first : List Char) (sc : Scanner) (t : Node)
    (e : Option String) (hs : (newScanner input).Scan = (some first, sc))
    (h : ParseTree input = .returned (some t) e) :
    t.depthsFrom 0 = 0 ::
      ((scanLoopLines (input.length + 1) sc).filterMap depthEntry).map (fun p => p.1 + 1) := by
  rw [ParseTree_eq_frameRun input first sc hs] at h
  cases hf : frameRun [rootFrame first] (scanLoopLines (input.length + 1) sc) with
  | none => rw [hf] at h; simp at h
  | some fs =>
    rw [hf] at h
    simp only [Outcome.returned.injEq] at h
    have hp := depthsFromList_frameRun _ _ _ (by simp) hf
    obtain ⟨f, fs', rfl⟩ := List.exists_cons_of_ne_nil (frameRun_ne_nil _ _ _ (by simp) hf)
    simp only [closeFrames, List.head?_cons, Option.some.injEq] at h
    have ht : t.depthsFrom 0 = Node.depthsFromList 0 [t] := by
      simp [Node.depthsFromList]
    rw [ht, ← h.1]
    have hc : closeFrames (f :: fs') = [⟨f.Name, f.IsDir, f.done ++ closeFrames fs'⟩] := rfl
    rw [← hc, hp]
    simp [rootFrame, closeFrames, Node.depthsFromList, Node.depthsFrom]

/-! ## Parents -/

theorem childrenAt_appendChild_mono (h : List NodeRec) (r : NodeRec) (parent k q x : Nat)
    (hx : x ∈ childrenAt h q) : x ∈ childrenAt (appendChild (h ++ [r]) parent k) q := by
  unfold childrenAt at hx ⊢
  cases hq : h[q]? with
  | none => rw [hq] at hx; simp at hx
  | some rec =>
    rw [hq] at hx
    simp only at hx
    have hlt : q < h.length := by
      by_contra hc
      rw [List.getElem?_eq_none (by omega)] at hq
      cases hq
    by_cases hqp : q = parent
    · subst hqp
      rw [appendChild_getElem?_top h r rec q k hq]
      simp only [List.mem_append]
      exact Or.inl hx
    · rw [appendChild_getElem?_ne h r parent k q hqp hlt, hq]
      exact hx

theorem childrenAt_appendChild_new (h : List NodeRec) (r x : NodeRec) (parent k : Nat)
    (hx : h[parent]? = some x) : k ∈ childrenAt (appendChild (h ++ [r]) parent k) parent := by
  unfold childrenAt
  rw [appendChild_getElem?_top h r x parent k hx]
  simp

/-- One accepted line keeps the ghost description of stack and parents. -/
theorem processLine_parents (st st' : PState) (es : List (Nat × Bool)) (line : List Char)
    (m : List Char × List Char) (hm : dirRegex line = some m)
    (hp : processLine st line = some st') (hlen : st.heap.length = es.length + 1)
    (hstack : StackOK st.stack es) (hpar : ParentsOK st.heap es) (hinv : ∃ fs, Inv st fs) :
    st'.heap.length = (es ++ [(computeDepth m.1, hasSuffixChar '/' line)]).length + 1 ∧
    StackOK st'.stack (es ++ [(computeDepth m.1, hasSuffixChar '/' line)]) ∧
    ParentsOK st'.heap (es ++ [(computeDepth m.1, hasSuffixChar '/' line)]) := by
  obtain ⟨fs, hrep, hst, hlo, hhi⟩ := hinv
  have hslen : st.stack.length = fs.length := by rw [hst, stackPtrs_length]
  have hsb : ∀ x ∈ st.stack, x < st.heap.length := by
    rw [hst]; exact stackPtrs_lt st.heap fs 0 hrep
  generalize hd : computeDepth m.1 = d at *
  generalize hb : hasSuffixChar '/' line = b at *
  -- the stack after the reslice
  obtain ⟨stack1, hs1⟩ : ∃ s : List Nat, s = (if (d : Int) ≤ st.lastDepth then st.stack.take (d + 1)
      else st.stack) := ⟨_, rfl⟩
  have hget : ∀ (k q : Nat), stack1[k]? = some q → st.stack[k]? = some q := by
    intro k q hk
    rw [hs1] at hk
    split at hk
    · rw [List.getElem?_take] at hk
      split at hk
      · exact hk
      · cases hk
    · exact hk
  unfold processLine at hp
  rw [hm] at hp
  simp only [hd, hb, ← hs1] at hp
  cases hpar1 : stack1[d]? with
  | none => rw [hpar1] at hp; cases hp
  | some parent =>
    rw [hpar1] at hp
    simp only [Option.some.injEq] at hp
    have hl1 : stack1.length = d + 1 := by
      have h1 : d < stack1.length := by
        by_contra hc
        rw [List.getElem?_eq_none (by omega)] at hpar1
        cases hpar1
      have h2 : stack1.length ≤ d + 1 := by
        rw [hs1]
        split
        · rw [List.length_take]; omega
        · omega
      omega
    have hparent_old : st.stack[d]? = some parent := hget d parent hpar1
    have hparent_lt : parent < st.heap.length := hsb parent (List.getElem?_mem hparent_old)
    obtain ⟨x, hx⟩ : ∃ x, st.heap[parent]? = some x := by
      cases hg : st.heap[parent]? with
      | none => rw [List.getElem?_eq_none_iff] at hg; omega
      | some x => exact ⟨x, rfl⟩
    rw [← hp]
    simp only [appendChild_length, List.length_append, List.length_singleton]
    refine ⟨by omega, ?_, ?_⟩
    · -- the stack
      intro k q hk
      have hcases : (stack1[k]? = some q) ∨ (k = d + 1 ∧ q = st.heap.length ∧ b = true) := by
        cases b with
        | false => exact Or.inl (by simpa using hk)
        | true =>
          simp only [if_true] at hk
          by_cases hkl : k < stack1.length
          · rw [List.getElem?_append_left hkl] at hk
            exact Or.inl hk
          · rw [List.getElem?_append_right (by omega)] at hk
            have : k - stack1.length = 0 := by
              by_contra hc
              rw [List.getElem?_eq_none (by simp; omega)] at hk
              cases hk
            simp only [this, List.getElem?_cons_zero, Option.some.injEq] at hk
            exact Or.inr ⟨by omega, hk.symm, rfl⟩
      rcases hcases with h1 | ⟨rfl, rfl, rfl⟩
      · have hkd : k ≤ d := by
          have : k < stack1.length := by
            by_contra hc
            rw [List.getElem?_eq_none (by omega)] at h1
            cases h1
          omega
        obtain ⟨o1, o2⟩ := hstack k q (hget k q h1)
        refine ⟨o1, fun hk0 => ?_⟩
        obtain ⟨j, hq, hj, hall⟩ := o2 hk0
        have hjlt : j < es.length := by
          by_contra hc
          rw [List.getElem?_eq_none (by omega)] at hj
          cases hj
        refine ⟨j, hq, by rw [List.getElem?_append_left hjlt]; exact hj, ?_⟩
        intro mm dm bm hjm hmm
        by_cases hml : mm < es.length
        · rw [List.getElem?_append_left hml] at hmm
          exact hall mm dm bm hjm hmm
        · rw [List.getElem?_append_right (by omega)] at hmm
          have : mm - es.length = 0 := by
            by_contra hc
            rw [List.getElem?_eq_none (by simp; omega)] at hmm
            cases hmm
          simp only [this, List.getElem?_cons_zero, Option.some.injEq, Prod.mk.injEq] at hmm
          omega
      · refine ⟨fun h0 => by omega, fun _ => ⟨es.length, by omega, ?_, ?_⟩⟩
        · rw [List.getElem?_append_right (Nat.le_refl _)]
          simp
        · intro mm dm bm hjm hmm
          rw [List.getElem?_eq_none (by simp; omega)] at hmm
          cases hmm
    · -- the parents
      intro i di bi hi
      by_cases hil : i < es.length
      · rw [List.getElem?_append_left hil] at hi
        obtain ⟨p1, p2⟩ := hpar i di bi hi
        refine ⟨fun h0 => childrenAt_appendChild_mono _ _ _ _ _ _ (p1 h0), fun hpos => ?_⟩
        obtain ⟨j, hji, hj, hall, hch⟩ := p2 hpos
        have hjlt : j < es.length := by omega
        refine ⟨j, hji, by rw [List.getElem?_append_left hjlt]; exact hj, ?_,
          childrenAt_appendChild_mono _ _ _ _ _ _ hch⟩
        intro k dk bk hjk hki hk
        rw [List.getElem?_append_left (by omega)] at hk
        exact hall k dk bk hjk hki hk
      · rw [List.getElem?_append_right (by omega)] at hi
        have hi0 : i - es.length = 0 := by
          by_contra hc
          rw [List.getElem?_eq_none (by simp; omega)] at hi
          cases hi
        simp only [hi0, List.getElem?_cons_zero, Option.some.injEq, Prod.mk.injEq] at hi
        obtain ⟨rfl, rfl⟩ := hi
        have hie : i = es.length := by omega
        subst hie
        have hnew : st.heap.length = es.length + 1 := hlen
        obtain ⟨o1, o2⟩ := hstack d parent hparent_old
        refine ⟨fun h0 => ?_, fun hpos => ?_⟩
        · have : parent = 0 := o1 h0
          subst this
          rw [← hnew]
          exact childrenAt_appendChild_new _ _ x 0 _ hx
        · obtain ⟨j, hq, hj, hall⟩ := o2 hpos
          have hjlt : j < es.length := by
            by_contra hc
            rw [List.getElem?_eq_none (by omega)] at hj
            cases hj
          refine ⟨j, hjlt, by rw [List.getElem?_append_left hjlt]; exact hj, ?_, ?_⟩
          · intro k dk bk hjk hki hk
            rw [List.getElem?_append_left hki] at hk
            exact hall k dk bk hjk hk
          · rw [← hq, ← hnew]
            exact childrenAt_appendChild_new _ _ x parent _ hx

theorem Inv_step (st st' : PState) (line : List Char) (hinv : ∃ fs, Inv st fs)
    (hp : processLine st line = some st') : ∃ fs, Inv st' fs := by
  obtain ⟨fs, hfs⟩ := hinv
  have hsim := processLine_sim st fs line hfs
  cases hf : frameStep fs line with
  | none =>
    rw [hf] at hsim
    simp only at hsim
    rw [hsim] at hp
    cases hp
  | some fs' =>
    rw [hf] at hsim
    obtain ⟨st1, h1, hinv1⟩ := hsim
    rw [h1] at hp
    cases hp
    exact ⟨fs', hinv1⟩

theorem appendChild_map_entry (h : List NodeRec) (p k : Nat) :
    (appendChild h p k).map (fun r => (r.Name, r.IsDir)) =
      h.map (fun r => (r.Name, r.IsDir)) := by
  apply List.ext_getElem?
  intro i
  rw [List.getElem?_map, List.getElem?_map]
  unfold appendChild
  rw [List.getElem?_modify]
  split
  · rename_i hpi
    subst hpi
    cases h[p]? <;> rfl
  · cases h[i]? <;> rfl

/-- The records of the heap, in the order of their addresses, bear the names
and flags of the accepted lines in the order of the lines. -/
theorem processLine_heap_entries (st st' : PState) (line : List Char)
    (hp : processLine st line = some st') :
    st'.heap.map (fun r => (r.Name, r.IsDir)) =
      st.heap.map (fun r => (r.Name, r.IsDir)) ++ (lineEntry line).toList := by
  unfold processLine at hp
  unfold lineEntry
  cases hm : dirRegex line with
  | none =>
    rw [hm] at hp
    simp only [Option.some.injEq] at hp
    rw [← hp]
    simp
  | some m =>
    rw [hm] at hp
    simp only at hp
    split at hp
    · cases hp
    · simp only [Option.some.injEq] at hp
      rw [← hp]
      simp only [appendChild_map_entry, List.map_append, List.map_cons, List.map_nil,
        Option.map_some', Option.toList_some]

/-- The run of the loop keeps the ghost description of stack and parents,
and lays the records out in the order of the lines. -/
theorem runLines_parents (lines : List (List Char)) (st st' : PState)
    (es : List (Nat × Bool)) (hrun : runLines st lines = some st')
    (hlen : st.heap.length = es.length + 1) (hstack : StackOK st.stack es)
    (hpar : ParentsOK st.heap es) (hinv : ∃ fs, Inv st fs) :
    st'.heap.length = (es ++ lines.filterMap depthEntry).length + 1 ∧
    ParentsOK st'.heap (es ++ lines.filterMap depthEntry) ∧
    st'.heap.map (fun r => (r.Name, r.IsDir)) =
      st.heap.map (fun r => (r.Name, r.IsDir)) ++ lines.filterMap lineEntry := by
  induction lines generalizing st es with
  | nil =>
    simp only [runLines, Option.some.injEq] at hrun
    rw [← hrun]
    simpa using ⟨hlen, hpar⟩
  | cons line rest ih =>
    simp only [runLines] at hrun
    cases hp : processLine st line with
    | none => rw [hp] at hrun; cases hrun
    | some st1 =>
      rw [hp] at hrun
      have hent := processLine_heap_entries st st1 line hp
      have hinv1 := Inv_step st st1 line hinv hp
      cases hm : dirRegex line with
      | none =>
        have hst : st1 = st := by
          unfold processLine at hp
          rw [hm] at hp
          simp only [Option.some.injEq] at hp
          exact hp.symm
        subst hst
        have := ih st1 es hrun hlen hstack hpar hinv
        simpa [List.filterMap_cons, depthEntry, lineEntry, hm] using this
      | some m =>
        obtain ⟨q1, q2, q3⟩ := processLine_parents st st1 es line m hm hp hlen hstack hpar hinv
        have := ih st1 _ hrun q1 q2 q3 hinv1
        rw [hent] at this
        simpa [List.filterMap_cons, depthEntry, lineEntry, hm, List.append_assoc] using this

/-- C16: parent characterisation.  On an input for which `ParseTree` returns
a tree, the nodes lie in memory in the order of the accepted lines, the node
of the accepted line `i` (counted from 0) at address `i + 1` after the root at
address 0.  The node of a line of computed depth 0 is a child of the root.
The node of a line of computed depth `d ≥ 1` is a child of the node of an
earlier accepted line `j` that is a directory line of computed depth `d - 1`,
all accepted lines between the two having a depth of `d` or more: `j` is the
most recent preceding accepted line of depth below `d`.  Hence, in the tree
returned, each such node lies at distance `d + 1` from the root. -/
theorem C16_parent_characterisation (input first : List Char) (sc : Scanner) (t : Node)
    (e : Option String) (hs : (newScanner input).Scan = (some first, sc))
    (ht : ParseTree input = .returned (some t) e) :
    ∃ h, parseTreeMem input = some (h, some 0) ∧
    h.map (fun r => (r.Name, r.IsDir)) =
      (trimSuffixChar '/' first, true) ::
        (scanLoopLines (input.length + 1) sc).filterMap lineEntry ∧
    (∀ i d b, ((scanLoopLines (input.length + 1) sc).filterMap depthEntry)[i]? = some (d, b) →
      (d = 0 → i + 1 ∈ childrenAt h 0) ∧
      (0 < d → ∃ j, j < i ∧
        ((scanLoopLines (input.length + 1) sc).filterMap depthEntry)[j]? = some (d - 1, true) ∧
        (∀ k dk bk, j < k → k < i →
          ((scanLoopLines (input.length + 1) sc).filterMap depthEntry)[k]? = some (dk, bk) →
          d ≤ dk) ∧
        i + 1 ∈ childrenAt h (j + 1))) ∧
    t.depthsFrom 0 = 0 ::
      ((scanLoopLines (input.length + 1) sc).filterMap depthEntry).map (fun p => p.1 + 1) := by
  have hdepths := ParseTree_depths input first sc t e hs ht
  unfold ParseTree at ht
  have hmem : parseTreeMem input =
      (runLines (rootState first) (scanLoopLines (input.length + 1) sc)).map
        (fun st => (st.heap, some 0)) := by
    unfold parseTreeMem
    rw [hs]
    simp only [parseLoop_eq_runLines]
  rw [hmem] at ht ⊢
  cases hrun : runLines (rootState first) (scanLoopLines (input.length + 1) sc) with
  | none => rw [hrun] at ht; simp at ht
  | some st =>
    have hr := runLines_parents _ (rootState first) st [] hrun (by simp [rootState])
      (by
        intro k q hk
        simp only [rootState] at hk
        cases k with
        | zero =>
          simp only [List.getElem?_cons_zero, Option.some.injEq] at hk
          exact ⟨fun _ => hk.symm, fun h0 => by omega⟩
        | succ k => simp at hk)
      (by
        intro i d b hi
        simp at hi)
      ⟨_, Inv_rootState first⟩
    simp only [List.nil_append] at hr
    refine ⟨st.heap, rfl, ?_, hr.2.1, hdepths⟩
    rw [hr.2.2]
    simp [rootState]

set_option maxRecDepth 100000 in
/-- C16 at the diagram of `main`: the node of `│       └── date.ts`, the
accepted line 4, of depth 2, lies at address 5 and is a child of the node of
an earlier line. -/
theorem C16_parent_characterisation_witness :
    ∃ h, parseTreeMem treeInput = some (h, some 0) ∧ ∃ j, j < 4 ∧ 5 ∈ childrenAt h (j + 1) := by
  obtain ⟨h, hm, -, hpar, -⟩ := C16_parent_characterisation treeInput "project/".toList
    ⟨"├── README.md\n├── src/\n│   ├── index.ts\n│   └── utils/\n│       └── date.ts\n└── .gitignore".toList,
      false⟩ exampleTree none (by rfl) (by rfl)
  obtain ⟨j, hj, -, -, hch⟩ := (hpar 4 2 false (by rfl)).2 (by decide)
  exact ⟨h, hm, j, hj, hch⟩



/-! ## The file system calls -/

theorem stat_insert (fs : FS) (p q : List Char) (e : Entry) :
    (fs.insert p e).stat q = if q = p then (if q = [] then none else if alwaysDir q then some .dir
      else some e) else fs.stat q := by
  unfold FS.stat FS.insert
  by_cases h : q = p <;> simp [h]

theorem stat_ne_nil {fs : FS} {p : List Char} {e : Entry} (h : fs.stat p = some e) : p ≠ [] := by
  rintro rfl
  simp [FS.stat] at h

/-- An entry put where nothing was leaves what was there. -/
theorem Persist_insert (fs : FS) (p : List Char) (e : Entry) (h : fs.stat p = none) :
    Persist fs (fs.insert p e) := by
  intro q d hq
  rw [stat_insert]
  by_cases hqp : q = p
  · subst hqp
    rw [h] at hq
    cases hq
  · simp [hqp, hq]

theorem Persist_refl (fs : FS) : Persist fs fs := fun _ _ h => h

theorem Persist_trans {a b c : FS} (h1 : Persist a b) (h2 : Persist b c) : Persist a c :=
  fun q d h => h2 q d (h1 q d h)

/-- Making directories changes nothing that exists. -/
theorem mkdirChain_ok (fs : FS) : ∀ (ps : List (List Char)) (fs1 : FS),
    mkdirChain fs ps = .ok fs1 → ∀ q e, fs.stat q = some e → fs1.stat q = some e
  | [], fs1, h => by
    simp only [mkdirChain, Except.ok.injEq] at h
    subst h
    exact fun _ _ h => h
  | p :: above, fs1, h => by
    simp only [mkdirChain] at h
    cases hp : fs.stat p with
    | some e =>
      rw [hp] at h
      cases e with
      | dir =>
        simp only [Except.ok.injEq] at h
        subst h
        exact fun _ _ h => h
      | file n => cases h
    | none =>
      rw [hp] at h
      cases hc : mkdirChain fs above with
      | error e =>
        rw [hc] at h
        cases h
      | ok fs2 =>
        rw [hc] at h
        simp only [Except.ok.injEq] at h
        subst h
        intro q e hq
        have h2 := mkdirChain_ok fs above fs2 hc q e hq
        rw [stat_insert]
        by_cases hqp : q = p
        · subst hqp
          rw [hp] at hq
          cases hq
        · simp [hqp, h2]

/-- The first directory of the chain exists afterwards. -/
theorem mkdirChain_head (fs : FS) (p : List Char) (above : List (List Char)) (fs1 : FS)
    (hp : p ≠ []) (h : mkdirChain fs (p :: above) = .ok fs1) : fs1.stat p = some .dir := by
  simp only [mkdirChain] at h
  cases hs : fs.stat p with
  | some e =>
    rw [hs] at h
    cases e with
    | dir =>
      simp only [Except.ok.injEq] at h
      subst h
      exact hs
    | file n => cases h
  | none =>
    rw [hs] at h
    cases hc : mkdirChain fs above with
    | error e =>
      rw [hc] at h
      cases h
    | ok fs2 =>
      rw [hc] at h
      simp only [Except.ok.injEq] at h
      subst h
      rw [stat_insert]
      simp only [if_true, hp, if_false]
      split <;> rfl

/-- A successful `os.MkdirAll(path)` leaves a directory at `path` and every
entry that was there. -/
theorem mkdirAll_ok (fs fs1 : FS) (path : List Char) (h : mkdirAll fs path = .ok fs1) :
    fs1.stat path = some .dir ∧ ∀ q e, fs.stat q = some e → fs1.stat q = some e := by
  unfold mkdirAll at h
  by_cases hp : path = []
  · simp [hp] at h
  · rw [if_neg hp] at h
    exact ⟨mkdirChain_head fs path _ fs1 hp h, mkdirChain_ok fs _ fs1 h⟩

/-- `os.MkdirAll` of a directory that exists changes nothing. -/
theorem mkdirAll_of_dir (fs : FS) (path : List Char) (h : fs.stat path = some .dir) :
    mkdirAll fs path = .ok fs := by
  unfold mkdirAll
  rw [if_neg (stat_ne_nil h)]
  simp only [mkdirChain, h]

/-- A successful `os.Create(path)` leaves a file of length zero at `path`,
and every directory and file of length zero that was there. -/
theorem create_ok (fs fs1 : FS) (path : List Char) (h : create fs path = .ok fs1) :
    fs1.stat path = some (.file 0) ∧ Persist fs fs1 := by
  unfold create at h
  by_cases hp : path = []
  · simp [hp] at h
  · rw [if_neg hp] at h
    have key : ∀ n, fs.stat path ≠ some .dir → (fs.stat path = some (.file n) ∨ fs.stat path = none) →
        (fs.insert path (.file 0)).stat path = some (.file 0) ∧
          Persist fs (fs.insert path (.file 0)) := by
      intro n hnd hcase
      have had : alwaysDir path = false := by
        by_contra hc
        apply hnd
        simp only [FS.stat, if_neg hp]
        simp only [Bool.not_eq_false] at hc
        simp [hc]
      refine ⟨by rw [stat_insert]; simp [hp, had], ?_⟩
      intro q d hq
      rw [stat_insert]
      by_cases hqp : q = path
      · subst hqp
        simp only [if_true, hp, if_false, had, Bool.false_eq_true]
        rcases hcase with hc | hc
        · rw [hc] at hq
          cases d
          · simp only [entryOf, Bool.false_eq_true, if_false, Option.some.injEq] at hq ⊢
          · simp [entryOf] at hq
        · rw [hc] at hq
          cases hq
      · simp [hqp, hq]
    cases hs : fs.stat path with
    | some e =>
      rw [hs] at h
      cases e with
      | dir => cases h
      | file n =>
        simp only [Except.ok.injEq] at h
        subst h
        exact key n (by rw [hs]; simp) (Or.inl hs)
    | none =>
      rw [hs] at h
      simp only at h
      split at h
      · simp only [Except.ok.injEq] at h
        subst h
        exact key 0 (by rw [hs]; simp) (Or.inr hs)
      · cases h

/-- `os.Create` of a file of length zero that exists changes nothing. -/
theorem create_of_empty_file (fs : FS) (path : List Char) (h : fs.stat path = some (.file 0)) :
    create fs path = .ok fs := by
  unfold create
  rw [if_neg (stat_ne_nil h)]
  simp only [h]
  congr 1
  funext q
  unfold FS.insert
  by_cases hq : q = path
  · subst hq
    simp only [if_true]
    have hne := stat_ne_nil h
    unfold FS.stat at h
    rw [if_neg hne] at h
    split at h
    · cases h
    · exact h.symm
  · simp [hq]


/-- An `os` call either succeeds, leaving its entry and what was there, or
fails and changes nothing. -/
theorem osCall_cases (op : OsOp) (p : List Char) (fs : FS) :
    (∃ fs1, osCall op p fs = (⟨op, p, none⟩, fs1) ∧ Persist fs fs1 ∧
      fs1.stat p = some (entryOf (decide (op = .mkdirAll)))) ∨
    (∃ e, osCall op p fs = (⟨op, p, some e⟩, fs)) := by
  cases op with
  | mkdirAll =>
    cases h : mkdirAll fs p with
    | error e => exact Or.inr ⟨e, by simp only [osCall, h]⟩
    | ok fs1 =>
      have h2 := mkdirAll_ok fs fs1 p h
      exact Or.inl ⟨fs1, by simp only [osCall, h], fun q d hq => h2.2 q _ hq, h2.1⟩
  | create =>
    cases h : create fs p with
    | error e => exact Or.inr ⟨e, by simp only [osCall, h]⟩
    | ok fs1 =>
      have h2 := create_ok fs fs1 p h
      exact Or.inl ⟨fs1, by simp only [osCall, h], h2.2, h2.1⟩

/-- An `os` call whose entry is there already succeeds and changes nothing. -/
theorem osCall_of_present (op : OsOp) (p : List Char) (fs : FS)
    (h : fs.stat p = some (entryOf (decide (op = .mkdirAll)))) :
    osCall op p fs = (⟨op, p, none⟩, fs) := by
  cases op with
  | mkdirAll => simp only [osCall, mkdirAll_of_dir fs p h]
  | create => simp only [osCall, create_of_empty_file fs p h]

theorem osCall_sig (op : OsOp) (p : List Char) (fs : FS) :
    (osCall op p fs).1.op = op ∧ (osCall op p fs).1.path = p := by
  rcases osCall_cases op p fs with ⟨fs1, h, -⟩ | ⟨e, h⟩ <;> rw [h] <;> exact ⟨rfl, rfl⟩

theorem osCall_failed (op : OsOp) (p : List Char) (fs : FS) (e : OsError)
    (h : (osCall op p fs).1.err = some e) : (osCall op p fs).2 = fs := by
  rcases osCall_cases op p fs with ⟨fs1, h1, -⟩ | ⟨e1, h1⟩
  · rw [h1] at h
    cases h
  · rw [h1]

theorem replay_append (fs : FS) (as bs : List OsCall) :
    replay fs (as ++ bs) = replay (replay fs as) bs := by
  induction as generalizing fs with
  | nil => rfl
  | cons a as ih => exact ih _

/-- One call, its error wrapped, is a run of the plan of that call. -/
theorem FailFast_single (op : OsOp) (p : List Char) (fs : FS) (wrap : OsError → BuildError)
    (hw : ∀ e, (wrap e).cause = e ∧ (wrap e).failedCall = (op, p)) :
    FailFast fs ⟨(osCall op p fs).1.err.map wrap, (osCall op p fs).2, [(osCall op p fs).1]⟩
      [(op, p)] := by
  have hsig := osCall_sig op p fs
  have hrep : (osCall op p fs).2 = replay fs [(osCall op p fs).1] := by
    simp only [replay, hsig.1, hsig.2]
  refine ⟨hrep, ?_, ?_, ?_, ?_⟩
  · rcases osCall_cases op p fs with ⟨fs1, h1, hp, -⟩ | ⟨e, h1⟩
    · rw [h1]
      exact hp
    · rw [h1]
      exact Persist_refl fs
  · intro c hc hn
    rw [List.mem_singleton] at hc
    subst hc
    rcases osCall_cases op p fs with ⟨fs1, h1, -, hs⟩ | ⟨e, h1⟩
    · rw [h1]
      exact hs
    · rw [h1] at hn
      cases hn
  · intro h
    simp only [Option.map_eq_none'] at h
    refine ⟨by simpa using h, ?_⟩
    simp only [List.map_cons, List.map_nil, OsCall.sig, hsig.1, hsig.2]
  · intro e h
    simp only [Option.map_eq_some'] at h
    obtain ⟨e1, h1, rfl⟩ := h
    refine ⟨[], (osCall op p fs).1, rfl, by simp, ?_, ?_, ?_, ?_⟩
    · rw [h1, (hw e1).1]
    · rw [(hw e1).2, OsCall.sig, hsig.1, hsig.2]
    · simp only [List.nil_append, List.map_cons, List.map_nil, OsCall.sig, hsig.1, hsig.2]
      exact List.prefix_refl _
    · exact osCall_failed op p fs e1 h1

/-- A run that failed is a run of every longer plan. -/
theorem FailFast_stop (fs : FS) (r : BuildResult) (plan more : List (OsOp × List Char))
    (e : BuildError) (h : FailFast fs r plan) (he : r.err = some e) :
    FailFast fs ⟨some e, r.fs, r.calls⟩ (plan ++ more) := by
  obtain ⟨h1, hp, hk, -, h3⟩ := h
  refine ⟨h1, hp, hk, fun hc => (nomatch hc), ?_⟩
  intro e1 he1
  cases he1
  obtain ⟨init, last, a, b, c, d, f, g⟩ := h3 e he
  exact ⟨init, last, a, b, c, d, f.trans (List.prefix_append _ _), g⟩

/-- A run without error followed by a second run is a run of the two plans
one after the other. -/
theorem FailFast_then (fs : FS) (r r2 : BuildResult) (plan plan2 : List (OsOp × List Char))
    (h : FailFast fs r plan) (he : r.err = none) (h2 : FailFast r.fs r2 plan2) :
    FailFast fs ⟨r2.err, r2.fs, r.calls ++ r2.calls⟩ (plan ++ plan2) := by
  obtain ⟨a1, ap, ak, a2, -⟩ := h
  obtain ⟨b1, bp, bk, b2, b3⟩ := h2
  obtain ⟨a2, a3⟩ := a2 he
  refine ⟨?_, Persist_trans ap bp, ?_, ?_, ?_⟩
  · show r2.fs = replay fs (r.calls ++ r2.calls)
    rw [replay_append, ← a1]
    exact b1
  · intro c hc hn
    rcases List.mem_append.mp hc with hc | hc
    · exact bp _ _ (ak c hc hn)
    · exact bk c hc hn
  · intro hn
    obtain ⟨b4, b5⟩ := b2 hn
    refine ⟨List.forall_mem_append.mpr ⟨a2, b4⟩, ?_⟩
    show (r.calls ++ r2.calls).map OsCall.sig = plan ++ plan2
    rw [List.map_append, a3, b5]
  · intro e hs
    obtain ⟨init, last, c1, c2, c3, c4, c5, c6⟩ := b3 e hs
    refine ⟨r.calls ++ init, last, ?_, List.forall_mem_append.mpr ⟨a2, c2⟩, c3, c4, ?_, ?_⟩
    · show r.calls ++ r2.calls = r.calls ++ init ++ [last]
      rw [c1, List.append_assoc]
    · rw [List.append_assoc, List.map_append, a3]
      exact (List.prefix_append_right_inj plan).mpr c5
    · show r2.fs = replay fs (r.calls ++ init)
      rw [replay_append, ← a1]
      exact c6

theorem BuildFileStructure_dir (name : List Char) (children : List Node) (basePath : List Char)
    (fs : FS) : BuildFileStructure ⟨name, true, children⟩ basePath fs =
      match (osCall .mkdirAll (filepathJoin basePath name) fs).1.err with
      | some e => ⟨some (.createDirectory (filepathJoin basePath name) e),
          (osCall .mkdirAll (filepathJoin basePath name) fs).2,
          [(osCall .mkdirAll (filepathJoin basePath name) fs).1]⟩
      | none =>
        ⟨(buildChildren children (filepathJoin basePath name)
            (osCall .mkdirAll (filepathJoin basePath name) fs).2).err,
          (buildChildren children (filepathJoin basePath name)
            (osCall .mkdirAll (filepathJoin basePath name) fs).2).fs,
          (osCall .mkdirAll (filepathJoin basePath name) fs).1 ::
            (buildChildren children (filepathJoin basePath name)
              (osCall .mkdirAll (filepathJoin basePath name) fs).2).calls⟩ := by
  simp only [BuildFileStructure, if_true]

theorem BuildFileStructure_file (name : List Char) (children : List Node) (basePath : List Char)
    (fs : FS) : BuildFileStructure ⟨name, false, children⟩ basePath fs =
      match (osCall .mkdirAll (filepathDir (filepathJoin basePath name)) fs).1.err with
      | some e => ⟨some (.createParentDirectory (filepathJoin basePath name) e),
          (osCall .mkdirAll (filepathDir (filepathJoin basePath name)) fs).2,
          [(osCall .mkdirAll (filepathDir (filepathJoin basePath name)) fs).1]⟩
      | none =>
        match (osCall .create (filepathJoin basePath name)
            (osCall .mkdirAll (filepathDir (filepathJoin basePath name)) fs).2).1.err with
        | some e => ⟨some (.createFile (filepathJoin basePath name) e),
            (osCall .create (filepathJoin basePath name)
              (osCall .mkdirAll (filepathDir (filepathJoin basePath name)) fs).2).2,
            [(osCall .mkdirAll (filepathDir (filepathJoin basePath name)) fs).1,
              (osCall .create (filepathJoin basePath name)
                (osCall .mkdirAll (filepathDir (filepathJoin basePath name)) fs).2).1]⟩
        | none => ⟨none,
            (osCall .create (filepathJoin basePath name)
              (osCall .mkdirAll (filepathDir (filepathJoin basePath name)) fs).2).2,
            [(osCall .mkdirAll (filepathDir (filepathJoin basePath name)) fs).1,
              (osCall .create (filepathJoin basePath name)
                (osCall .mkdirAll (filepathDir (filepathJoin basePath name)) fs).2).1]⟩ := by
  simp only [BuildFileStructure, Bool.false_eq_true, if_false]

theorem buildChildren_cons (child : Node) (rest : List Node) (path : List Char) (fs : FS) :
    buildChildren (child :: rest) path fs =
      match (BuildFileStructure child path fs).err with
      | some e => ⟨some e, (BuildFileStructure child path fs).fs,
          (BuildFileStructure child path fs).calls⟩
      | none =>
        ⟨(buildChildren rest path (BuildFileStructure child path fs).fs).err,
          (buildChildren rest path (BuildFileStructure child path fs).fs).fs,
          (BuildFileStructure child path fs).calls ++
            (buildChildren rest path (BuildFileStructure child path fs).fs).calls⟩ := by
  simp only [buildChildren]


theorem flatMap_callsOfNode_dir (path : List Char) (rest : List (List Char × Bool)) :
    ((path, true) :: rest).flatMap callsOfNode = [(.mkdirAll, path)] ++ rest.flatMap callsOfNode := by
  simp [List.flatMap_cons, callsOfNode]

mutual
/-- A run of `BuildFileStructure` follows the plan of the visited nodes in
pre-order and stops at the first call that fails. -/
theorem BuildFileStructure_failFast : ∀ (node : Node) (basePath : List Char) (fs : FS),
    FailFast fs (BuildFileStructure node basePath fs)
      ((nodePaths node basePath).flatMap callsOfNode)
  | ⟨name, true, children⟩, basePath, fs => by
    have h1 := FailFast_single .mkdirAll (filepathJoin basePath name) fs
      (.createDirectory (filepathJoin basePath name)) (fun e => ⟨rfl, rfl⟩)
    have h2 := buildChildren_failFast children (filepathJoin basePath name)
      (osCall .mkdirAll (filepathJoin basePath name) fs).2
    rw [BuildFileStructure_dir]
    simp only [nodePaths, if_true]
    rw [flatMap_callsOfNode_dir]
    cases he : (osCall .mkdirAll (filepathJoin basePath name) fs).1.err with
    | some e =>
      rw [he] at h1
      exact FailFast_stop fs _ _ _ _ h1 rfl
    | none =>
      rw [he] at h1
      exact FailFast_then fs _ _ _ _ h1 rfl h2
  | ⟨name, false, children⟩, basePath, fs => by
    have h1 := FailFast_single .mkdirAll (filepathDir (filepathJoin basePath name)) fs
      (.createParentDirectory (filepathJoin basePath name)) (fun e => ⟨rfl, rfl⟩)
    have h2 := FailFast_single .create (filepathJoin basePath name)
      (osCall .mkdirAll (filepathDir (filepathJoin basePath name)) fs).2
      (.createFile (filepathJoin basePath name)) (fun e => ⟨rfl, rfl⟩)
    rw [BuildFileStructure_file]
    have hplan : (nodePaths ⟨name, false, children⟩ basePath).flatMap callsOfNode =
        [(.mkdirAll, filepathDir (filepathJoin basePath name))] ++
          [(.create, filepathJoin basePath name)] := by
      simp [nodePaths, callsOfNode]
    rw [hplan]
    cases he : (osCall .mkdirAll (filepathDir (filepathJoin basePath name)) fs).1.err with
    | some e =>
      rw [he] at h1
      exact FailFast_stop fs _ _ _ _ h1 rfl
    | none =>
      rw [he] at h1
      have h3 := FailFast_then fs _ _ _ _ h1 rfl h2
      cases he2 : (osCall .create (filepathJoin basePath name)
          (osCall .mkdirAll (filepathDir (filepathJoin basePath name)) fs).2).1.err with
      | some e2 =>
        rw [he2] at h3
        exact h3
      | none =>
        rw [he2] at h3
        exact h3
/-- The loop over the children follows the plan of the nodes visited below
them and stops at the first call that fails. -/
theorem buildChildren_failFast : ∀ (children : List Node) (path : List Char) (fs : FS),
    FailFast fs (buildChildren children path fs)
      ((nodePathsList children path).flatMap callsOfNode)
  | [], path, fs => by
    simp only [buildChildren, nodePathsList, List.flatMap_nil]
    exact ⟨rfl, Persist_refl fs, fun c hc => (nomatch hc), fun _ => ⟨by simp, rfl⟩,
      fun e h => nomatch h⟩
  | child :: rest, path, fs => by
    have h1 := BuildFileStructure_failFast child path fs
    have h2 := buildChildren_failFast rest path (BuildFileStructure child path fs).fs
    rw [buildChildren_cons]
    simp only [nodePathsList, List.flatMap_append]
    cases he : (BuildFileStructure child path fs).err with
    | some e => exact FailFast_stop fs _ _ _ _ h1 he
    | none => exact FailFast_then fs _ _ _ _ h1 he h2
end

mutual
/-- A run of `BuildFileStructure` without error leaves an entry for every
node it visits, and every directory and file of length zero that was
there. -/
theorem BuildFileStructure_layout : ∀ (node : Node) (basePath : List Char) (fs : FS),
    (BuildFileStructure node basePath fs).err = none →
    Persist fs (BuildFileStructure node basePath fs).fs ∧
    ∀ p ∈ nodePaths node basePath,
      (BuildFileStructure node basePath fs).fs.stat p.1 = some (entryOf p.2)
  | ⟨name, true, children⟩, basePath, fs => by
    rw [BuildFileStructure_dir]
    simp only [nodePaths, if_true]
    rcases osCall_cases .mkdirAll (filepathJoin basePath name) fs with ⟨fs1, h, hp, hs⟩ | ⟨e, h⟩
    · rw [h]
      intro he
      have ih := buildChildren_layout children (filepathJoin basePath name) fs1 he
      refine ⟨Persist_trans hp ih.1, ?_⟩
      intro p hmem
      rcases List.mem_cons.mp hmem with rfl | hmem
      · exact ih.1 _ true hs
      · exact ih.2 p hmem
    · rw [h]
      intro he
      cases he
  | ⟨name, false, children⟩, basePath, fs => by
    rw [BuildFileStructure_file]
    simp only [nodePaths, Bool.false_eq_true, if_false, List.mem_singleton]
    rcases osCall_cases .mkdirAll (filepathDir (filepathJoin basePath name)) fs with
      ⟨fs1, h, hp, hs⟩ | ⟨e, h⟩
    · rw [h]
      rcases osCall_cases .create (filepathJoin basePath name) fs1 with ⟨fs2, h2, hp2, hs2⟩ | ⟨e, h2⟩
      · rw [h2]
        intro _
        refine ⟨Persist_trans hp hp2, ?_⟩
        rintro p rfl
        exact hs2
      · rw [h2]
        intro he
        cases he
    · rw [h]
      intro he
      cases he
/-- The loop over the children, ending without error, leaves an entry for
every node visited below them. -/
theorem buildChildren_layout : ∀ (children : List Node) (path : List Char) (fs : FS),
    (buildChildren children path fs).err = none →
    Persist fs (buildChildren children path fs).fs ∧
    ∀ p ∈ nodePathsList children path,
      (buildChildren children path fs).fs.stat p.1 = some (entryOf p.2)
  | [], path, fs => by
    intro _
    simp only [buildChildren, nodePathsList]
    exact ⟨Persist_refl fs, fun p hp => nomatch hp⟩
  | child :: rest, path, fs => by
    rw [buildChildren_cons]
    simp only [nodePathsList]
    cases he : (BuildFileStructure child path fs).err with
    | some e =>
      intro h
      cases h
    | none =>
      intro h
      have ih1 := BuildFileStructure_layout child path fs he
      have ih2 := buildChildren_layout rest path (BuildFileStructure child path fs).fs h
      refine ⟨Persist_trans ih1.1 ih2.1, ?_⟩
      intro p hmem
      rcases List.mem_append.mp hmem with hmem | hmem
      · exact ih2.1 _ _ (ih1.2 p hmem)
      · exact ih2.2 p hmem
end

mutual
/-- After a run of `BuildFileStructure` without error, and whatever was
added since, the same run changes nothing and gives no error. -/
theorem BuildFileStructure_again : ∀ (node : Node) (basePath : List Char) (fs : FS),
    (BuildFileStructure node basePath fs).err = none →
    ∀ fs2, Persist (BuildFileStructure node basePath fs).fs fs2 →
      (BuildFileStructure node basePath fs2).err = none ∧
      (BuildFileStructure node basePath fs2).fs = fs2
  | ⟨name, true, children⟩, basePath, fs => by
    rw [BuildFileStructure_dir]
    rcases osCall_cases .mkdirAll (filepathJoin basePath name) fs with ⟨fs1, h, hp, hs⟩ | ⟨e, h⟩
    · rw [h]
      intro he fs2 hp2
      have ih := buildChildren_again children (filepathJoin basePath name) fs1 he fs2 hp2
      have hl := buildChildren_layout children (filepathJoin basePath name) fs1 he
      rw [BuildFileStructure_dir, osCall_of_present .mkdirAll _ fs2 (hp2 _ true (hl.1 _ true hs))]
      exact ih
    · rw [h]
      intro he
      cases he
  | ⟨name, false, children⟩, basePath, fs => by
    rw [BuildFileStructure_file]
    rcases osCall_cases .mkdirAll (filepathDir (filepathJoin basePath name)) fs with
      ⟨fs1, h, hp, hs⟩ | ⟨e, h⟩
    · rw [h]
      rcases osCall_cases .create (filepathJoin basePath name) fs1 with ⟨fs3, h2, hp3, hs3⟩ | ⟨e, h2⟩
      · rw [h2]
        intro _ fs2 hp2
        rw [BuildFileStructure_file,
          osCall_of_present .mkdirAll _ fs2 (hp2 _ true (hp3 _ true hs)),
          osCall_of_present .create _ fs2 (hp2 _ false hs3)]
        exact ⟨rfl, rfl⟩
      · rw [h2]
        intro he
        cases he
    · rw [h]
      intro he
      cases he
/-- After the loop over the children has ended without error, the same loop
changes nothing and gives no error. -/
theorem buildChildren_again : ∀ (children : List Node) (path : List Char) (fs : FS),
    (buildChildren children path fs).err = none →
    ∀ fs2, Persist (buildChildren children path fs).fs fs2 →
      (buildChildren children path fs2).err = none ∧ (buildChildren children path fs2).fs = fs2
  | [], path, fs => by
    intro _ fs2 _
    exact ⟨rfl, rfl⟩
  | child :: rest, path, fs => by
    rw [buildChildren_cons]
    cases he : (BuildFileStructure child path fs).err with
    | some e =>
      intro h
      cases h
    | none =>
      intro h fs2 hp2
      have hl := buildChildren_layout rest path (BuildFileStructure child path fs).fs h
      have ih1 := BuildFileStructure_again child path fs he fs2 (Persist_trans hl.1 hp2)
      have ih2 := buildChildren_again rest path (BuildFileStructure child path fs).fs h fs2 hp2
      rw [buildChildren_cons, ih1.1]
      simp only [ih1.2]
      exact ih2
end


mutual
/-- In a tree whose file nodes have no children every node is visited. -/
theorem treePaths_eq_nodePaths : ∀ (node : Node) (basePath : List Char),
    (∀ n ∈ node.nodes, n.IsDir = false → n.Children = []) →
    treePaths node basePath = nodePaths node basePath
  | ⟨name, true, children⟩, basePath, h => by
    simp only [treePaths, nodePaths, if_true]
    rw [treePathsList_eq_nodePathsList children _
      (fun n hn => h n (by simp only [Node.nodes]; exact List.mem_cons_of_mem _ hn))]
  | ⟨name, false, children⟩, basePath, h => by
    have hc : children = [] :=
      h ⟨name, false, children⟩ (by simp only [Node.nodes]; exact List.mem_cons_self _ _) rfl
    subst hc
    simp [treePaths, nodePaths, treePathsList]
theorem treePathsList_eq_nodePathsList : ∀ (children : List Node) (path : List Char),
    (∀ n ∈ Node.nodesList children, n.IsDir = false → n.Children = []) →
    treePathsList children path = nodePathsList children path
  | [], _, _ => by simp [treePathsList, nodePathsList]
  | child :: rest, path, h => by
    simp only [treePathsList, nodePathsList]
    rw [treePaths_eq_nodePaths child path
        (fun n hn => h n (by simp only [Node.nodesList]; exact List.mem_append_left _ hn)),
      treePathsList_eq_nodePathsList rest path
        (fun n hn => h n (by simp only [Node.nodesList]; exact List.mem_append_right _ hn))]
end

mutual
/-- The paths of a tree are listed node by node. -/
theorem treePaths_flags : ∀ (node : Node) (basePath : List Char),
    (treePaths node basePath).map Prod.snd = node.nodes.map Node.IsDir
  | ⟨name, isDir, children⟩, basePath => by
    simp only [treePaths, Node.nodes, List.map_cons]
    rw [treePathsList_flags children]
theorem treePathsList_flags : ∀ (children : List Node) (path : List Char),
    (treePathsList children path).map Prod.snd = (Node.nodesList children).map Node.IsDir
  | [], _ => by simp [treePathsList, Node.nodesList]
  | child :: rest, path => by
    simp only [treePathsList, Node.nodesList, List.map_append]
    rw [treePaths_flags child path, treePathsList_flags rest path]
end

/-- A run all of whose calls succeed gives no error. -/
theorem err_none_of_calls_ok (fs : FS) (r : BuildResult) (plan : List (OsOp × List Char))
    (h : FailFast fs r plan) (hok : ∀ c ∈ r.calls, c.err = none) : r.err = none := by
  cases he : r.err with
  | none => rfl
  | some e =>
    obtain ⟨init, last, h1, -, h3, -⟩ := h.2.2.2.2 e he
    have := hok last (by rw [h1]; simp)
    rw [this] at h3
    cases h3

set_option maxRecDepth 100000 in
/-- The run of `main`: the example tree under `.` on an empty file system. -/
theorem BuildFileStructure_exampleTree :
    (BuildFileStructure exampleTree mainBasePath emptyFS).err = none ∧
    (BuildFileStructure exampleTree mainBasePath emptyFS).calls.map OsCall.err =
      List.replicate 11 none ∧
    (BuildFileStructure exampleTree mainBasePath emptyFS).fs =
      ((((((emptyFS.insert "project".toList .dir).insert
        "project/README.md".toList (.file 0)).insert
        "project/src".toList .dir).insert
        "project/src/index.ts".toList (.file 0)).insert
        "project/src/utils".toList .dir).insert
        "project/src/utils/date.ts".toList (.file 0)).insert
        "project/.gitignore".toList (.file 0) :=
  ⟨by rfl, by rfl, by rfl⟩


/-! ## The claims on `BuildFileStructure` -/

set_option maxRecDepth 100000 in
/-- C12: materialized layout.  On any file system, for a tree whose file
nodes have no children, if every `os` call of `BuildFileStructure(root,
basePath)` succeeds, the run returns no error and leaves an entry for every
node of the tree at `basePath` joined with the names on the way from the root
to the node (`treePaths` lists one path per node, in pre-order): a directory
where `IsDir` is true, a file of length zero where it is false.  For the
example tree under `.` on an empty file system every call succeeds, the paths
are the seven of the example, the three directories and the four empty files
are there, and nothing else is. -/
theorem C12_materialized_layout (root : Node) (basePath : List Char) (fs : FS)
    (hleaf : ∀ n ∈ root.nodes, n.IsDir = false → n.Children = [])
    (hok : ∀ c ∈ (BuildFileStructure root basePath fs).calls, c.err = none) :
    (BuildFileStructure root basePath fs).err = none ∧
    (treePaths root basePath).map Prod.snd = root.nodes.map Node.IsDir ∧
    (∀ p ∈ treePaths root basePath,
      (BuildFileStructure root basePath fs).fs.stat p.1 = some (entryOf p.2)) ∧
    (∀ c ∈ (BuildFileStructure exampleTree mainBasePath emptyFS).calls, c.err = none) ∧
    treePaths exampleTree mainBasePath =
      [("project".toList, true), ("project/README.md".toList, false),
        ("project/src".toList, true), ("project/src/index.ts".toList, false),
        ("project/src/utils".toList, true), ("project/src/utils/date.ts".toList, false),
        ("project/.gitignore".toList, false)] ∧
    [(BuildFileStructure exampleTree mainBasePath emptyFS).fs.stat "project".toList,
      (BuildFileStructure exampleTree mainBasePath emptyFS).fs.stat "project/src".toList,
      (BuildFileStructure exampleTree mainBasePath emptyFS).fs.stat "project/src/utils".toList] =
      [some .dir, some .dir, some .dir] ∧
    [(BuildFileStructure exampleTree mainBasePath emptyFS).fs.stat "project/README.md".toList,
      (BuildFileStructure exampleTree mainBasePath emptyFS).fs.stat "project/src/index.ts".toList,
      (BuildFileStructure exampleTree mainBasePath emptyFS).fs.stat
        "project/src/utils/date.ts".toList,
      (BuildFileStructure exampleTree mainBasePath emptyFS).fs.stat "project/.gitignore".toList] =
      [some (.file 0), some (.file 0), some (.file 0), some (.file 0)] ∧
    (∀ q, (BuildFileStructure exampleTree mainBasePath emptyFS).fs q ≠ none →
      q ∈ ["project".toList, "project/src".toList, "project/src/utils".toList,
        "project/README.md".toList, "project/src/index.ts".toList,
        "project/src/utils/date.ts".toList, "project/.gitignore".toList]) := by
  have hff := BuildFileStructure_failFast root basePath fs
  have herr := err_none_of_calls_ok fs _ _ hff hok
  refine ⟨herr, treePaths_flags root basePath, ?_, by decide, by rfl, by rfl, by rfl, ?_⟩
  · rw [treePaths_eq_nodePaths root basePath hleaf]
    exact (BuildFileStructure_layout root basePath fs herr).2
  · intro q hq
    rw [BuildFileStructure_exampleTree.2.2] at hq
    by_contra hmem
    simp only [List.mem_cons, List.mem_singleton, List.not_mem_nil, or_false, not_or] at hmem
    apply hq
    simp only [FS.insert, emptyFS, hmem, if_false]

set_option maxRecDepth 100000 in
/-- C12 at the run of `main`: the example tree, whose files have no
children, under `.` on an empty file system, where all calls succeed. -/
theorem C12_materialized_layout_witness :
    (∀ n ∈ exampleTree.nodes, n.IsDir = false → n.Children = []) ∧
    (∀ c ∈ (BuildFileStructure exampleTree mainBasePath emptyFS).calls, c.err = none) ∧
    (BuildFileStructure exampleTree mainBasePath emptyFS).err = none ∧
    (BuildFileStructure exampleTree mainBasePath emptyFS).fs.stat
      "project/src/utils/date.ts".toList = some (.file 0) :=
  have hleaf : ∀ n ∈ exampleTree.nodes, n.IsDir = false → n.Children = [] := by
    intro n hn
    simp only [exampleTree, Node.nodes, Node.nodesList, List.append_nil, List.mem_cons,
      List.cons_append, List.nil_append, List.not_mem_nil, or_false] at hn
    rcases hn with rfl | rfl | rfl | rfl | rfl | rfl | rfl <;> simp
  have h := C12_materialized_layout exampleTree mainBasePath emptyFS hleaf (by decide)
  ⟨hleaf, by decide, h.1, h.2.2.1 ("project/src/utils/date.ts".toList, false) (by
    rw [h.2.2.2.2.1]
    simp)⟩

/-- C13: idempotence.  On any file system, for every tree and base path for
which a first run of `BuildFileStructure` returns no error, a second run with
the same arguments on the state the first one left returns no error either,
and leaves that very state: every visited node still has its directory, or
its file of length zero. -/
theorem C13_materializer_idempotence (tree : Node) (basePath : List Char) (fs : FS)
    (h1 : (BuildFileStructure tree basePath fs).err = none) :
    (BuildFileStructure tree basePath (BuildFileStructure tree basePath fs).fs).err = none ∧
    (BuildFileStructure tree basePath (BuildFileStructure tree basePath fs).fs).fs =
      (BuildFileStructure tree basePath fs).fs ∧
    ∀ p ∈ nodePaths tree basePath,
      (BuildFileStructure tree basePath (BuildFileStructure tree basePath fs).fs).fs.stat p.1 =
        some (entryOf p.2) := by
  have h2 := BuildFileStructure_again tree basePath fs h1 _ (Persist_refl _)
  refine ⟨h2.1, h2.2, ?_⟩
  rw [h2.2]
  exact (BuildFileStructure_layout tree basePath fs h1).2

set_option maxRecDepth 100000 in
/-- C13 at the example tree under `.`, on a file system where `README.md`
exists with seven bytes: the first run cuts it to length zero, the second
run leaves the state of the first. -/
theorem C13_materializer_idempotence_witness :
    usedFS.stat "project/README.md".toList = some (.file 7) ∧
    (BuildFileStructure exampleTree mainBasePath usedFS).err = none ∧
    (BuildFileStructure exampleTree mainBasePath usedFS).fs.stat "project/README.md".toList =
      some (.file 0) ∧
    (BuildFileStructure exampleTree mainBasePath
      (BuildFileStructure exampleTree mainBasePath usedFS).fs).err = none ∧
    (BuildFileStructure exampleTree mainBasePath
      (BuildFileStructure exampleTree mainBasePath usedFS).fs).fs =
      (BuildFileStructure exampleTree mainBasePath usedFS).fs :=
  have h := C13_materializer_idempotence exampleTree mainBasePath usedFS (by rfl)
  ⟨by rfl, by rfl, by rfl, h.1, h.2.1⟩

/-- C14: fail-fast.  On any file system, the `os` calls of a run of
`BuildFileStructure` are a start of the calls planned for the visited nodes
in pre-order (for each node the calls that create it, before those of its
children, before those of its later siblings).  The state left is that of
the calls made, in their order: it holds every directory and file of length
zero that was there before the run and the entry of every call that
succeeded.  With no error, all planned calls were made and none failed.  With
an error, the calls made end at the first call that failed, which is the one
the error returned reports; no planned call after it is made and the state is
the one the calls before it gave. -/
theorem C14_fail_fast (root : Node) (basePath : List Char) (fs : FS) :
    (BuildFileStructure root basePath fs).calls.map OsCall.sig <+: plannedCalls root basePath ∧
    (BuildFileStructure root basePath fs).fs =
      replay fs (BuildFileStructure root basePath fs).calls ∧
    Persist fs (BuildFileStructure root basePath fs).fs ∧
    (∀ c ∈ (BuildFileStructure root basePath fs).calls, c.err = none →
      (BuildFileStructure root basePath fs).fs.stat c.path =
        some (entryOf (decide (c.op = .mkdirAll)))) ∧
    ((BuildFileStructure root basePath fs).err = none →
      (∀ c ∈ (BuildFileStructure root basePath fs).calls, c.err = none) ∧
      (BuildFileStructure root basePath fs).calls.map OsCall.sig = plannedCalls root basePath) ∧
    (∀ e, (BuildFileStructure root basePath fs).err = some e →
      ∃ init last, (BuildFileStructure root basePath fs).calls = init ++ [last] ∧
        (∀ c ∈ init, c.err = none) ∧ last.err = some e.cause ∧ last.sig = e.failedCall ∧
        (BuildFileStructure root basePath fs).fs = replay fs init) := by
  obtain ⟨h1, h2, h3, h4, h5⟩ := BuildFileStructure_failFast root basePath fs
  refine ⟨?_, h1, h2, h3, h4, ?_⟩
  · cases he : (BuildFileStructure root basePath fs).err with
    | none =>
      rw [(h4 he).2]
      exact List.prefix_refl _
    | some e =>
      obtain ⟨init, last, a, -, -, -, b, -⟩ := h5 e he
      rw [a]
      exact b
  · intro e he
    obtain ⟨init, last, a, b, c, d, -, f⟩ := h5 e he
    exact ⟨init, last, a, b, c, d, f⟩

set_option maxRecDepth 100000 in
/-- C14 at a tree `r/` with the file `a`, the directory `a/` holding `c`,
and the file `b`, under `.` on an empty file system: the directory `a`
cannot be made over the file `a`, the run returns that failure, neither `c`
nor `b` is made, and `r` and the file `a` stay. -/
theorem C14_fail_fast_witness :
    (BuildFileStructure clashTree mainBasePath emptyFS).err =
      some (.createDirectory "r/a".toList .notDir) ∧
    (∃ init last, (BuildFileStructure clashTree mainBasePath emptyFS).calls = init ++ [last] ∧
      (∀ c ∈ init, c.err = none) ∧
      last.err = some (BuildError.createDirectory "r/a".toList .notDir).cause ∧
      last.sig = (BuildError.createDirectory "r/a".toList .notDir).failedCall ∧
      (BuildFileStructure clashTree mainBasePath emptyFS).fs = replay emptyFS init) ∧
    [(BuildFileStructure clashTree mainBasePath emptyFS).fs.stat "r".toList,
      (BuildFileStructure clashTree mainBasePath emptyFS).fs.stat "r/a".toList,
      (BuildFileStructure clashTree mainBasePath emptyFS).fs.stat "r/a/c".toList,
      (BuildFileStructure clashTree mainBasePath emptyFS).fs.stat "r/b".toList] =
      [some .dir, some (.file 0), none, none] ∧
    (BuildFileStructure clashTree mainBasePath emptyFS).calls.map OsCall.sig =
      (plannedCalls clashTree mainBasePath).take 4 ∧
    (plannedCalls clashTree mainBasePath).length = 8 :=
  ⟨by rfl, (C14_fail_fast clashTree mainBasePath emptyFS).2.2.2.2.2 _ (by rfl), by rfl, by rfl,
    by rfl⟩

end Fscribe
